import Mathlib

/-! # k-NN gesture classifier (`src/core/KNN.cpp`)

A shallow embedding of the class `KNNTrainer` and of the flat interface built on it.

Modelling conventions.

* `uint16_t` values are natural numbers below `65536`; a sample is a `List Nat`.
* `int` values (`k`, `max_samples`, labels, votes) are integers; the implicit conversion
  of an `int` to `size_t` in a comparison with a size is `toSizeT` (reduction modulo `2^64`).
* `double` values are integers: every value the program stores in a `double` is an integer of
  magnitude below `2^53`, on which double arithmetic is exact.
* A `float` is the rational number it stands for. A conversion to `float` and a `float`
  division round to the nearest number with a 24-bit significand, a tie going to the even
  significand (`to_float`); the range of the exponent is not modelled, since the quotients of
  a vote count by a neighbour count lie between `2^-64` and `2^31`.
* `std::priority_queue` is the adaptor over `std::vector` with the binary-heap algorithms
  `std::push_heap` and `std::pop_heap` as implemented in libstdc++ (`bits/stl_heap.h`).
* Reading `pq.top()` on an empty queue is undefined behaviour; it is the `none` result.
* A data directory is a function from the gesture id to the bytes of `vals<id>.dat`
  (`none` when the file cannot be opened); 16-bit values are stored little-endian.
* `load_data` gives the contents of the vectors after a load. Two steps of the load can be
  undefined. The call `file.read(data.data(), size)` stores `size` bytes into a vector of
  `16 * num_samples` bytes; the count of the bytes stored past its end is `read_overrun`. The
  call `selected.reserve(max_samples * 8)` multiplies in `int`. What an undefined step does is
  not modelled: `load_data_checked` is the load with these steps as the error result `none`,
  and it is `load_data` whenever it is not `none` (`load_data_checked_eq`).
* The random draws of a load are given by a function from the gesture id and the draw number
  to a raw number, reduced into the range of the uniform distribution.
-/

namespace KNN

/-! ## Machine integers -/

/-- Conversion of an `int` to `size_t` (64 bits). -/
def toSizeT (x : Int) : Nat := (x % 2 ^ 64).toNat

/-- The values of type `int`. -/
def IsCInt (x : Int) : Prop := -2 ^ 31 ≤ x ∧ x < 2 ^ 31

instance (x : Int) : Decidable (IsCInt x) := by unfold IsCInt; infer_instance

/-! ## `std::priority_queue<DistIndex, std::vector<DistIndex>, decltype(comp)>` -/

/-- The pair `std::pair<double, size_t>` of a squared distance and a sample index. -/
abbrev DistIndex := Int × Nat

/-- The comparator of the queue: `a.first < b.first`. -/
def comp (a b : DistIndex) : Bool := decide (a.1 < b.1)

/-- Element access `*(first + i)`. -/
def at_ (c : List DistIndex) (i : Nat) : DistIndex := c.getD i (0, 0)

/-- The loop of `std::__push_heap`: the hole moves up while its parent is smaller than
`value`. The first argument bounds the number of iterations; `holeIndex` is enough. -/
def push_heap_loop : Nat → List DistIndex → Nat → Nat → DistIndex → List DistIndex
  | 0, c, holeIndex, _, value => c.set holeIndex value
  | fuel + 1, c, holeIndex, topIndex, value =>
    let parent := (holeIndex - 1) / 2
    if holeIndex > topIndex && comp (at_ c parent) value then
      push_heap_loop fuel (c.set holeIndex (at_ c parent)) parent topIndex value
    else
      c.set holeIndex value

/-- The function `std::__push_heap(first, holeIndex, topIndex, value, comp)`. -/
def push_heap_aux (c : List DistIndex) (holeIndex topIndex : Nat) (value : DistIndex) :
    List DistIndex :=
  push_heap_loop holeIndex c holeIndex topIndex value

/-- The function `std::push_heap(first, last, comp)` on the whole vector. -/
def push_heap (c : List DistIndex) : List DistIndex :=
  push_heap_aux c (c.length - 1) 0 (at_ c (c.length - 1))

/-- The first loop of `std::__adjust_heap`: the hole moves down to the larger child while
it has two children. Returns the vector and the final hole. The first argument bounds the
number of iterations; `len` is enough. -/
def adjust_heap_loop : Nat → List DistIndex → Nat → Nat → List DistIndex × Nat
  | 0, c, secondChild, _ => (c, secondChild)
  | fuel + 1, c, holeIndex, len =>
    if holeIndex < (len - 1) / 2 then
      let secondChild := 2 * (holeIndex + 1)
      let secondChild := if comp (at_ c secondChild) (at_ c (secondChild - 1))
        then secondChild - 1 else secondChild
      adjust_heap_loop fuel (c.set holeIndex (at_ c secondChild)) secondChild len
    else
      (c, holeIndex)

/-- The function `std::__adjust_heap(first, holeIndex, len, value, comp)`, for `len ≥ 1`
(the only call, in `std::pop_heap`, has `len ≥ 1`). -/
def adjust_heap (c : List DistIndex) (holeIndex len : Nat) (value : DistIndex) :
    List DistIndex :=
  let topIndex := holeIndex
  let r := adjust_heap_loop len c holeIndex len
  let c := r.1
  let secondChild := r.2
  let holeIndex := secondChild
  if len % 2 = 0 ∧ secondChild = (len - 2) / 2 then
    let secondChild := 2 * (secondChild + 1)
    push_heap_aux (c.set holeIndex (at_ c (secondChild - 1))) (secondChild - 1) topIndex value
  else
    push_heap_aux c holeIndex topIndex value

/-- The function `std::pop_heap(first, last, comp)` on the whole vector: the greatest
element goes to the last position, the rest is a heap again. -/
def pop_heap (c : List DistIndex) : List DistIndex :=
  if c.length > 1 then
    let last := c.length - 1
    let value := at_ c last
    adjust_heap (c.set last (at_ c 0)) 0 last value
  else
    c

/-- The member `priority_queue::push`: `c.push_back(x); std::push_heap(...)`. -/
def pq_push (c : List DistIndex) (x : DistIndex) : List DistIndex :=
  push_heap (c ++ [x])

/-- The member `priority_queue::pop`: `std::pop_heap(...); c.pop_back()`. -/
def pq_pop (c : List DistIndex) : List DistIndex :=
  (pop_heap c).dropLast

/-- The member `priority_queue::top`: `c.front()`, undefined on an empty queue. -/
def pq_top (c : List DistIndex) : Option DistIndex := c.head?

/-! ## The classifier state -/

/-- The data members of `KNNTrainer`. -/
structure KNNTrainer where
  k : Int
  max_samples : Int
  trained : Bool
  samples : List (List Nat)
  labels : List Int
  squared_norms : List Int
deriving DecidableEq, Repr

/-- The constructor `KNNTrainer(k, max_samples)`, reached through `knn_create`. -/
def knn_create (k max_samples : Int) : KNNTrainer :=
  { k := k, max_samples := max_samples, trained := false,
    samples := [], labels := [], squared_norms := [] }

/-! ## `train` -/

/-- The inner loop of `train`: the sum of `val * val` over the 8 components. -/
def norm_sq (sample : List Nat) : Int :=
  (List.range 8).foldl (fun acc j => acc + (sample.getD j 0 : Int) * (sample.getD j 0 : Int)) 0

/-- The call `squared_norms.resize(n)`. -/
def resize (v : List Int) (n : Nat) : List Int :=
  v.take n ++ List.replicate (n - v.length) 0

/-- The method `train`: one squared norm per sample. -/
def train (t : KNNTrainer) : KNNTrainer :=
  let squared_norms := resize t.squared_norms t.samples.length
  { t with squared_norms := (List.range t.samples.length).foldl
                              (fun sn i => sn.set i (norm_sq (t.samples.getD i []))) squared_norms }

/-! ## `load_data` -/

/-- The 16-bit value number `p` of a file, little-endian. -/
def u16_at (bytes : List Nat) (p : Nat) : Nat :=
  bytes.getD (2 * p) 0 % 256 + 256 * (bytes.getD (2 * p + 1) 0 % 256)

/-- The vector `data` of `8 * num_samples` values after `file.read`: the first
`8 * num_samples` values of the file. The call asks for all `size` bytes of the file; the
bytes of a trailing incomplete record do not fit in the vector (see `read_overrun`). -/
def read_data (bytes : List Nat) (num_samples : Nat) : List Nat :=
  (List.range (8 * num_samples)).map (u16_at bytes)

/-- The subsampling loop: `max_samples` draws `idx` in `[0, num_samples)`, each appending the
8 values `data[idx * 8 + j]`. The call `selected.reserve` changes the capacity only; memory
allocation is taken to succeed. -/
def select (data : List Nat) (num_samples max_samples : Nat) (rnd : Nat → Nat) : List Nat :=
  (List.range max_samples).foldl
    (fun selected i =>
      let idx := rnd i % num_samples
      (List.range 8).foldl (fun sel j => sel ++ [data.getD (idx * 8 + j) 0]) selected)
    []

/-- The loop that appends the samples and the labels of one class. -/
def add_samples (data : List Nat) (num_samples : Nat) (gesture_id : Nat)
    (st : List (List Nat) × List Int) : List (List Nat) × List Int :=
  (List.range num_samples).foldl
    (fun st i => (st.1 ++ [(data.drop (i * 8)).take 8], st.2 ++ [(gesture_id : Int)]))
    st

/-- One iteration of the loop over the gesture ids in `load_data`: the contents of the vectors
after it. Its calls `file.read` and `selected.reserve` are taken as defined here;
`load_class_checked` is the iteration with their undefined cases as an error. -/
def load_class (max_samples : Int) (file : Option (List Nat)) (rnd : Nat → Nat)
    (gesture_id : Nat) (st : List (List Nat) × List Int) : List (List Nat) × List Int :=
  match file with
  | none => st
  | some bytes =>
    let size := bytes.length
    if size = 0 then st
    else
      let num_samples := size / (8 * 2)
      if num_samples = 0 then st
      else
        let data := read_data bytes num_samples
        if num_samples > toSizeT max_samples then
          let selected := select data num_samples (toSizeT max_samples) rnd
          add_samples selected (toSizeT max_samples) gesture_id st
        else
          add_samples data num_samples gesture_id st

/-- The method `load_data`, on the directory `fs` with the random draws `rnd`. -/
def load_data (t : KNNTrainer) (fs : Nat → Option (List Nat)) (rnd : Nat → Nat → Nat) :
    KNNTrainer :=
  let st := (List.range 10).foldl
    (fun st gesture_id => load_class t.max_samples (fs gesture_id) (rnd gesture_id) gesture_id st)
    (([], []) : List (List Nat) × List Int)
  let t := { t with samples := st.1, labels := st.2, squared_norms := [] }
  if !t.samples.isEmpty then
    { train t with trained := true }
  else
    t

/-! ## `classify` -/

/-- The first loop of `classify`: the sum of `val * val` over the query. -/
def query_norm_sq (query : List Nat) : Int :=
  query.foldl (fun (acc : Int) (val : Nat) => acc + (val : Int) * (val : Int)) 0

/-- The inner loop of the scan: the sum of `sample[j] * query[j]` over the 8 components. -/
def dot_product (sample query : List Nat) : Int :=
  (List.range 8).foldl (fun acc j => acc + (sample.getD j 0 : Int) * (query.getD j 0 : Int)) 0

/-- The value `dist_sq` computed for the sample `i`. -/
def dist_sq (t : KNNTrainer) (query : List Nat) (i : Nat) : Int :=
  t.squared_norms.getD i 0 + query_norm_sq query - 2 * dot_product (t.samples.getD i []) query

/-- The admission step of the scan for the sample `i` with distance `d`. -/
def admit_step (k : Int) (pq : List DistIndex) (d : Int) (i : Nat) : Option (List DistIndex) :=
  if pq.length < toSizeT k then
    some (pq_push pq (d, i))
  else
    match pq_top pq with
    | none => none
    | some top =>
      if d < top.1 then some (pq_push (pq_pop pq) (d, i)) else some pq

/-- The scan of all samples: the queue after the loop over `i`. -/
def scan (t : KNNTrainer) (query : List Nat) : Option (List DistIndex) :=
  (List.range t.samples.length).foldlM
    (fun pq i => admit_step t.k pq (dist_sq t query i) i) []

/-- The body of the vote loop for the neighbour index `idx`. -/
def vote (labels : List Int) (votes : List Int) (idx : Nat) : List Int :=
  if idx < labels.length then
    let label := labels.getD idx 0
    if label ≥ 0 ∧ label < 10 then
      votes.set label.toNat (votes.getD label.toNat 0 + 1)
    else votes
  else votes

/-- The vote loop `while (!pq.empty())`. The first argument bounds the number of iterations;
the size of the queue is enough. -/
def tally_loop : Nat → List Int → List DistIndex → List Int → List Int
  | 0, _, _, votes => votes
  | fuel + 1, labels, pq, votes =>
    match pq_top pq with
    | none => votes
    | some top => tally_loop fuel labels (pq_pop pq) (vote labels votes top.2)

/-- The vote tally of a queue, from `std::vector<int> votes(10, 0)`. -/
def tally (labels : List Int) (pq : List DistIndex) : List Int :=
  tally_loop pq.length labels pq (List.replicate 10 0)

/-- The loop over the 10 buckets: the pair `(prediction, max_votes)`. -/
def find_max (votes : List Int) : Int × Int :=
  (List.range 10).foldl
    (fun (r : Int × Int) i => if votes.getD i 0 > r.2 then ((i : Int), votes.getD i 0) else r)
    (0, 0)

/-- Rounding of a rational to the nearest integer, a tie going to the even one. -/
def round_even (x : ℚ) : Int :=
  if x - ⌊x⌋ < 1 / 2 then ⌊x⌋
  else if 1 / 2 < x - ⌊x⌋ then ⌊x⌋ + 1
  else if ⌊x⌋ % 2 = 0 then ⌊x⌋ else ⌊x⌋ + 1

/-- The `float` that a value is rounded to: with `2^e ≤ |x| < 2^(e+1)`, the multiple of
`2^(e-23)` nearest to `x`, a tie going to the even multiple. -/
def to_float (x : ℚ) : ℚ :=
  if x = 0 then 0
  else (round_even (x / 2 ^ (Int.log 2 |x| - 23)) : ℚ) * 2 ^ (Int.log 2 |x| - 23)

/-- The confidence `(count > 0) ? static_cast<float>(max_votes) / count : 0.0f`: the `int`
is converted to `float`, the `size_t` is converted to `float` for the division, and the
quotient is a `float`. -/
def confidence (max_votes : Int) (count : Nat) : ℚ :=
  if count > 0 then to_float (to_float (max_votes : ℚ) / to_float (count : ℚ)) else 0

/-- The method `classify`. -/
def classify (t : KNNTrainer) (query : List Nat) : Option (Int × ℚ) :=
  if !t.trained || t.samples.isEmpty then
    some (0, 0)
  else
    match scan t query with
    | none => none
    | some pq =>
      let votes := tally t.labels pq
      let count := pq.length
      let r := find_max votes
      some (r.1, confidence r.2 count)

/-! ## The heap property -/

/-- The key of the element at position `i`: its squared distance. -/
def key (l : List DistIndex) (i : Nat) : Int := (at_ l i).1

/-- The first `n` elements form a heap for `comp`: no element is smaller than a child. -/
def IsHeap (l : List DistIndex) (n : Nat) : Prop :=
  ∀ i, 0 < i → i < n → key l i ≤ key l ((i - 1) / 2)

/-- The first `n` elements form a heap but for the relation between position `h` and its
parent, and the children of `h` are not greater than the parent of `h`. -/
def HoleHeap (l : List DistIndex) (n h : Nat) : Prop :=
  (∀ i, 0 < i → i < n → i ≠ h → key l i ≤ key l ((i - 1) / 2)) ∧
  (∀ i, 0 < i → i < n → (i - 1) / 2 = h → 0 < h → key l i ≤ key l ((h - 1) / 2))

/-- The whole vector is a heap. -/
def Heap (l : List DistIndex) : Prop := IsHeap l l.length

/-! ## The invariant of the scan -/

/-- The state of the queue after the scan of the samples `0 .. i-1` with distances `d` and
capacity `K`: a heap of `min K i` entries with distinct indices, each with its distance, no
retained distance above a discarded one; below capacity nothing is discarded. -/
structure ScanInv (K : Nat) (d : Nat → Int) (i : Nat) (pq : List DistIndex) : Prop where
  heap : Heap pq
  len : pq.length = min K i
  nodup : (pq.map Prod.snd).Nodup
  mem : ∀ e ∈ pq, e.2 < i ∧ e.1 = d e.2
  small : ∀ e ∈ pq, ∀ j, j < i → j ∉ pq.map Prod.snd → e.1 ≤ d j
  all : pq.length < K → ∀ j, j < i → j ∈ pq.map Prod.snd

/-! ## The data model invariant -/

/-- The number of complete 8-value records of a class file; none when the file is missing. -/
def record_count (file : Option (List Nat)) : Nat :=
  match file with
  | none => 0
  | some bytes => bytes.length / 16

/-- The number of samples a class file contributes under the cap `max_samples`. -/
def class_count (max_samples : Int) (file : Option (List Nat)) : Nat :=
  if record_count file > toSizeT max_samples then toSizeT max_samples else record_count file

/-- The data model invariant of the classifier state. -/
structure WF (t : KNNTrainer) : Prop where
  k_int : IsCInt t.k
  max_int : IsCInt t.max_samples
  labels_len : t.labels.length = t.samples.length
  norms_len : t.squared_norms.length = t.samples.length
  sample_len : ∀ s ∈ t.samples, s.length = 8
  sample_u16 : ∀ s ∈ t.samples, ∀ x ∈ s, x < 65536
  label_range : ∀ c ∈ t.labels, 0 ≤ c ∧ c < 10
  norms : ∀ i, i < t.samples.length → t.squared_norms.getD i 0 = norm_sq (t.samples.getD i [])
  trained : t.samples ≠ [] → t.trained = true

/-! ## A small data set -/

/-- A directory with the files of the classes 0, 1 and 2, of two records each. -/
def example_dir : Nat → Option (List Nat) :=
  fun g => if g < 3 then some ((List.range 32).map (fun x => (x + 1) * (g + 1))) else none

/-- A sequence of draws. -/
def example_rnd : Nat → Nat → Nat := fun _ i => i + 1

/-- The classifier with `k = 3` and a cap of 2 samples per class, loaded from `example_dir`. -/
def example_state : KNNTrainer := load_data (knn_create 3 2) example_dir example_rnd

/-- A query. -/
def example_query : List Nat := [513, 1027, 1541, 2055, 2569, 3083, 3597, 4111]

/-- The classifier with `k = 1` and a cap of 2 samples per class, loaded from `example_dir`. -/
def example_state_k1 : KNNTrainer := load_data (knn_create 1 2) example_dir example_rnd

/-- A directory with the file of class 4 only, of three records. -/
def single_dir : Nat → Option (List Nat) :=
  fun g => if g = 4 then some ((List.range 48).map (fun x => 3 * x + 1)) else none

/-- The classifier with `k = 2` and a cap of 2 samples per class, loaded from `single_dir`:
the class file has more records than the cap. -/
def single_state : KNNTrainer := load_data (knn_create 2 2) single_dir example_rnd

/-! ## Reachable states -/

/-- The states of a classifier made by `knn_create` and then loaded any number of times. -/
inductive Reachable : KNNTrainer → Prop
  | create (k max_samples : Int) (hk : IsCInt k) (hm : IsCInt max_samples) :
      Reachable (knn_create k max_samples)
  | load (t : KNNTrainer) (fs : Nat → Option (List Nat)) (rnd : Nat → Nat → Nat) :
      Reachable t → Reachable (load_data t fs rnd)

/-! ## Sequences of loads -/

/-- The state after the loads `ops`, each a directory with its random draws, in order. -/
def loads (t : KNNTrainer) (ops : List ((Nat → Option (List Nat)) × (Nat → Nat → Nat))) :
    KNNTrainer :=
  ops.foldl (fun s o => load_data s o.1 o.2) t

/-- The example classifier, then loaded from a directory where all 10 files are missing. -/
def reloaded_state : KNNTrainer := load_data example_state (fun _ => none) example_rnd

/-! ## The records of a class file -/

/-- The complete record number `r` of a class file: its values `r * 8 .. r * 8 + 7`. -/
def record (bytes : List Nat) (r : Nat) : List Nat :=
  (List.range 8).map (fun j => u16_at bytes (r * 8 + j))

/-- The records that a class file contributes, in the order stored: all the complete records
in file order, or, above the cap, the records at the drawn indices. -/
def class_records (max_samples : Int) (file : Option (List Nat)) (rnd : Nat → Nat) :
    List (List Nat) :=
  match file with
  | none => []
  | some bytes =>
    if bytes.length / 16 > toSizeT max_samples then
      (List.range (toSizeT max_samples)).map (fun i => record bytes (rnd i % (bytes.length / 16)))
    else
      (List.range (bytes.length / 16)).map (record bytes)

/-- The number of bytes that `file.read(data.data(), size)` stores past the end of `data`, a
vector of `8 * num_samples` values of 2 bytes. -/
def read_overrun (bytes : List Nat) : Nat :=
  bytes.length - 8 * (bytes.length / (8 * 2)) * 2

/-- The argument of `selected.reserve(max_samples * 8)` is defined: the product is evaluated
in `int`, so it has to be a value of `int`, and a negative product converts to a `size_t`
above `max_size()`, for which `reserve` throws. -/
def reserve_defined (max_samples : Int) : Bool :=
  decide (0 ≤ max_samples * 8 ∧ max_samples * 8 < 2 ^ 31)

/-- One iteration of the loop over the gesture ids in `load_data`, with its two undefined
steps as the error result `none`: the call `file.read(data.data(), size)` when it stores bytes
past the end of `data`, and the call `selected.reserve(max_samples * 8)` when its argument is
not defined. -/
def load_class_checked (max_samples : Int) (file : Option (List Nat)) (rnd : Nat → Nat)
    (gesture_id : Nat) (st : List (List Nat) × List Int) :
    Option (List (List Nat) × List Int) :=
  match file with
  | none => some st
  | some bytes =>
    let size := bytes.length
    if size = 0 then some st
    else
      let num_samples := size / (8 * 2)
      if num_samples = 0 then some st
      else if read_overrun bytes ≠ 0 then none
      else
        let data := read_data bytes num_samples
        if num_samples > toSizeT max_samples then
          if reserve_defined max_samples then
            let selected := select data num_samples (toSizeT max_samples) rnd
            some (add_samples selected (toSizeT max_samples) gesture_id st)
          else none
        else
          some (add_samples data num_samples gesture_id st)

/-- The method `load_data` with the undefined steps of its loop as the error result `none`:
the loop stops at the first class whose iteration is undefined. -/
def load_data_checked (t : KNNTrainer) (fs : Nat → Option (List Nat))
    (rnd : Nat → Nat → Nat) : Option KNNTrainer :=
  match (List.range 10).foldlM
    (fun st gesture_id =>
      load_class_checked t.max_samples (fs gesture_id) (rnd gesture_id) gesture_id st)
    (([], []) : List (List Nat) × List Int) with
  | none => none
  | some st =>
    let t := { t with samples := st.1, labels := st.2, squared_norms := [] }
    if !t.samples.isEmpty then
      some { train t with trained := true }
    else
      some t

/-- The stored samples with the label `c`, in stored order. -/
def class_samples (t : KNNTrainer) (c : Int) : List (List Nat) :=
  ((t.samples.zip t.labels).filter (fun p => decide (p.2 = c))).map Prod.fst

/-- A class file of 31 bytes: one complete record and 15 trailing bytes. -/
def trailing_file : List Nat := (List.range 31).map (fun x => x + 1)

/-- A directory with the file of class 0 only, `trailing_file`. -/
def trailing_dir : Nat → Option (List Nat) := fun g => if g = 0 then some trailing_file else none

/-- A class file of 47 bytes: two complete records and 15 trailing bytes. -/
def capped_trailing_file : List Nat := (List.range 47).map (fun x => x + 1)

/-- A directory with the file of class 3 only, `capped_trailing_file`. -/
def capped_trailing_dir : Nat → Option (List Nat) :=
  fun g => if g = 3 then some capped_trailing_file else none

/-- The pair of a stored sample `s` and its label `l` comes from the file of a class below
`bound`: `l` is that class and `s` is a complete record of its file, at a drawn index when the
file has more records than the cap `max_samples`. -/
def FromFile (max_samples : Int) (fs : Nat → Option (List Nat)) (rnd : Nat → Nat → Nat)
    (bound : Nat) (s : List Nat) (l : Int) : Prop :=
  ∃ c : Nat, c < bound ∧ l = (c : Int) ∧ ∃ (bytes : List Nat) (r : Nat),
    fs c = some bytes ∧ r < bytes.length / 16 ∧ s = record bytes r ∧
    (bytes.length / 16 > toSizeT max_samples →
      ∃ j, j < toSizeT max_samples ∧ r = rnd c j % (bytes.length / 16))

/-! ## Data sets with equal distances -/

/-- The 16 bytes of the record with the value 1 in the component `j` and 0 elsewhere. -/
def unit_record (j : Nat) : List Nat := (List.range 16).map (fun p => if p = 2 * j then 1 else 0)

/-- The 16 bytes of the record with the value 0 in every component. -/
def zero_record : List Nat := List.replicate 16 0

/-- A directory with the files of the classes 0, 1 and 2, of two records each; the first
record of class 2 is the zero vector, every other record is at squared distance 1 from it. -/
def tie_dir : Nat → Option (List Nat) := fun g =>
  if g = 0 then some (unit_record 0 ++ unit_record 1)
  else if g = 1 then some (unit_record 2 ++ unit_record 3)
  else if g = 2 then some (zero_record ++ unit_record 4)
  else none

/-- The classifier with `k = 3` and the default cap, loaded from `tie_dir`. -/
def tie_state : KNNTrainer := load_data (knn_create 3 1500) tie_dir example_rnd

/-- A directory with the files of the classes 0, 1 and 2, of one record each; the record of
class 2 is the zero vector, the two others are at squared distance 1 from it. -/
def heap_tie_dir : Nat → Option (List Nat) := fun g =>
  if g = 0 then some (unit_record 0)
  else if g = 1 then some (unit_record 1)
  else if g = 2 then some zero_record
  else none

/-- The classifier with `k = 2` and the default cap, loaded from `heap_tie_dir`. -/
def heap_tie_state : KNNTrainer := load_data (knn_create 2 1500) heap_tie_dir example_rnd

/-- The query with the value 0 in every component. -/
def zero_query : List Nat := List.replicate 8 0

/-! ## The accumulators of the loops -/

/-- The value of `norm_sq` in `train` after `m` iterations of the inner loop. -/
def norm_acc (sample : List Nat) (m : Nat) : Int :=
  (List.range m).foldl (fun acc j => acc + (sample.getD j 0 : Int) * (sample.getD j 0 : Int)) 0

/-- The value of `query_norm_sq` in `classify` after the first `m` values of the query. -/
def query_acc (query : List Nat) (m : Nat) : Int :=
  (query.take m).foldl (fun (acc : Int) (val : Nat) => acc + (val : Int) * (val : Int)) 0

/-- The value of `dot_product` in `classify` after `m` iterations of the inner loop. -/
def dot_acc (sample query : List Nat) (m : Nat) : Int :=
  (List.range m).foldl (fun acc j => acc + (sample.getD j 0 : Int) * (query.getD j 0 : Int)) 0

/-- The sample with the value 65535 in every component. -/
def max_sample : List Nat := List.replicate 8 65535

/-! ## The scan, step by step -/

/-- The queue of `classify` before the iteration `i` of the scan: after the samples
`0 .. i-1`. -/
def scan_upto (t : KNNTrainer) (query : List Nat) (i : Nat) : Option (List DistIndex) :=
  (List.range i).foldlM (fun pq j => admit_step t.k pq (dist_sq t query j) j) []

/-- The classifier with `k = 0`, loaded from `example_dir`. -/
def zero_k_state : KNNTrainer := load_data (knn_create 0 2) example_dir example_rnd

/-- The classifier with `k = -1`, loaded from `example_dir`. -/
def negative_k_state : KNNTrainer := load_data (knn_create (-1) 2) example_dir example_rnd

/-! ## The sort-and-truncate reference -/

/-- The order of the reference sort: by squared distance only. -/
def dist_le (a b : DistIndex) : Prop := a.1 ≤ b.1

instance : DecidableRel dist_le := fun a b => Int.decLe a.1 b.1

instance : IsTotal DistIndex dist_le := ⟨fun a b => le_total a.1 b.1⟩

instance : IsTrans DistIndex dist_le := ⟨fun _ _ _ h1 h2 => le_trans h1 h2⟩

/-- The pairs `(dist_sq, index)` of all the stored samples, in stored order. -/
def dist_pairs (t : KNNTrainer) (query : List Nat) : List DistIndex :=
  (List.range t.samples.length).map (fun i => (dist_sq t query i, i))

/-- The reference selection: the pairs sorted by `dist_sq`, equal distances in stored order
(an insertion sort, which is stable), cut to the first `min(k, n)`. -/
def sort_truncate (t : KNNTrainer) (query : List Nat) : List DistIndex :=
  ((dist_pairs t query).insertionSort dist_le).take (min t.k.toNat t.samples.length)

/-- The pairs that the reference selection drops: the sorted pairs after the first
`min(k, n)`. -/
def sort_dropped (t : KNNTrainer) (query : List Nat) : List DistIndex :=
  ((dist_pairs t query).insertionSort dist_le).drop (min t.k.toNat t.samples.length)

/-- The votes of a list of neighbours, tallied with the body of the vote loop. -/
def tally_list (labels : List Int) (kept : List DistIndex) : List Int :=
  kept.foldl (fun votes e => vote labels votes e.2) (List.replicate 10 0)

/-- The reference classifier: sort and truncate, then the same tally, prediction and
confidence as `classify`. -/
def classify_ref (t : KNNTrainer) (query : List Nat) : Int × ℚ :=
  if !t.trained || t.samples.isEmpty then
    (0, 0)
  else
    let kept := sort_truncate t query
    let r := find_max (tally_list t.labels kept)
    (r.1, confidence r.2 kept.length)

/-- The 16 bytes of the record with the value 2 in component `j` and 0 elsewhere. -/
def two_record (j : Nat) : List Nat := (List.range 16).map (fun p => if p = 2 * j then 2 else 0)

/-- A directory with the files of the classes 1, 4 and 7, of two records each; the records of
class 4 are the zero vector and a vector at squared distance 1 from it, every record of the
two other classes is at squared distance 4 from the zero vector. -/
def far_dir : Nat → Option (List Nat) := fun g =>
  if g = 1 then some (two_record 0 ++ two_record 1)
  else if g = 4 then some (zero_record ++ unit_record 4)
  else if g = 7 then some (two_record 2 ++ two_record 3)
  else none

/-- The classifier with `k = 3` and the default cap, loaded from `far_dir`. -/
def far_state : KNNTrainer := load_data (knn_create 3 1500) far_dir example_rnd

/-- A directory with the files of the classes 0, 1 and 2, of one record each: the zero
vector twice, and a vector at squared distance 1 from it. -/
def repeat_dir : Nat → Option (List Nat) := fun g =>
  if g = 0 then some zero_record
  else if g = 1 then some zero_record
  else if g = 2 then some (unit_record 0)
  else none

/-- The classifier with `k = 2` and the default cap, loaded from `repeat_dir`. -/
def repeat_state : KNNTrainer := load_data (knn_create 2 1500) repeat_dir example_rnd

/-! ## The binary heap: element access and permutations -/

theorem at_set_self (c : List DistIndex) (i : Nat) (v : DistIndex) (h : i < c.length) :
    at_ (c.set i v) i = v := by
  simp [at_, h]

theorem at_set_ne (c : List DistIndex) (i j : Nat) (v : DistIndex) (h : i ≠ j) :
    at_ (c.set i v) j = at_ c j := by
  simp [at_, h]

theorem at_eq_getElem (l : List DistIndex) (i : Nat) (h : i < l.length) : at_ l i = l[i] := by
  simp [at_, h]

theorem bool_getElem_le_count (l : List DistIndex) (i : Nat) (h : i < l.length) (a : DistIndex) :
    (if (@BEq.beq _ instBEqOfDecidableEq l[i] a) = true then 1 else 0) ≤ @List.count _ instBEqOfDecidableEq a l := by
  unfold List.count
  exact @List.boole_getElem_le_countP DistIndex (fun x => @BEq.beq _ instBEqOfDecidableEq x a) l i h

/-- Moving the element at `p` into the hole `h` and the value into `p` permutes the vector
with the hole filled. -/
theorem set_set_perm (l : List DistIndex) (h p : Nat) (v : DistIndex)
    (hh : h < l.length) (hp : p < l.length) (hne : h ≠ p) :
    ((l.set h (at_ l p)).set p v).Perm (l.set h v) := by
  rw [List.perm_iff_count]
  intro a
  have hp2 : p < (l.set h (at_ l p)).length := by simpa using hp
  rw [@List.count_set _ instBEqOfDecidableEq _ _ _ _ hp2,
    @List.count_set _ instBEqOfDecidableEq _ _ _ _ hh,
    @List.count_set _ instBEqOfDecidableEq _ _ _ _ hh]
  have e1 : (l.set h (at_ l p))[p] = l[p] := by
    rw [List.getElem_set]; simp [hne]
  rw [e1, at_eq_getElem l p hp]
  have b1 := bool_getElem_le_count l h hh a
  have b2 := bool_getElem_le_count l p hp a
  split_ifs <;> omega

/-! ## The binary heap: `std::__push_heap` -/

theorem key_set_self (l : List DistIndex) (i : Nat) (v : DistIndex) (h : i < l.length) :
    key (l.set i v) i = v.1 := by
  simp [key, at_set_self l i v h]

theorem key_set_ne (l : List DistIndex) (i j : Nat) (v : DistIndex) (h : i ≠ j) :
    key (l.set i v) j = key l j := by
  simp [key, at_set_ne l i j v h]

theorem push_heap_loop_perm : ∀ (fuel : Nat) (l : List DistIndex) (hole top : Nat)
    (v : DistIndex), hole < l.length →
    (push_heap_loop fuel l hole top v).Perm (l.set hole v) := by
  intro fuel
  induction fuel with
  | zero => intro l hole top v _; exact List.Perm.refl _
  | succ fuel ih =>
    intro l hole top v hlen
    unfold push_heap_loop
    simp only []
    split
    · rename_i hc
      simp only [Bool.and_eq_true, decide_eq_true_eq] at hc
      have hp : (hole - 1) / 2 < hole := by omega
      have h1 := ih (l.set hole (at_ l ((hole - 1) / 2))) ((hole - 1) / 2) top v
        (by simp; omega)
      exact h1.trans (set_set_perm l hole ((hole - 1) / 2) v hlen (by omega) (by omega))
    · exact List.Perm.refl _

theorem push_heap_loop_above : ∀ (fuel : Nat) (l : List DistIndex) (hole top : Nat)
    (v : DistIndex) (j : Nat), hole < j →
    at_ (push_heap_loop fuel l hole top v) j = at_ l j := by
  intro fuel
  induction fuel with
  | zero => intro l hole top v j hj; exact at_set_ne l hole j v (by omega)
  | succ fuel ih =>
    intro l hole top v j hj
    unfold push_heap_loop
    simp only []
    split
    · rw [ih _ _ _ _ j (by omega)]
      exact at_set_ne l hole j _ (by omega)
    · exact at_set_ne l hole j v (by omega)

theorem push_heap_loop_heap : ∀ (fuel : Nat) (l : List DistIndex) (hole : Nat)
    (v : DistIndex) (n : Nat), hole ≤ fuel → hole < n → n ≤ l.length →
    HoleHeap (l.set hole v) n hole →
    IsHeap (push_heap_loop fuel l hole 0 v) n := by
  intro fuel
  induction fuel with
  | zero =>
    intro l hole v n hf _ _ hh
    have h0 : hole = 0 := by omega
    subst h0
    intro i hi hin
    exact hh.1 i hi hin (by omega)
  | succ fuel ih =>
    intro l hole v n hf hn hl hh
    unfold push_heap_loop
    simp only []
    have hlen : hole < l.length := by omega
    have kFh : key (l.set hole v) hole = v.1 := key_set_self l hole v hlen
    have kFo : ∀ j, j ≠ hole → key (l.set hole v) j = key l j :=
      fun j hj => key_set_ne l hole j v (Ne.symm hj)
    split
    · rename_i hc
      simp only [Bool.and_eq_true, decide_eq_true_eq, comp] at hc
      obtain ⟨hpos, hlt⟩ := hc
      have hp : (hole - 1) / 2 < hole := by omega
      have hlt2 : key l ((hole - 1) / 2) < v.1 := hlt
      generalize hpd : (hole - 1) / 2 = p at *
      have hplen : p < (l.set hole (at_ l p)).length := by simp; omega
      have kGp : key ((l.set hole (at_ l p)).set p v) p = v.1 := key_set_self _ p v hplen
      have kGh : key ((l.set hole (at_ l p)).set p v) hole = key l p := by
        rw [key_set_ne _ p hole v (by omega), key_set_self l hole _ hlen]
        rfl
      have kGo : ∀ j, j ≠ p → j ≠ hole → key ((l.set hole (at_ l p)).set p v) j = key l j := by
        intro j h1 h2
        rw [key_set_ne _ p j v (Ne.symm h1), key_set_ne l hole j _ (Ne.symm h2)]
      apply ih _ _ _ n (by omega) (by omega) (by simp; omega)
      constructor
      · intro i hi hin hne
        by_cases hih : i = hole
        · rw [hih, hpd, kGh, kGp]
          omega
        · rw [kGo i hne hih]
          have h1 := hh.1 i hi hin hih
          rw [kFo i hih] at h1
          by_cases hpp : (i - 1) / 2 = p
          · rw [hpp, kGp]
            rw [hpp, kFo p (by omega)] at h1
            omega
          · by_cases hph : (i - 1) / 2 = hole
            · rw [hph, kGh]
              have h2 := hh.2 i hi hin hph hpos
              rw [kFo i hih, hpd, kFo p (by omega)] at h2
              exact h2
            · rw [kGo _ hpp hph]
              rw [kFo _ hph] at h1
              exact h1
      · intro i hi hin hpi hppos
        have hq : (p - 1) / 2 < p := by omega
        rw [kGo ((p - 1) / 2) (by omega) (by omega)]
        have hpar := hh.1 p hppos (by omega) (by omega)
        rw [kFo p (by omega), kFo ((p - 1) / 2) (by omega)] at hpar
        by_cases hih : i = hole
        · rw [hih, kGh]
          exact hpar
        · rw [kGo i (by omega) hih]
          have h1 := hh.1 i hi hin hih
          rw [kFo i hih, hpi, kFo p (by omega)] at h1
          omega
    · rename_i hc
      simp only [Bool.and_eq_true, decide_eq_true_eq, comp, not_and, not_lt] at hc
      intro i hi hin
      by_cases hih : i = hole
      · rw [hih, kFh, kFo _ (by omega)]
        exact hc (by omega)
      · exact hh.1 i hi hin hih

/-! ## The binary heap: `std::__adjust_heap` -/

theorem larger_child (l : List DistIndex) (hole : Nat) :
    ∃ sc, (if comp (at_ l (2 * (hole + 1))) (at_ l (2 * (hole + 1) - 1))
        then 2 * (hole + 1) - 1 else 2 * (hole + 1)) = sc ∧
      (sc = 2 * hole + 1 ∨ sc = 2 * hole + 2) ∧
      (∀ i, i = 2 * hole + 1 ∨ i = 2 * hole + 2 → key l i ≤ key l sc) := by
  by_cases hc : comp (at_ l (2 * (hole + 1))) (at_ l (2 * (hole + 1) - 1)) = true
  · refine ⟨2 * hole + 1, by simp [hc]; omega, Or.inl rfl, ?_⟩
    simp only [comp, decide_eq_true_eq] at hc
    have e1 : 2 * (hole + 1) = 2 * hole + 2 := by omega
    have e2 : 2 * (hole + 1) - 1 = 2 * hole + 1 := by omega
    rw [e2, e1] at hc
    intro i hi
    rcases hi with hi | hi
    · rw [hi]
    · rw [hi]; exact le_of_lt hc
  · refine ⟨2 * hole + 2, by simp [hc]; omega, Or.inr rfl, ?_⟩
    simp only [comp, decide_eq_true_eq, not_lt] at hc
    have e1 : 2 * (hole + 1) = 2 * hole + 2 := by omega
    have e2 : 2 * (hole + 1) - 1 = 2 * hole + 1 := by omega
    rw [e2, e1] at hc
    intro i hi
    rcases hi with hi | hi
    · rw [hi]; exact hc
    · rw [hi]

theorem adjust_step_heap (l : List DistIndex) (hole sc len : Nat)
    (hsc : sc = 2 * hole + 1 ∨ sc = 2 * hole + 2) (hlen : len ≤ l.length) (hs : sc < len)
    (hmax : ∀ i, i = 2 * hole + 1 ∨ i = 2 * hole + 2 → i < len → key l i ≤ key l sc)
    (hh : IsHeap l len) : IsHeap (l.set hole (at_ l sc)) len := by
  have hhl : hole < l.length := by omega
  have kh : key (l.set hole (at_ l sc)) hole = key l sc := by
    rw [key_set_self l hole _ hhl]; rfl
  have ko : ∀ j, j ≠ hole → key (l.set hole (at_ l sc)) j = key l j :=
    fun j hj => key_set_ne l hole j _ (Ne.symm hj)
  have hps : (sc - 1) / 2 = hole := by omega
  intro i hi hin
  by_cases hih : i = hole
  · rw [hih, kh, ko _ (by omega)]
    have h1 := hh sc (by omega) hs
    rw [hps] at h1
    have h2 := hh hole (by omega) (by omega)
    omega
  · rw [ko i hih]
    by_cases hph : (i - 1) / 2 = hole
    · rw [hph, kh]
      exact hmax i (by omega) hin
    · rw [ko _ hph]
      exact hh i hi hin

theorem adjust_heap_loop_spec : ∀ (fuel : Nat) (l : List DistIndex) (hole len : Nat),
    len ≤ fuel + hole → hole < len → len ≤ l.length →
    (adjust_heap_loop fuel l hole len).1.length = l.length ∧
    hole ≤ (adjust_heap_loop fuel l hole len).2 ∧
    (adjust_heap_loop fuel l hole len).2 < len ∧
    ¬ (adjust_heap_loop fuel l hole len).2 < (len - 1) / 2 ∧
    (∀ v, (((adjust_heap_loop fuel l hole len).1).set
        (adjust_heap_loop fuel l hole len).2 v).Perm (l.set hole v)) ∧
    (∀ j, len ≤ j → at_ (adjust_heap_loop fuel l hole len).1 j = at_ l j) ∧
    (IsHeap l len → IsHeap (adjust_heap_loop fuel l hole len).1 len) := by
  intro fuel
  induction fuel with
  | zero => intro l hole len h1 h2 _; omega
  | succ fuel ih =>
    intro l hole len hf hh hl
    unfold adjust_heap_loop
    simp only []
    split
    · rename_i hlt
      obtain ⟨sc, hsc, hcase, hmax⟩ := larger_child l hole
      rw [hsc]
      have hs : sc < len := by omega
      have hgt : hole < sc := by omega
      obtain ⟨i1, i2, i3, i4, i5, i6, i7⟩ :=
        ih (l.set hole (at_ l sc)) sc len (by omega) hs (by simpa using hl)
      refine ⟨by simpa using i1, by omega, i3, i4, ?_, ?_, ?_⟩
      · intro v
        exact (i5 v).trans (set_set_perm l hole sc v (by omega) (by omega) (by omega))
      · intro j hj
        rw [i6 j hj]
        exact at_set_ne l hole j _ (by omega)
      · intro hheap
        exact i7 (adjust_step_heap l hole sc len hcase hl hs (fun i hi _ => hmax i hi) hheap)
    · rename_i hlt
      exact ⟨rfl, le_refl _, hh, hlt, fun v => List.Perm.refl _, fun j _ => rfl, fun h => h⟩

/-- A heap with a leaf overwritten is a heap but at the leaf. -/
theorem leaf_hole_heap (l : List DistIndex) (hole len : Nat) (v : DistIndex)
    (hleaf : len ≤ 2 * hole + 1) (hh : IsHeap l len) :
    HoleHeap (l.set hole v) len hole := by
  have ko : ∀ j, j ≠ hole → key (l.set hole v) j = key l j :=
    fun j hj => key_set_ne l hole j _ (Ne.symm hj)
  constructor
  · intro i hi hin hne
    rw [ko i hne, ko _ (by omega)]
    exact hh i hi hin
  · intro i hi hin hp _
    omega

theorem adjust_heap_spec (l : List DistIndex) (len : Nat) (v : DistIndex)
    (h1 : 1 ≤ len) (hl : len ≤ l.length) :
    (adjust_heap l 0 len v).Perm (l.set 0 v) ∧
    (∀ j, len ≤ j → at_ (adjust_heap l 0 len v) j = at_ l j) ∧
    (IsHeap l len → IsHeap (adjust_heap l 0 len v) len) := by
  obtain ⟨i1, i2, i3, i4, i5, i6, i7⟩ := adjust_heap_loop_spec len l 0 len (by omega) (by omega) hl
  unfold adjust_heap
  simp only []
  generalize (adjust_heap_loop len l 0 len).1 = c1 at *
  generalize (adjust_heap_loop len l 0 len).2 = h1 at *
  split
  · rename_i hc
    have e : 2 * (h1 + 1) - 1 = 2 * h1 + 1 := by omega
    rw [e]
    have hch : 2 * h1 + 1 < len := by omega
    have hlen2 : 2 * h1 + 1 < (c1.set h1 (at_ c1 (2 * h1 + 1))).length := by simp; omega
    refine ⟨?_, ?_, ?_⟩
    · unfold push_heap_aux
      refine (push_heap_loop_perm _ _ _ _ _ hlen2).trans ?_
      exact (set_set_perm c1 h1 (2 * h1 + 1) v (by omega) (by omega) (by omega)).trans (i5 v)
    · intro j hj
      unfold push_heap_aux
      rw [push_heap_loop_above _ _ _ _ _ j (by omega), at_set_ne _ _ _ _ (by omega)]
      exact i6 j hj
    · intro hheap
      unfold push_heap_aux
      apply push_heap_loop_heap _ _ _ _ len (le_refl _) hch (by simp; omega)
      apply leaf_hole_heap _ _ _ _ (by omega)
      exact adjust_step_heap c1 h1 (2 * h1 + 1) len (Or.inl rfl) (by omega) hch
        (fun i hi hin => by
          have : i = 2 * h1 + 1 := by omega
          rw [this]) (i7 hheap)
  · rename_i hc
    refine ⟨?_, ?_, ?_⟩
    · unfold push_heap_aux
      exact (push_heap_loop_perm _ _ _ _ _ (by omega)).trans (i5 v)
    · intro j hj
      unfold push_heap_aux
      rw [push_heap_loop_above _ _ _ _ _ j (by omega)]
      exact i6 j hj
    · intro hheap
      unfold push_heap_aux
      apply push_heap_loop_heap _ _ _ _ len (le_refl _) i3 (by omega)
      apply leaf_hole_heap _ _ _ _ (by omega)
      exact i7 hheap

/-! ## The priority queue: the contract of `push`, `pop` and `top` -/

theorem heap_top_max (l : List DistIndex) (n : Nat) (hh : IsHeap l n) :
    ∀ i, i < n → key l i ≤ key l 0 := by
  intro i
  induction i using Nat.strong_induction_on with
  | _ i ih =>
    intro hi
    by_cases h0 : i = 0
    · rw [h0]
    · have h1 := hh i (by omega) hi
      have h2 := ih ((i - 1) / 2) (by omega) (by omega)
      omega

theorem at_append_last (l : List DistIndex) (x : DistIndex) : at_ (l ++ [x]) l.length = x := by
  simp [at_]

theorem at_append_lt (l : List DistIndex) (x : DistIndex) (i : Nat) (h : i < l.length) :
    at_ (l ++ [x]) i = at_ l i := by
  simp [at_, List.getElem?_append_left h]

theorem pq_push_perm (l : List DistIndex) (x : DistIndex) : (pq_push l x).Perm (x :: l) := by
  unfold pq_push push_heap push_heap_aux
  have hl : (l ++ [x]).length - 1 = l.length := by simp
  rw [hl, at_append_last]
  refine (push_heap_loop_perm _ _ _ _ _ (by simp)).trans ?_
  have : (l ++ [x]).set l.length x = l ++ [x] := by simp
  rw [this]
  exact List.perm_append_singleton x l

theorem pq_push_length (l : List DistIndex) (x : DistIndex) :
    (pq_push l x).length = l.length + 1 := by
  simpa using (pq_push_perm l x).length_eq

theorem pq_push_heap (l : List DistIndex) (x : DistIndex) (hh : Heap l) : Heap (pq_push l x) := by
  unfold Heap
  rw [pq_push_length]
  unfold pq_push push_heap push_heap_aux
  have hl : (l ++ [x]).length - 1 = l.length := by simp
  rw [hl, at_append_last]
  apply push_heap_loop_heap _ _ _ _ (l.length + 1) (le_refl _) (by omega) (by simp)
  have e : (l ++ [x]).set l.length x = l ++ [x] := by simp
  rw [e]
  constructor
  · intro i hi hin hne
    have h1 : i < l.length := by omega
    have h2 : (i - 1) / 2 < l.length := by omega
    unfold key
    rw [at_append_lt l x i h1, at_append_lt l x _ h2]
    exact hh i hi h1
  · intro i hi hin hp _
    omega

theorem set_at_self (l : List DistIndex) (i : Nat) (h : i < l.length) :
    l.set i (at_ l i) = l := by
  apply List.ext_getElem?
  intro j
  rw [List.getElem?_set]
  by_cases hij : i = j
  · subst hij
    simp [at_, h]
  · simp [hij]

theorem pop_heap_spec (l : List DistIndex) (hne : l ≠ []) :
    (pop_heap l).Perm l ∧ at_ (pop_heap l) (l.length - 1) = at_ l 0 ∧
    (Heap l → IsHeap (pop_heap l) (l.length - 1)) := by
  have hpos : 0 < l.length := List.length_pos.mpr hne
  unfold pop_heap
  split
  · rename_i hlen
    simp only []
    have hlast : l.length - 1 < l.length := by omega
    obtain ⟨a1, a2, a3⟩ := adjust_heap_spec (l.set (l.length - 1) (at_ l 0)) (l.length - 1)
      (at_ l (l.length - 1)) (by omega) (by simp)
    refine ⟨?_, ?_, ?_⟩
    · refine a1.trans ?_
      refine (set_set_perm l (l.length - 1) 0 (at_ l (l.length - 1)) hlast (by omega)
        (by omega)).trans ?_
      rw [set_at_self l _ hlast]
    · rw [a2 _ (le_refl _)]
      exact at_set_self l _ _ hlast
    · intro hh
      apply a3
      intro i hi hin
      rw [key_set_ne _ _ _ _ (by omega), key_set_ne _ _ _ _ (by omega)]
      exact hh i hi (by omega)
  · rename_i hlen
    have h1 : l.length - 1 = 0 := by omega
    refine ⟨List.Perm.refl _, by rw [h1], ?_⟩
    intro _ i hi hin
    omega

theorem pq_pop_perm (l : List DistIndex) (hne : l ≠ []) : l.Perm (at_ l 0 :: pq_pop l) := by
  obtain ⟨p1, p2, _⟩ := pop_heap_spec l hne
  have hne2 : pop_heap l ≠ [] := by
    intro h
    rw [h] at p1
    exact hne (List.perm_nil.mp p1.symm)
  have hlen : (pop_heap l).length = l.length := p1.length_eq
  have hlast : (pop_heap l).getLast hne2 = at_ l 0 := by
    rw [List.getLast_eq_getElem, ← p2, at_eq_getElem _ _ (by rw [hlen]; have := List.length_pos.mpr hne; omega)]
    simp [hlen]
  have hsplit := List.dropLast_append_getLast hne2
  rw [hlast] at hsplit
  unfold pq_pop
  have hperm := List.perm_append_singleton (at_ l 0) (pop_heap l).dropLast
  rw [hsplit] at hperm
  exact p1.symm.trans hperm

theorem pq_pop_length (l : List DistIndex) : (pq_pop l).length = l.length - 1 := by
  by_cases hne : l = []
  · subst hne; rfl
  · simpa using (pq_pop_perm l hne).length_eq.symm ▸ rfl

theorem pq_pop_heap (l : List DistIndex) (hh : Heap l) : Heap (pq_pop l) := by
  by_cases hne : l = []
  · subst hne
    intro i hi hin
    simp [pq_pop, pop_heap] at hin
  · obtain ⟨p1, _, p3⟩ := pop_heap_spec l hne
    unfold Heap
    rw [pq_pop_length]
    have hlen : (pop_heap l).length = l.length := p1.length_eq
    have hat : ∀ i, i < l.length - 1 → at_ (pq_pop l) i = at_ (pop_heap l) i := by
      intro i hi
      unfold pq_pop at_
      simp only [List.getD_eq_getElem?_getD]
      rw [List.getElem?_eq_getElem (by simp [hlen]; omega),
        List.getElem?_eq_getElem (by omega)]
      simp
    intro i hi hin
    unfold key
    rw [hat i hin, hat _ (by omega)]
    exact p3 hh i hi hin

theorem pq_top_eq (l : List DistIndex) (hne : l ≠ []) : pq_top l = some (at_ l 0) := by
  cases l with
  | nil => exact absurd rfl hne
  | cons a l => rfl

theorem pq_top_max (l : List DistIndex) (t : DistIndex) (hh : Heap l) (ht : pq_top l = some t) :
    ∀ e ∈ l, e.1 ≤ t.1 := by
  intro e he
  have hne : l ≠ [] := List.ne_nil_of_mem he
  rw [pq_top_eq l hne] at ht
  obtain ⟨i, hi, rfl⟩ := List.getElem_of_mem he
  have := heap_top_max l l.length hh i hi
  unfold key at this
  rw [at_eq_getElem l i hi] at this
  rw [← Option.some.inj ht]
  exact this

/-! ## The scan keeps the smallest distances -/

theorem toSizeT_of_nonneg (k : Int) (h0 : 0 ≤ k) (h1 : k < 2 ^ 31) : toSizeT k = k.toNat := by
  unfold toSizeT
  rw [Int.emod_eq_of_lt h0 (by omega)]

theorem scanInv_nil (K : Nat) (d : Nat → Int) : ScanInv K d 0 [] where
  heap := by intro i hi hin; simp at hin
  len := by simp
  nodup := by simp
  mem := by simp
  small := by simp
  all := by intro _ j hj; omega

theorem admit_step_inv (k : Int) (d : Nat → Int) (i : Nat) (pq : List DistIndex)
    (hK : 1 ≤ toSizeT k) (inv : ScanInv (toSizeT k) d i pq) :
    ∃ pq2, admit_step k pq (d i) i = some pq2 ∧ ScanInv (toSizeT k) d (i + 1) pq2 := by
  unfold admit_step
  by_cases hlt : pq.length < toSizeT k
  · rw [if_pos hlt]
    refine ⟨_, rfl, ?_⟩
    have hperm := pq_push_perm pq (d i, i)
    have hmem : ∀ e, e ∈ pq_push pq (d i, i) ↔ e = (d i, i) ∨ e ∈ pq := by
      intro e; rw [hperm.mem_iff]; simp
    have hidx : ((pq_push pq (d i, i)).map Prod.snd).Perm (i :: pq.map Prod.snd) := by
      simpa using hperm.map Prod.snd
    have hlen := inv.len
    refine ⟨pq_push_heap pq _ inv.heap, ?_, ?_, ?_, ?_, ?_⟩
    · rw [pq_push_length]; omega
    · rw [hidx.nodup_iff, List.nodup_cons]
      refine ⟨?_, inv.nodup⟩
      intro hi
      obtain ⟨e, he, hei⟩ := List.mem_map.mp hi
      have := (inv.mem e he).1
      omega
    · intro e he
      rcases (hmem e).mp he with h | h
      · rw [h]; exact ⟨by simp, rfl⟩
      · exact ⟨by have := (inv.mem e h).1; omega, (inv.mem e h).2⟩
    · intro e _ j hj hnot
      exfalso
      apply hnot
      rw [hidx.mem_iff]
      by_cases hji : j = i
      · rw [hji]; exact List.mem_cons_self _ _
      · exact List.mem_cons_of_mem _ (inv.all hlt j (by omega))
    · intro _ j hj
      rw [hidx.mem_iff]
      by_cases hji : j = i
      · rw [hji]; exact List.mem_cons_self _ _
      · exact List.mem_cons_of_mem _ (inv.all hlt j (by omega))
  · rw [if_neg hlt]
    have hlen := inv.len
    have hne : pq ≠ [] := by
      intro h; rw [h] at hlt; simp at hlt; omega
    have htop := pq_top_eq pq hne
    rw [htop]
    simp only []
    have hmax := pq_top_max pq _ inv.heap htop
    have hpop := pq_pop_perm pq hne
    have htm : at_ pq 0 ∈ pq := by rw [hpop.mem_iff]; exact List.mem_cons_self _ _
    by_cases hd : d i < (at_ pq 0).1
    · rw [if_pos hd]
      refine ⟨_, rfl, ?_⟩
      have hperm := pq_push_perm (pq_pop pq) (d i, i)
      have hmem : ∀ e, e ∈ pq_push (pq_pop pq) (d i, i) ↔ e = (d i, i) ∨ e ∈ pq_pop pq := by
        intro e; rw [hperm.mem_iff]; simp
      have hsub : ∀ e, e ∈ pq_pop pq → e ∈ pq := by
        intro e he; rw [hpop.mem_iff]; exact List.mem_cons_of_mem _ he
      have hidx : ((pq_push (pq_pop pq) (d i, i)).map Prod.snd).Perm
          (i :: (pq_pop pq).map Prod.snd) := by
        simpa using hperm.map Prod.snd
      have hidx2 : (pq.map Prod.snd).Perm ((at_ pq 0).2 :: (pq_pop pq).map Prod.snd) := by
        simpa using hpop.map Prod.snd
      have hnd2 : ((pq_pop pq).map Prod.snd).Nodup := by
        have := hidx2.nodup_iff.mp inv.nodup
        exact (List.nodup_cons.mp this).2
      have hl2 : (pq_push (pq_pop pq) (d i, i)).length = pq.length := by
        rw [pq_push_length, pq_pop_length]
        have := List.length_pos.mpr hne
        omega
      refine ⟨pq_push_heap _ _ (pq_pop_heap pq inv.heap), ?_, ?_, ?_, ?_, ?_⟩
      · rw [hl2]; omega
      · rw [hidx.nodup_iff, List.nodup_cons]
        refine ⟨?_, hnd2⟩
        intro hi
        obtain ⟨e, he, hei⟩ := List.mem_map.mp hi
        have := (inv.mem e (hsub e he)).1
        omega
      · intro e he
        rcases (hmem e).mp he with h | h
        · rw [h]; exact ⟨by simp, rfl⟩
        · exact ⟨by have := (inv.mem e (hsub e h)).1; omega, (inv.mem e (hsub e h)).2⟩
      · intro e he j hj hnot
        rw [hidx.mem_iff, List.mem_cons, not_or] at hnot
        have hji : j < i := by omega
        have hej : e.1 ≤ (at_ pq 0).1 := by
          rcases (hmem e).mp he with h | h
          · rw [h]; exact le_of_lt hd
          · exact hmax e (hsub e h)
        by_cases hjt : j = (at_ pq 0).2
        · have := (inv.mem _ htm).2
          rw [← hjt] at this
          omega
        · have hjn : j ∉ pq.map Prod.snd := by
            rw [hidx2.mem_iff, List.mem_cons, not_or]
            exact ⟨hjt, hnot.2⟩
          have := inv.small _ htm j hji hjn
          omega
      · intro hc
        rw [hl2] at hc
        exact absurd hc hlt
    · rw [if_neg hd]
      refine ⟨_, rfl, ?_⟩
      refine ⟨inv.heap, by omega, inv.nodup, ?_, ?_, ?_⟩
      · intro e he
        exact ⟨by have := (inv.mem e he).1; omega, (inv.mem e he).2⟩
      · intro e he j hj hnot
        by_cases hji : j = i
        · rw [hji]
          have := hmax e he
          omega
        · exact inv.small e he j (by omega) hnot
      · intro hc
        exact absurd hc hlt

theorem scan_loop_inv (k : Int) (d : Nat → Int) (hK : 1 ≤ toSizeT k) : ∀ n : Nat,
    ∃ pq, (List.range n).foldlM (fun pq i => admit_step k pq (d i) i) [] = some pq ∧
      ScanInv (toSizeT k) d n pq := by
  intro n
  induction n with
  | zero => exact ⟨[], rfl, scanInv_nil _ _⟩
  | succ n ih =>
    obtain ⟨pq, h1, h2⟩ := ih
    obtain ⟨pq2, h3, h4⟩ := admit_step_inv k d n pq hK h2
    refine ⟨pq2, ?_, h4⟩
    rw [List.range_succ, List.foldlM_append, h1]
    simpa using h3

/-! ## Loading -/

theorem add_samples_eq (data : List Nat) (g : Nat) (st : List (List Nat) × List Int) :
    ∀ n : Nat, add_samples data n g st =
      (st.1 ++ (List.range n).map (fun i => (data.drop (i * 8)).take 8),
       st.2 ++ List.replicate n (g : Int)) := by
  intro n
  unfold add_samples
  induction n with
  | zero => simp
  | succ n ih =>
    rw [List.range_succ, List.foldl_append, ih]
    simp [List.replicate_succ', List.append_assoc]

theorem select_inner_length (data : List Nat) (idx : Nat) (sel : List Nat) :
    ((List.range 8).foldl (fun sel j => sel ++ [data.getD (idx * 8 + j) 0]) sel).length
      = sel.length + 8 := by
  simp [List.range_succ]

theorem select_length (data : List Nat) (num : Nat) (rnd : Nat → Nat) :
    ∀ m : Nat, (select data num m rnd).length = 8 * m := by
  intro m
  unfold select
  induction m with
  | zero => simp
  | succ m ih =>
    rw [List.range_succ m, List.foldl_append]
    simp only [List.foldl_cons, List.foldl_nil]
    rw [select_inner_length, ih]
    omega

theorem slices_spec (data : List Nat) (n : Nat) (h : data.length = 8 * n)
    (hu : ∀ x ∈ data, x < 65536) :
    ∀ s ∈ (List.range n).map (fun i => (data.drop (i * 8)).take 8),
      s.length = 8 ∧ ∀ x ∈ s, x < 65536 := by
  intro s hs
  obtain ⟨i, hi, rfl⟩ := List.mem_map.mp hs
  have := List.mem_range.mp hi
  constructor
  · simp
    omega
  · intro x hx
    exact hu x (List.mem_of_mem_drop (List.mem_of_mem_take hx))

theorem u16_at_lt (bytes : List Nat) (p : Nat) : u16_at bytes p < 65536 := by
  unfold u16_at
  omega

theorem read_data_u16 (bytes : List Nat) (n : Nat) : ∀ x ∈ read_data bytes n, x < 65536 := by
  intro x hx
  obtain ⟨p, _, rfl⟩ := List.mem_map.mp hx
  exact u16_at_lt bytes p

theorem getD_u16 (data : List Nat) (hu : ∀ x ∈ data, x < 65536) (i : Nat) :
    data.getD i 0 < 65536 := by
  rw [List.getD_eq_getElem?_getD]
  by_cases h : i < data.length
  · rw [List.getElem?_eq_getElem h]
    exact hu _ (List.getElem_mem h)
  · rw [List.getElem?_eq_none (by omega)]
    decide

theorem select_u16 (data : List Nat) (num : Nat) (rnd : Nat → Nat)
    (hu : ∀ x ∈ data, x < 65536) : ∀ m : Nat, ∀ x ∈ select data num m rnd, x < 65536 := by
  intro m
  unfold select
  induction m with
  | zero => simp
  | succ m ih =>
    rw [List.range_succ m, List.foldl_append]
    simp only [List.foldl_cons, List.foldl_nil]
    generalize (List.range m).foldl _ ([] : List Nat) = sel at ih
    intro x hx
    simp only [List.range_succ, List.range_zero, List.nil_append, List.foldl_append,
      List.foldl_cons, List.foldl_nil, List.mem_append, List.mem_singleton] at hx
    rcases hx with ((((((((h | h) | h) | h) | h) | h) | h) | h) | h)
    · exact ih x h
    all_goals (rw [h]; exact getD_u16 data hu _)

/-- One class appends `class_count` samples of 8 components with the label of the class. -/
theorem load_class_spec (m : Int) (file : Option (List Nat)) (rnd : Nat → Nat) (g : Nat)
    (st : List (List Nat) × List Int) :
    ∃ new : List (List Nat), load_class m file rnd g st =
        (st.1 ++ new, st.2 ++ List.replicate (class_count m file) (g : Int)) ∧
      new.length = class_count m file ∧
      ∀ s ∈ new, s.length = 8 ∧ ∀ x ∈ s, x < 65536 := by
  unfold load_class
  cases file with
  | none => exact ⟨[], by simp [class_count, record_count], by simp [class_count, record_count], by simp⟩
  | some bytes =>
    simp only []
    have e16 : 8 * 2 = 16 := rfl
    rw [e16]
    by_cases h0 : bytes.length = 0
    · rw [if_pos h0]
      have : class_count m (some bytes) = 0 := by
        simp [class_count, record_count, h0]
      exact ⟨[], by simp [this], by simp [this], by simp⟩
    · rw [if_neg h0]
      by_cases h1 : bytes.length / 16 = 0
      · rw [if_pos h1]
        have : class_count m (some bytes) = 0 := by
          simp [class_count, record_count, h1]
        exact ⟨[], by simp [this], by simp [this], by simp⟩
      · rw [if_neg h1]
        by_cases h2 : bytes.length / 16 > toSizeT m
        · rw [if_pos h2, add_samples_eq]
          have : class_count m (some bytes) = toSizeT m := by
            simp [class_count, record_count, h2]
          rw [this]
          exact ⟨_, rfl, by simp,
            slices_spec _ _ (select_length _ _ _ _) (select_u16 _ _ _ (read_data_u16 _ _) _)⟩
        · rw [if_neg h2, add_samples_eq]
          have : class_count m (some bytes) = bytes.length / 16 := by
            simp [class_count, record_count, h2]
          rw [this]
          exact ⟨_, rfl, by simp, slices_spec _ _ (by simp [read_data]) (read_data_u16 _ _)⟩

/-- The state of the loop of `load_data` after the classes `0 .. n-1`. -/
theorem load_loop_spec (m : Int) (fs : Nat → Option (List Nat)) (rnd : Nat → Nat → Nat) :
    ∀ n : Nat,
      let st := (List.range n).foldl
        (fun st g => load_class m (fs g) (rnd g) g st) (([], []) : List (List Nat) × List Int)
      st.2.length = st.1.length ∧ (∀ s ∈ st.1, s.length = 8 ∧ ∀ x ∈ s, x < 65536) ∧
      (∀ c ∈ st.2, 0 ≤ c ∧ c < (n : Int)) ∧
      (∀ c : Nat, st.2.count (c : Int) = if c < n then class_count m (fs c) else 0) := by
  intro n
  induction n with
  | zero => simp
  | succ n ih =>
    simp only [] at ih ⊢
    rw [List.range_succ, List.foldl_append]
    simp only [List.foldl_cons, List.foldl_nil]
    generalize (List.range n).foldl _ (([], []) : List (List Nat) × List Int) = st at ih ⊢
    obtain ⟨i1, i2, i3, i4⟩ := ih
    obtain ⟨new, h1, h2, h3⟩ := load_class_spec m (fs n) (rnd n) n st
    rw [h1]
    refine ⟨by simp [i1, h2], ?_, ?_, ?_⟩
    · intro s hs
      rcases List.mem_append.mp hs with h | h
      · exact i2 s h
      · exact h3 s h
    · intro c hc
      rcases List.mem_append.mp hc with h | h
      · have := i3 c h
        constructor
        · exact this.1
        · push_cast; omega
      · have := (List.mem_replicate.mp h).2
        rw [this]
        constructor
        · omega
        · push_cast; omega
    · intro c
      rw [List.count_append, i4 c, List.count_replicate]
      by_cases hcn : c = n
      · subst hcn
        simp
      · have hne : ¬ ((n : Int) == (c : Int)) = true := by
          simp
          omega
        rw [if_neg hne]
        by_cases hlt : c < n
        · rw [if_pos hlt, if_pos (by omega)]; rfl
        · rw [if_neg hlt, if_neg (by omega)]

/-! ## `train` and the data model invariant -/

theorem train_loop_spec (f : Nat → Int) (n : Nat) : ∀ (m : Nat) (sn : List Int),
    sn.length = n → m ≤ n →
    ((List.range m).foldl (fun sn i => sn.set i (f i)) sn).length = n ∧
    ∀ i, i < m → ((List.range m).foldl (fun sn i => sn.set i (f i)) sn).getD i 0 = f i := by
  intro m
  induction m with
  | zero => intro sn h _; exact ⟨by simpa using h, by intro i hi; omega⟩
  | succ m ih =>
    intro sn h hm
    obtain ⟨h1, h2⟩ := ih sn h (by omega)
    rw [List.range_succ, List.foldl_append]
    simp only [List.foldl_cons, List.foldl_nil]
    generalize (List.range m).foldl (fun sn i => sn.set i (f i)) sn = r at h1 h2
    refine ⟨by simpa using h1, ?_⟩
    intro i hi
    by_cases him : i = m
    · subst him
      simp [show i < r.length by omega]
    · have := h2 i (by omega)
      simp only [List.getD_eq_getElem?_getD] at this ⊢
      rw [List.getElem?_set_ne (Ne.symm him)]
      exact this

theorem train_spec (t : KNNTrainer) :
    (train t).samples = t.samples ∧ (train t).labels = t.labels ∧ (train t).k = t.k ∧
    (train t).max_samples = t.max_samples ∧ (train t).trained = t.trained ∧
    (train t).squared_norms.length = t.samples.length ∧
    ∀ i, i < t.samples.length →
      (train t).squared_norms.getD i 0 = norm_sq (t.samples.getD i []) := by
  have h := train_loop_spec (fun i => norm_sq (t.samples.getD i [])) t.samples.length
    t.samples.length (resize t.squared_norms t.samples.length)
    (by simp [resize]; omega) (le_refl _)
  exact ⟨rfl, rfl, rfl, rfl, rfl, h.1, h.2⟩

/-- Every load establishes the data part of the invariant, whatever the state before. -/
theorem load_data_spec (t : KNNTrainer) (fs : Nat → Option (List Nat)) (rnd : Nat → Nat → Nat) :
    (load_data t fs rnd).k = t.k ∧ (load_data t fs rnd).max_samples = t.max_samples ∧
    (load_data t fs rnd).labels.length = (load_data t fs rnd).samples.length ∧
    (load_data t fs rnd).squared_norms.length = (load_data t fs rnd).samples.length ∧
    (∀ s ∈ (load_data t fs rnd).samples, s.length = 8) ∧
    (∀ c ∈ (load_data t fs rnd).labels, 0 ≤ c ∧ c < 10) ∧
    (∀ i, i < (load_data t fs rnd).samples.length →
      (load_data t fs rnd).squared_norms.getD i 0
        = norm_sq ((load_data t fs rnd).samples.getD i [])) ∧
    ((load_data t fs rnd).samples ≠ [] → (load_data t fs rnd).trained = true) ∧
    (∀ c : Nat, c < 10 →
      (load_data t fs rnd).labels.count (c : Int) = class_count t.max_samples (fs c)) ∧
    (∀ s ∈ (load_data t fs rnd).samples, ∀ x ∈ s, x < 65536) := by
  obtain ⟨l1, l2, l3, l4⟩ := load_loop_spec t.max_samples fs rnd 10
  unfold load_data
  simp only []
  generalize (List.range 10).foldl _ (([], []) : List (List Nat) × List Int) = st at *
  have l4b : ∀ c : Nat, c < 10 → st.2.count (c : Int) = class_count t.max_samples (fs c) := by
    intro c hc
    rw [l4 c, if_pos hc]
  split
  · rename_i hne
    obtain ⟨_, _, _, _, _, t6, t7⟩ := train_spec
      { t with samples := st.1, labels := st.2, squared_norms := [] }
    exact ⟨rfl, rfl, l1, t6, fun s hs => (l2 s hs).1, l3, t7, fun _ => rfl, l4b,
      fun s hs => (l2 s hs).2⟩
  · rename_i hne
    simp only [Bool.not_eq_true, Bool.not_eq_false', List.isEmpty_iff, Bool.not_eq_true'] at hne
    have he : st.1 = [] := by simpa using hne
    refine ⟨rfl, rfl, l1, ?_, fun s hs => (l2 s hs).1, l3, ?_, ?_, l4b,
      fun s hs => (l2 s hs).2⟩
    · simp [he]
    · intro i hi; simp [he] at hi
    · intro h; exact absurd he h

theorem reachable_wf (t : KNNTrainer) (h : Reachable t) : WF t := by
  induction h with
  | create k m hk hm =>
    exact
      { k_int := hk, max_int := hm, labels_len := rfl, norms_len := rfl,
        sample_len := by intro s hs; simp [knn_create] at hs,
        sample_u16 := by intro s hs; simp [knn_create] at hs,
        label_range := by intro c hc; simp [knn_create] at hc,
        norms := by intro i hi; simp [knn_create] at hi,
        trained := by intro h; simp [knn_create] at h }
  | load t fs rnd _ ih =>
    obtain ⟨h1, h2, h3, h4, h5, h6, h7, h8, _, h10⟩ := load_data_spec t fs rnd
    exact
      { k_int := h1 ▸ ih.k_int, max_int := h2 ▸ ih.max_int, labels_len := h3, norms_len := h4,
        sample_len := h5, sample_u16 := h10, label_range := h6, norms := h7, trained := h8 }

/-! ## The vote tally and the prediction -/

theorem vote_spec (labels votes : List Int) (idx : Nat) (hv : votes.length = 10) :
    (vote labels votes idx).length = 10 ∧
    ∀ c : Nat, c < 10 → (vote labels votes idx).getD c 0 = votes.getD c 0 +
      (if idx < labels.length ∧ labels.getD idx 0 = (c : Int) then 1 else 0) := by
  unfold vote
  by_cases h1 : idx < labels.length
  · rw [if_pos h1]
    simp only []
    by_cases h2 : labels.getD idx 0 ≥ 0 ∧ labels.getD idx 0 < 10
    · rw [if_pos h2]
      refine ⟨by simpa using hv, ?_⟩
      intro c hc
      obtain ⟨n, hn⟩ := Int.eq_ofNat_of_zero_le h2.1
      rw [hn] at h2 ⊢
      have hn10 : n < 10 := by omega
      simp only [Int.toNat_ofNat, List.getD_eq_getElem?_getD]
      by_cases hcn : n = c
      · subst hcn
        simp [h1, show n < votes.length by omega]
      · rw [List.getElem?_set_ne hcn]
        have : ¬ ((n : Int) = (c : Int)) := by omega
        simp [this]
    · rw [if_neg h2]
      refine ⟨hv, ?_⟩
      intro c hc
      have : ¬ (idx < labels.length ∧ labels.getD idx 0 = (c : Int)) := by
        intro h
        apply h2
        rw [h.2]
        constructor <;> omega
      rw [if_neg this]; simp
  · rw [if_neg h1]
    refine ⟨hv, ?_⟩
    intro c hc
    have : ¬ (idx < labels.length ∧ labels.getD idx 0 = (c : Int)) := fun h => h1 h.1
    rw [if_neg this]; simp

theorem tally_loop_spec (labels : List Int) : ∀ (fuel : Nat) (pq : List DistIndex)
    (votes : List Int), pq.length ≤ fuel → votes.length = 10 →
    (tally_loop fuel labels pq votes).length = 10 ∧
    ∀ c : Nat, c < 10 → (tally_loop fuel labels pq votes).getD c 0 = votes.getD c 0 +
      (pq.countP (fun e => decide (e.2 < labels.length ∧ labels.getD e.2 0 = (c : Int))) : Nat) := by
  intro fuel
  induction fuel with
  | zero =>
    intro pq votes hf hv
    have : pq = [] := List.length_eq_zero.mp (by omega)
    subst this
    exact ⟨hv, by intro c _; simp [tally_loop]⟩
  | succ fuel ih =>
    intro pq votes hf hv
    unfold tally_loop
    by_cases hne : pq = []
    · subst hne
      exact ⟨hv, by intro c _; simp [pq_top]⟩
    · rw [pq_top_eq pq hne]
      simp only []
      obtain ⟨v1, v2⟩ := vote_spec labels votes (at_ pq 0).2 hv
      obtain ⟨i1, i2⟩ := ih (pq_pop pq) (vote labels votes (at_ pq 0).2)
        (by rw [pq_pop_length]; omega) v1
      refine ⟨i1, ?_⟩
      intro c hc
      rw [i2 c hc, v2 c hc, (pq_pop_perm pq hne).countP_eq, List.countP_cons]
      by_cases hp : (at_ pq 0).2 < labels.length ∧ labels.getD (at_ pq 0).2 0 = (c : Int)
      · simp only [hp, and_self, if_true, decide_True]
        push_cast; ring
      · simp only [hp, if_false, decide_False]
        simp

theorem tally_spec (labels : List Int) (pq : List DistIndex) :
    (tally labels pq).length = 10 ∧
    ∀ c : Nat, c < 10 → (tally labels pq).getD c 0 =
      (pq.countP (fun e => decide (e.2 < labels.length ∧ labels.getD e.2 0 = (c : Int))) : Nat) := by
  obtain ⟨h1, h2⟩ := tally_loop_spec labels pq.length pq (List.replicate 10 0) (le_refl _)
    (by simp)
  refine ⟨h1, ?_⟩
  intro c hc
  have := h2 c hc
  unfold tally
  rw [this]
  have : (List.replicate 10 (0 : Int)).getD c 0 = 0 := by
    interval_cases c <;> rfl
  rw [this]; simp

theorem find_max_loop_spec (votes : List Int) :
    ∀ n : Nat, n ≤ 10 →
      (∀ c : Nat, c < n → votes.getD c 0 ≤ ((List.range n).foldl
        (fun (r : Int × Int) i =>
          if votes.getD i 0 > r.2 then ((i : Int), votes.getD i 0) else r) (0, 0)).2) ∧
      (((List.range n).foldl
        (fun (r : Int × Int) i =>
          if votes.getD i 0 > r.2 then ((i : Int), votes.getD i 0) else r) (0, 0)) = (0, 0) ∨
       ∃ p : Nat, p < n ∧
        ((List.range n).foldl
          (fun (r : Int × Int) i =>
            if votes.getD i 0 > r.2 then ((i : Int), votes.getD i 0) else r) (0, 0))
          = ((p : Int), votes.getD p 0) ∧
        0 < votes.getD p 0 ∧ ∀ c : Nat, c < p → votes.getD c 0 < votes.getD p 0) := by
  intro n
  induction n with
  | zero => intro _; exact ⟨by intro c hc; omega, Or.inl rfl⟩
  | succ n ih =>
    intro hn
    obtain ⟨h1, h2⟩ := ih (by omega)
    rw [List.range_succ, List.foldl_append]
    simp only [List.foldl_cons, List.foldl_nil]
    generalize (List.range n).foldl _ ((0, 0) : Int × Int) = r at h1 h2 ⊢
    by_cases hgt : votes.getD n 0 > r.2
    · rw [if_pos hgt]
      constructor
      · intro c hc
        by_cases hcn : c = n
        · rw [hcn]
        · have := h1 c (by omega)
          simp only []
          omega
      · right
        refine ⟨n, by omega, rfl, ?_, ?_⟩
        · rcases h2 with h | ⟨p, _, hp, hp0, _⟩
          · rw [h] at hgt; exact hgt
          · rw [hp] at hgt; simp only [] at hgt; omega
        · intro c hc
          have := h1 c hc
          omega
    · rw [if_neg hgt]
      constructor
      · intro c hc
        by_cases hcn : c = n
        · rw [hcn]; omega
        · exact h1 c (by omega)
      · rcases h2 with h | ⟨p, hpn, hp, hp0, hpc⟩
        · left; exact h
        · right; exact ⟨p, by omega, hp, hp0, hpc⟩

/-- The prediction is the lowest class with the highest vote count. -/
theorem find_max_spec (votes : List Int) (hpos : ∀ c : Nat, c < 10 → 0 ≤ votes.getD c 0) :
    ∃ p : Nat, p < 10 ∧ find_max votes = ((p : Int), votes.getD p 0) ∧
      (∀ c : Nat, c < 10 → votes.getD c 0 ≤ votes.getD p 0) ∧
      (∀ c : Nat, c < p → votes.getD c 0 < votes.getD p 0) := by
  obtain ⟨h1, h2⟩ := find_max_loop_spec votes 10 (le_refl _)
  unfold find_max
  generalize (List.range 10).foldl _ ((0, 0) : Int × Int) = r at h1 h2 ⊢
  rcases h2 with h | ⟨p, hpn, hp, hp0, hpc⟩
  · have hz : ∀ c : Nat, c < 10 → votes.getD c 0 = 0 := by
      intro c hc
      have a := h1 c hc
      have b := hpos c hc
      rw [h] at a
      simp only [] at a
      omega
    refine ⟨0, by omega, ?_, ?_, ?_⟩
    · rw [h, hz 0 (by omega)]; rfl
    · intro c hc; rw [hz c hc, hz 0 (by omega)]
    · intro c hc; omega
  · refine ⟨p, hpn, hp, ?_, hpc⟩
    intro c hc
    have := h1 c hc
    rw [hp] at this
    exact this

/-! ## Distances -/

theorem length_eight (s : List Nat) (h : s.length = 8) :
    ∃ a0 a1 a2 a3 a4 a5 a6 a7, s = [a0, a1, a2, a3, a4, a5, a6, a7] := by
  match s, h with
  | [a0, a1, a2, a3, a4, a5, a6, a7], _ => exact ⟨a0, a1, a2, a3, a4, a5, a6, a7, rfl⟩

/-- The squared Euclidean distance of two vectors, over the integers. -/
theorem norm_sq_eq_sum (s : List Nat) :
    norm_sq s = Finset.sum (Finset.range 8) (fun j => ((s.getD j 0 : Nat) : Int) ^ 2) := by
  simp [norm_sq, List.range_succ, Finset.sum_range_succ]
  ring

theorem dist_identity (s q : List Nat) (hs : s.length = 8) (hq : q.length = 8) :
    norm_sq s + query_norm_sq q - 2 * dot_product s q
      = Finset.sum (Finset.range 8)
          (fun j => (((s.getD j 0 : Nat) : Int) - ((q.getD j 0 : Nat) : Int)) ^ 2) := by
  obtain ⟨a0, a1, a2, a3, a4, a5, a6, a7, rfl⟩ := length_eight s hs
  obtain ⟨b0, b1, b2, b3, b4, b5, b6, b7, rfl⟩ := length_eight q hq
  simp [norm_sq, query_norm_sq, dot_product, List.range_succ, Finset.sum_range_succ]
  ring

theorem sq_dist_zero_iff (s q : List Nat) (hs : s.length = 8) (hq : q.length = 8) :
    Finset.sum (Finset.range 8)
        (fun j => (((s.getD j 0 : Nat) : Int) - ((q.getD j 0 : Nat) : Int)) ^ 2) = 0 ↔ s = q := by
  obtain ⟨a0, a1, a2, a3, a4, a5, a6, a7, rfl⟩ := length_eight s hs
  obtain ⟨b0, b1, b2, b3, b4, b5, b6, b7, rfl⟩ := length_eight q hq
  simp only [Finset.sum_range_succ, Finset.sum_range_zero, List.getD_cons_zero,
    List.getD_cons_succ, zero_add]
  constructor
  · intro h
    have h0 := sq_nonneg ((a0 : Int) - b0)
    have h1 := sq_nonneg ((a1 : Int) - b1)
    have h2 := sq_nonneg ((a2 : Int) - b2)
    have h3 := sq_nonneg ((a3 : Int) - b3)
    have h4 := sq_nonneg ((a4 : Int) - b4)
    have h5 := sq_nonneg ((a5 : Int) - b5)
    have h6 := sq_nonneg ((a6 : Int) - b6)
    have h7 := sq_nonneg ((a7 : Int) - b7)
    have e0 : ((a0 : Int) - b0) ^ 2 = 0 := by omega
    have e1 : ((a1 : Int) - b1) ^ 2 = 0 := by omega
    have e2 : ((a2 : Int) - b2) ^ 2 = 0 := by omega
    have e3 : ((a3 : Int) - b3) ^ 2 = 0 := by omega
    have e4 : ((a4 : Int) - b4) ^ 2 = 0 := by omega
    have e5 : ((a5 : Int) - b5) ^ 2 = 0 := by omega
    have e6 : ((a6 : Int) - b6) ^ 2 = 0 := by omega
    have e7 : ((a7 : Int) - b7) ^ 2 = 0 := by omega
    rw [sq_eq_zero_iff, sub_eq_zero, Nat.cast_inj] at e0 e1 e2 e3 e4 e5 e6 e7
    subst e0 e1 e2 e3 e4 e5 e6 e7
    rfl
  · intro h
    simp only [List.cons.injEq, and_true] at h
    obtain ⟨e0, e1, e2, e3, e4, e5, e6, e7⟩ := h
    subst e0 e1 e2 e3 e4 e5 e6 e7
    simp

theorem sq_dist_nonneg (s q : List Nat) :
    0 ≤ Finset.sum (Finset.range 8)
        (fun j => (((s.getD j 0 : Nat) : Int) - ((q.getD j 0 : Nat) : Int)) ^ 2) :=
  Finset.sum_nonneg (fun _ _ => sq_nonneg _)

theorem u16_mul_bound (a b : Nat) (ha : a < 65536) (hb : b < 65536) :
    0 ≤ (a : Int) * (b : Int) ∧ (a : Int) * (b : Int) ≤ 65535 * 65535 := by
  constructor
  · exact mul_nonneg (Int.natCast_nonneg a) (Int.natCast_nonneg b)
  · have h : a * b ≤ 65535 * 65535 := Nat.mul_le_mul (by omega) (by omega)
    exact_mod_cast h

/-- The values that the program holds in a `double` are integers of magnitude below `2^53`,
on which the arithmetic of `double` is exact. -/
theorem double_exact_range (s q : List Nat) (hs : s.length = 8) (hq : q.length = 8)
    (hsu : ∀ x ∈ s, x < 65536) (hqu : ∀ x ∈ q, x < 65536) :
    (0 ≤ norm_sq s ∧ norm_sq s ≤ 8 * 65535 ^ 2) ∧
    (0 ≤ query_norm_sq q ∧ query_norm_sq q ≤ 8 * 65535 ^ 2) ∧
    (0 ≤ dot_product s q ∧ dot_product s q ≤ 8 * 65535 ^ 2) ∧
    (norm_sq s + query_norm_sq q ≤ 2 * 8 * 65535 ^ 2) ∧
    (-(2 * 8 * 65535 ^ 2) ≤ norm_sq s + query_norm_sq q - 2 * dot_product s q ∧
      norm_sq s + query_norm_sq q - 2 * dot_product s q ≤ 2 * 8 * 65535 ^ 2) ∧
    (2 * 8 * 65535 ^ 2 : Int) < 2 ^ 53 := by
  obtain ⟨a0, a1, a2, a3, a4, a5, a6, a7, rfl⟩ := length_eight s hs
  obtain ⟨b0, b1, b2, b3, b4, b5, b6, b7, rfl⟩ := length_eight q hq
  simp only [List.mem_cons, List.mem_singleton, forall_eq_or_imp, forall_eq,
    List.not_mem_nil, false_implies, implies_true, and_true] at hsu hqu
  obtain ⟨u0, u1, u2, u3, u4, u5, u6, u7⟩ := hsu
  obtain ⟨v0, v1, v2, v3, v4, v5, v6, v7⟩ := hqu
  obtain ⟨nl0, nu0⟩ := u16_mul_bound a0 a0 u0 u0
  obtain ⟨nl1, nu1⟩ := u16_mul_bound a1 a1 u1 u1
  obtain ⟨nl2, nu2⟩ := u16_mul_bound a2 a2 u2 u2
  obtain ⟨nl3, nu3⟩ := u16_mul_bound a3 a3 u3 u3
  obtain ⟨nl4, nu4⟩ := u16_mul_bound a4 a4 u4 u4
  obtain ⟨nl5, nu5⟩ := u16_mul_bound a5 a5 u5 u5
  obtain ⟨nl6, nu6⟩ := u16_mul_bound a6 a6 u6 u6
  obtain ⟨nl7, nu7⟩ := u16_mul_bound a7 a7 u7 u7
  obtain ⟨ml0, mu0⟩ := u16_mul_bound b0 b0 v0 v0
  obtain ⟨ml1, mu1⟩ := u16_mul_bound b1 b1 v1 v1
  obtain ⟨ml2, mu2⟩ := u16_mul_bound b2 b2 v2 v2
  obtain ⟨ml3, mu3⟩ := u16_mul_bound b3 b3 v3 v3
  obtain ⟨ml4, mu4⟩ := u16_mul_bound b4 b4 v4 v4
  obtain ⟨ml5, mu5⟩ := u16_mul_bound b5 b5 v5 v5
  obtain ⟨ml6, mu6⟩ := u16_mul_bound b6 b6 v6 v6
  obtain ⟨ml7, mu7⟩ := u16_mul_bound b7 b7 v7 v7
  obtain ⟨dl0, du0⟩ := u16_mul_bound a0 b0 u0 v0
  obtain ⟨dl1, du1⟩ := u16_mul_bound a1 b1 u1 v1
  obtain ⟨dl2, du2⟩ := u16_mul_bound a2 b2 u2 v2
  obtain ⟨dl3, du3⟩ := u16_mul_bound a3 b3 u3 v3
  obtain ⟨dl4, du4⟩ := u16_mul_bound a4 b4 u4 v4
  obtain ⟨dl5, du5⟩ := u16_mul_bound a5 b5 u5 v5
  obtain ⟨dl6, du6⟩ := u16_mul_bound a6 b6 u6 v6
  obtain ⟨dl7, du7⟩ := u16_mul_bound a7 b7 u7 v7
  simp only [norm_sq, query_norm_sq, dot_product, List.range_succ, List.range_zero,
    List.nil_append, List.foldl_append, List.foldl_cons, List.foldl_nil, List.getD_cons_zero,
    List.getD_cons_succ, List.cons_append, zero_add]
  refine ⟨⟨?_, ?_⟩, ⟨?_, ?_⟩, ⟨?_, ?_⟩, ?_, ⟨?_, ?_⟩, by norm_num⟩ <;> linarith

theorem mem_getD (l : List (List Nat)) (i : Nat) (h : i < l.length) : l.getD i [] ∈ l := by
  rw [List.getD_eq_getElem?_getD, List.getElem?_eq_getElem h]
  exact List.getElem_mem h

/-- In a state that satisfies the invariant, `dist_sq` is the squared Euclidean distance. -/
theorem wf_dist_sq (t : KNNTrainer) (query : List Nat) (i : Nat) (hw : WF t)
    (hi : i < t.samples.length) (hq : query.length = 8) :
    dist_sq t query i = Finset.sum (Finset.range 8)
      (fun j => ((((t.samples.getD i []).getD j 0 : Nat) : Int)
        - ((query.getD j 0 : Nat) : Int)) ^ 2) := by
  unfold dist_sq
  rw [hw.norms i hi]
  exact dist_identity _ _ (hw.sample_len _ (mem_getD _ _ hi)) hq

theorem dist_sq_zero_iff_of_wf (t : KNNTrainer) (query : List Nat) (i : Nat) (hw : WF t)
    (hi : i < t.samples.length) (hq : query.length = 8) :
    dist_sq t query i = 0 ↔ t.samples.getD i [] = query := by
  rw [wf_dist_sq t query i hw hi hq]
  exact sq_dist_zero_iff _ _ (hw.sample_len _ (mem_getD _ _ hi)) hq

/-! ## `classify` -/

theorem classify_of_scan (t : KNNTrainer) (query : List Nat) (pq : List DistIndex)
    (ht : t.trained = true) (hne : t.samples ≠ []) (hs : scan t query = some pq) :
    classify t query = some ((find_max (tally t.labels pq)).1,
      confidence (find_max (tally t.labels pq)).2 pq.length) := by
  unfold classify
  have : (!t.trained || t.samples.isEmpty) = false := by
    cases hsm : t.samples with
    | nil => exact absurd hsm hne
    | cons a l => simp [ht]
  rw [this, hs]
  simp

theorem example_reachable : Reachable example_state :=
  Reachable.load _ _ _ (Reachable.create 3 2 (by decide) (by decide))

theorem scan_spec (t : KNNTrainer) (query : List Nat) (hw : WF t) (hk : 1 ≤ t.k) :
    ∃ pq, scan t query = some pq ∧ ScanInv t.k.toNat (dist_sq t query) t.samples.length pq := by
  have hK : toSizeT t.k = t.k.toNat := toSizeT_of_nonneg t.k (by omega) hw.k_int.2
  have := scan_loop_inv t.k (dist_sq t query) (by rw [hK]; omega) t.samples.length
  rw [hK] at this
  exact this

/-! ## Rounding to `float` -/

theorem round_even_floor_le (x : ℚ) : ⌊x⌋ ≤ round_even x := by
  unfold round_even; split_ifs <;> omega

theorem round_even_le_floor (x : ℚ) : round_even x ≤ ⌊x⌋ + 1 := by
  unfold round_even; split_ifs <;> omega

theorem round_even_int (n : Int) : round_even (n : ℚ) = n := by
  unfold round_even; simp

theorem round_even_mono {x y : ℚ} (h : x ≤ y) : round_even x ≤ round_even y := by
  rcases lt_or_eq_of_le (Int.floor_mono h) with hlt | heq
  · calc round_even x ≤ ⌊x⌋ + 1 := round_even_le_floor x
      _ ≤ ⌊y⌋ := hlt
      _ ≤ round_even y := round_even_floor_le y
  · have hf : x - ⌊x⌋ ≤ y - ⌊y⌋ := by rw [heq]; linarith
    unfold round_even
    rw [heq]
    split_ifs <;> first | omega | (exfalso; linarith)

theorem le_round_even {x : ℚ} {n : Int} (h : (n : ℚ) ≤ x) : n ≤ round_even x := by
  have := round_even_mono h
  rwa [round_even_int] at this

theorem round_even_le {x : ℚ} {n : Int} (h : x ≤ (n : ℚ)) : round_even x ≤ n := by
  have := round_even_mono h
  rwa [round_even_int] at this

theorem round_even_eq {x : ℚ} (n : Int) (h1 : (n : ℚ) - 1 / 2 < x) (h2 : x < (n : ℚ) + 1 / 2) :
    round_even x = n := by
  unfold round_even
  have hf1 : ⌊x⌋ ≤ n := by
    by_contra hc
    have : n + 1 ≤ ⌊x⌋ := by omega
    have h3 : ((n + 1 : Int) : ℚ) ≤ x := le_trans (by exact_mod_cast this) (Int.floor_le x)
    push_cast at h3; linarith
  have hf2 : n - 1 ≤ ⌊x⌋ := by
    by_contra hc
    have : ⌊x⌋ + 1 ≤ n - 1 := by omega
    have h3 : x < ((n - 1 : Int) : ℚ) := lt_of_lt_of_le (Int.lt_floor_add_one x) (by exact_mod_cast this)
    push_cast at h3; linarith
  rcases (by omega : ⌊x⌋ = n ∨ ⌊x⌋ = n - 1) with h | h
  · rw [h]; rw [if_pos (by linarith)]
  · rw [h]
    have : (1 : ℚ) / 2 < x - ((n - 1 : Int) : ℚ) := by push_cast; linarith
    rw [if_neg (by linarith), if_pos this]; omega


theorem two_zpow_pos (e : Int) : (0 : ℚ) < 2 ^ e := zpow_pos (by norm_num) e

theorem to_float_zero : to_float 0 = 0 := by simp [to_float]

theorem to_float_of_pos {x : ℚ} (hx : 0 < x) :
    to_float x = (round_even (x / 2 ^ (Int.log 2 x - 23)) : ℚ) * 2 ^ (Int.log 2 x - 23) := by
  unfold to_float
  rw [if_neg (ne_of_gt hx), abs_of_pos hx]

theorem pow_log_le {x : ℚ} (hx : 0 < x) : (2 : ℚ) ^ Int.log 2 x ≤ x := by
  have := Int.zpow_log_le_self (b := 2) (by norm_num) hx
  simpa using this

theorem lt_pow_log_succ (x : ℚ) : x < (2 : ℚ) ^ (Int.log 2 x + 1) := by
  have := Int.lt_zpow_succ_log_self (b := 2) (by norm_num) x
  simpa using this

theorem log_eq_of_bounds {x : ℚ} (e : Int) (h1 : (2 : ℚ) ^ e ≤ x) (h2 : x < (2 : ℚ) ^ (e + 1)) :
    Int.log 2 x = e := by
  have hx : 0 < x := lt_of_lt_of_le (two_zpow_pos e) h1
  have a : e ≤ Int.log 2 x := by
    rw [← Int.zpow_le_iff_le_log (by norm_num) hx]; simpa using h1
  have b : Int.log 2 x < e + 1 := by
    rw [← Int.lt_zpow_iff_log_lt (by norm_num) hx]; simpa using h2
  omega

theorem scaled_bounds {x : ℚ} (hx : 0 < x) :
    ((2 ^ 23 : Int) : ℚ) ≤ x / 2 ^ (Int.log 2 x - 23) ∧
      x / 2 ^ (Int.log 2 x - 23) ≤ ((2 ^ 24 : Int) : ℚ) := by
  have hu := two_zpow_pos (Int.log 2 x - 23)
  have h1 := pow_log_le hx
  have h2 := lt_pow_log_succ x
  have e1 : (2 : ℚ) ^ Int.log 2 x = 2 ^ 23 * 2 ^ (Int.log 2 x - 23) := by
    rw [show Int.log 2 x = 23 + (Int.log 2 x - 23) by ring, zpow_add₀ (by norm_num)]
    norm_num
  have e2 : (2 : ℚ) ^ (Int.log 2 x + 1) = 2 ^ 24 * 2 ^ (Int.log 2 x - 23) := by
    rw [show Int.log 2 x + 1 = 24 + (Int.log 2 x - 23) by ring, zpow_add₀ (by norm_num)]
    norm_num
  constructor
  · rw [le_div_iff₀ hu]; push_cast; linarith
  · rw [div_le_iff₀ hu]; push_cast; linarith

theorem pow_log_le_to_float {x : ℚ} (hx : 0 < x) : (2 : ℚ) ^ Int.log 2 x ≤ to_float x := by
  have hu := two_zpow_pos (Int.log 2 x - 23)
  have h := le_round_even (scaled_bounds hx).1
  have e1 : (2 : ℚ) ^ Int.log 2 x = 2 ^ 23 * 2 ^ (Int.log 2 x - 23) := by
    rw [show Int.log 2 x = 23 + (Int.log 2 x - 23) by ring, zpow_add₀ (by norm_num)]
    norm_num
  rw [to_float_of_pos hx]
  rw [show (2 : ℚ) ^ Int.log 2 x = 2 ^ 23 * 2 ^ (Int.log 2 x - 23) from e1]
  have hq : ((2 ^ 23 : Int) : ℚ) ≤ (round_even (x / 2 ^ (Int.log 2 x - 23)) : ℚ) := by exact_mod_cast h
  push_cast at hq
  exact mul_le_mul_of_nonneg_right hq (le_of_lt hu)

theorem to_float_le_pow_succ {x : ℚ} (hx : 0 < x) : to_float x ≤ (2 : ℚ) ^ (Int.log 2 x + 1) := by
  have hu := two_zpow_pos (Int.log 2 x - 23)
  have h := round_even_le (scaled_bounds hx).2
  have e2 : (2 : ℚ) ^ (Int.log 2 x + 1) = 2 ^ 24 * 2 ^ (Int.log 2 x - 23) := by
    rw [show Int.log 2 x + 1 = 24 + (Int.log 2 x - 23) by ring, zpow_add₀ (by norm_num)]
    norm_num
  rw [to_float_of_pos hx, e2]
  have hq : (round_even (x / 2 ^ (Int.log 2 x - 23)) : ℚ) ≤ ((2 ^ 24 : Int) : ℚ) := by exact_mod_cast h
  push_cast at hq
  exact mul_le_mul_of_nonneg_right hq (le_of_lt hu)

theorem to_float_pos {x : ℚ} (hx : 0 < x) : 0 < to_float x :=
  lt_of_lt_of_le (two_zpow_pos _) (pow_log_le_to_float hx)

theorem to_float_mono {x y : ℚ} (hx : 0 ≤ x) (h : x ≤ y) : to_float x ≤ to_float y := by
  rcases eq_or_lt_of_le hx with h0 | hx
  · rw [← h0, to_float_zero]
    rcases eq_or_lt_of_le (le_trans hx h) with h1 | h1
    · rw [← h1, to_float_zero]
    · exact le_of_lt (to_float_pos h1)
  have hy : 0 < y := lt_of_lt_of_le hx h
  rcases eq_or_lt_of_le (Int.log_mono_right (b := 2) hx h) with he | he
  · rw [to_float_of_pos hx, to_float_of_pos hy, ← he]
    have hu := two_zpow_pos (Int.log 2 x - 23)
    have hr : round_even (x / 2 ^ (Int.log 2 x - 23)) ≤ round_even (y / 2 ^ (Int.log 2 x - 23)) :=
      round_even_mono (div_le_div_of_nonneg_right h (le_of_lt hu))
    exact mul_le_mul_of_nonneg_right (by exact_mod_cast hr) (le_of_lt hu)
  · calc to_float x ≤ (2 : ℚ) ^ (Int.log 2 x + 1) := to_float_le_pow_succ hx
      _ ≤ (2 : ℚ) ^ Int.log 2 y := zpow_le_zpow_right₀ (by norm_num) (by omega)
      _ ≤ to_float y := pow_log_le_to_float hy

theorem to_float_of_scaled_int {x : ℚ} (hx : 0 < x) (m : Int)
    (h : x / 2 ^ (Int.log 2 x - 23) = (m : ℚ)) : to_float x = x := by
  have hu := two_zpow_pos (Int.log 2 x - 23)
  rw [to_float_of_pos hx, h, round_even_int, ← h]
  field_simp

theorem to_float_eval {x : ℚ} (e m : Int) (h1 : (2 : ℚ) ^ e ≤ x) (h2 : x < (2 : ℚ) ^ (e + 1))
    (h3 : (m : ℚ) - 1 / 2 < x / 2 ^ (e - 23)) (h4 : x / 2 ^ (e - 23) < (m : ℚ) + 1 / 2) :
    to_float x = (m : ℚ) * 2 ^ (e - 23) := by
  have hx : 0 < x := lt_of_lt_of_le (two_zpow_pos e) h1
  rw [to_float_of_pos hx, log_eq_of_bounds e h1 h2, round_even_eq m h3 h4]

theorem to_float_one : to_float 1 = 1 := by
  have := to_float_eval (x := 1) 0 (2 ^ 23) (by norm_num) (by norm_num) (by norm_num) (by norm_num)
  rw [this]; norm_num

theorem to_float_natCast (n : Nat) (h : n < 2 ^ 24) : to_float (n : ℚ) = n := by
  rcases Nat.eq_zero_or_pos n with h0 | hn
  · subst h0; simp [to_float_zero]
  have hx : (0 : ℚ) < n := by exact_mod_cast hn
  have hlog : Int.log 2 (n : ℚ) = Nat.log 2 n := Int.log_natCast 2 n
  have hle : Nat.log 2 n ≤ 23 := by
    have := Nat.log_lt_of_lt_pow (b := 2) (Nat.pos_iff_ne_zero.mp hn) h
    omega
  apply to_float_of_scaled_int hx ((n : Int) * 2 ^ (23 - Nat.log 2 n))
  rw [hlog]
  have : ((Nat.log 2 n : Int) - 23) = -((23 - Nat.log 2 n : Nat) : Int) := by omega
  rw [this, zpow_neg, zpow_natCast]
  push_cast
  field_simp

theorem round_even_error (y : ℚ) : |(round_even y : ℚ) - y| ≤ 1 / 2 := by
  have h1 := Int.floor_le y
  have h2 := Int.lt_floor_add_one y
  unfold round_even
  rw [abs_le]
  split_ifs with a b c
  · constructor <;> linarith
  · push_cast; constructor <;> linarith
  · constructor <;> linarith
  · push_cast; constructor <;> linarith

/-- A conversion to `float` changes a positive value by at most the fraction `2^-24` of it. -/
theorem to_float_error {x : ℚ} (hx : 0 < x) : |to_float x - x| ≤ x / 2 ^ 24 := by
  have hu := two_zpow_pos (Int.log 2 x - 23)
  have h1 := pow_log_le hx
  have e1 : (2 : ℚ) ^ Int.log 2 x = 2 ^ 23 * 2 ^ (Int.log 2 x - 23) := by
    rw [show Int.log 2 x = 23 + (Int.log 2 x - 23) by ring, zpow_add₀ (by norm_num)]
    norm_num
  have hr := round_even_error (x / 2 ^ (Int.log 2 x - 23))
  have hxu : x = x / 2 ^ (Int.log 2 x - 23) * 2 ^ (Int.log 2 x - 23) := by field_simp
  have : to_float x - x
      = ((round_even (x / 2 ^ (Int.log 2 x - 23)) : ℚ) - x / 2 ^ (Int.log 2 x - 23))
        * 2 ^ (Int.log 2 x - 23) := by
    rw [to_float_of_pos hx]; field_simp
  rw [this, abs_mul, abs_of_pos hu]
  have h3 : |(round_even (x / 2 ^ (Int.log 2 x - 23)) : ℚ) - x / 2 ^ (Int.log 2 x - 23)|
      * 2 ^ (Int.log 2 x - 23) ≤ 1 / 2 * 2 ^ (Int.log 2 x - 23) :=
    mul_le_mul_of_nonneg_right hr (le_of_lt hu)
  have h4 : (2 : ℚ) ^ 23 * 2 ^ (Int.log 2 x - 23) ≤ x := by rw [← e1]; exact h1
  rw [le_div_iff₀ (by norm_num)]
  nlinarith

theorem to_float_third : to_float (1 / 3) = 11184811 / 33554432 := by
  have := to_float_eval (x := 1 / 3) (-2) 11184811 (by norm_num) (by norm_num) (by norm_num)
    (by norm_num)
  rw [this]; norm_num

theorem to_float_half : to_float (1 / 2) = 1 / 2 := by
  have := to_float_eval (x := 1 / 2) (-1) (2 ^ 23) (by norm_num) (by norm_num) (by norm_num)
    (by norm_num)
  rw [this]; norm_num

theorem to_float_two_thirds : to_float (2 / 3) = 11184811 / 16777216 := by
  have := to_float_eval (x := 2 / 3) (-1) 11184811 (by norm_num) (by norm_num) (by norm_num)
    (by norm_num)
  rw [this]; norm_num

theorem confidence_self (n : Nat) (h : 0 < n) : confidence (n : Int) n = 1 := by
  unfold confidence
  rw [if_pos h]
  have hx : (0 : ℚ) < (n : ℚ) := by exact_mod_cast h
  have : to_float (n : ℚ) ≠ 0 := ne_of_gt (to_float_pos hx)
  push_cast
  rw [div_self this, to_float_one]

theorem confidence_bounds (v : Int) (n : Nat) (h0 : 0 ≤ v) (h1 : v ≤ (n : Int)) :
    0 ≤ confidence v n ∧ confidence v n ≤ 1 := by
  unfold confidence
  split_ifs with hn
  · have hx : (0 : ℚ) < (n : ℚ) := by exact_mod_cast hn
    have hv : (0 : ℚ) ≤ (v : ℚ) := by exact_mod_cast h0
    have hvn : (v : ℚ) ≤ (n : ℚ) := by exact_mod_cast h1
    have hb := to_float_pos hx
    have ha : 0 ≤ to_float (v : ℚ) := by
      have := to_float_mono (le_refl 0) hv
      rwa [to_float_zero] at this
    have hab := to_float_mono hv hvn
    have hq0 : 0 ≤ to_float (v : ℚ) / to_float (n : ℚ) := div_nonneg ha (le_of_lt hb)
    have hq1 : to_float (v : ℚ) / to_float (n : ℚ) ≤ 1 := (div_le_one hb).mpr hab
    constructor
    · have := to_float_mono (le_refl 0) hq0
      rwa [to_float_zero] at this
    · have := to_float_mono hq0 hq1
      rwa [to_float_one] at this
  · exact ⟨le_refl _, zero_le_one⟩

theorem confidence_of_small (v : Int) (n : Nat) (h0 : 0 ≤ v) (h1 : v ≤ (n : Int))
    (hn : 0 < n) (hs : n < 2 ^ 24) : confidence v n = to_float ((v : ℚ) / (n : ℚ)) := by
  unfold confidence
  rw [if_pos hn, to_float_natCast n hs]
  obtain ⟨m, rfl⟩ := Int.eq_ofNat_of_zero_le h0
  have hm : m < 2 ^ 24 := by omega
  have := to_float_natCast m hm
  push_cast at this ⊢
  rw [this]

theorem confidence_one_two : confidence 1 2 = 1 / 2 := by
  rw [confidence_of_small 1 2 (by norm_num) (by norm_num) (by norm_num) (by norm_num)]
  norm_num [to_float_half]

theorem confidence_ge_third (v : Int) (h1 : 1 ≤ v) (h3 : v ≤ ((3 : Nat) : Int)) :
    1 / 3 ≤ confidence v 3 := by
  rw [confidence_of_small v 3 (by omega) h3 (by norm_num) (by norm_num)]
  have hv : (1 : ℚ) ≤ (v : ℚ) := by exact_mod_cast h1
  have hq : (1 : ℚ) / 3 ≤ (v : ℚ) / ((3 : Nat) : ℚ) := by
    push_cast
    rw [div_le_div_iff_of_pos_right (by norm_num)]
    exact hv
  have := to_float_mono (by norm_num) hq
  rw [to_float_third] at this
  refine le_trans ?_ this
  norm_num

/-- When every retained neighbour has the label `c`, the result is `(c, 1)`. -/
theorem classify_unanimous (t : KNNTrainer) (query : List Nat) (pq : List DistIndex) (c : Nat)
    (ht : t.trained = true) (hne : t.samples ≠ []) (hs : scan t query = some pq)
    (hpq : pq ≠ []) (hc : c < 10)
    (hall : ∀ e ∈ pq, e.2 < t.labels.length ∧ t.labels.getD e.2 0 = (c : Int)) :
    classify t query = some ((c : Int), 1) := by
  obtain ⟨_, tl⟩ := tally_spec t.labels pq
  have hlen : 0 < pq.length := List.length_pos.mpr hpq
  have hvc : (tally t.labels pq).getD c 0 = (pq.length : Int) := by
    rw [tl c hc]
    congr 1
    rw [List.countP_eq_length]
    intro e he
    simpa using hall e he
  have hvo : ∀ d : Nat, d < 10 → d ≠ c → (tally t.labels pq).getD d 0 = 0 := by
    intro d hd hdc
    rw [tl d hd]
    have : pq.countP (fun e => decide (e.2 < t.labels.length ∧ t.labels.getD e.2 0 = (d : Int)))
        = 0 := by
      rw [List.countP_eq_zero]
      intro e he
      have := (hall e he).2
      simp only [decide_eq_true_eq, not_and]
      intro _ h
      rw [this] at h
      omega
    rw [this]; rfl
  obtain ⟨p, hp, hf, h1, _⟩ := find_max_spec (tally t.labels pq)
    (by intro d hd; rw [tl d hd]; exact Int.natCast_nonneg _)
  have hpc : p = c := by
    by_contra hne2
    have a := h1 c hc
    rw [hvc, hvo p hp hne2] at a
    omega
  rw [classify_of_scan t query pq ht hne hs, hf, hpc, hvc, confidence_self _ hlen]

/-! ## The claims on `classify` -/

/-- C1: in a state reachable from `knn_create` by loads with `k ≥ 1`, for every 8-component
query, the scan of `classify` ends with a queue of exactly `min(k, n)` entries, with pairwise
distinct sample indices, each entry carrying the `dist_sq` of its sample, and no retained
`dist_sq` exceeds the `dist_sq` of a sample that is not retained. -/
theorem scan_retains_k_smallest (t : KNNTrainer) (query : List Nat)
    (hr : Reachable t) (hk : 1 ≤ t.k) (_hq : query.length = 8) :
    ∃ pq, scan t query = some pq ∧
      (pq.length : Int) = min t.k (t.samples.length : Int) ∧
      (pq.map Prod.snd).Nodup ∧
      (∀ e ∈ pq, e.2 < t.samples.length ∧ e.1 = dist_sq t query e.2) ∧
      (∀ e ∈ pq, ∀ j, j < t.samples.length → j ∉ pq.map Prod.snd →
        e.1 ≤ dist_sq t query j) := by
  obtain ⟨pq, h1, inv⟩ := scan_spec t query (reachable_wf t hr) hk
  refine ⟨pq, h1, ?_, inv.nodup, inv.mem, inv.small⟩
  rw [inv.len]
  omega

theorem scan_retains_k_smallest_witness :
    Reachable example_state ∧ 1 ≤ example_state.k ∧ example_query.length = 8 ∧
    ∃ pq, scan example_state example_query = some pq ∧
      (pq.length : Int) = min example_state.k (example_state.samples.length : Int) ∧
      (pq.map Prod.snd).Nodup ∧
      (∀ e ∈ pq, e.2 < example_state.samples.length ∧
        e.1 = dist_sq example_state example_query e.2) ∧
      (∀ e ∈ pq, ∀ j, j < example_state.samples.length → j ∉ pq.map Prod.snd →
        e.1 ≤ dist_sq example_state example_query j) :=
  ⟨example_reachable, by decide, by decide,
    scan_retains_k_smallest example_state example_query example_reachable (by decide)
      (by decide)⟩

/-- C2: in a state reachable from `knn_create` by loads, for every stored index `i` and every
query of 8 components, `dist_sq = SquaredNorm[i] + query_norm_sq - 2 * dot` is the sum over
`j` of `(samples[i][j] - query[j])^2` over the integers; it is non-negative, and zero exactly
when the sample equals the query. -/
theorem dist_sq_is_squared_distance (t : KNNTrainer) (query : List Nat) (i : Nat)
    (hr : Reachable t) (hi : i < t.samples.length) (hq : query.length = 8) :
    dist_sq t query i = Finset.sum (Finset.range 8)
      (fun j => ((((t.samples.getD i []).getD j 0 : Nat) : Int)
        - ((query.getD j 0 : Nat) : Int)) ^ 2) ∧
    0 ≤ dist_sq t query i ∧
    (dist_sq t query i = 0 ↔ t.samples.getD i [] = query) := by
  have hw := reachable_wf t hr
  have h := wf_dist_sq t query i hw hi hq
  refine ⟨h, ?_, ?_⟩
  · rw [h]; exact sq_dist_nonneg _ _
  · rw [h]
    exact sq_dist_zero_iff _ _ (hw.sample_len _ (mem_getD _ _ hi)) hq

theorem dist_sq_is_squared_distance_witness :
    Reachable example_state ∧ 2 < example_state.samples.length ∧ example_query.length = 8 ∧
    (dist_sq example_state example_query 2 = Finset.sum (Finset.range 8)
      (fun j => ((((example_state.samples.getD 2 []).getD j 0 : Nat) : Int)
        - ((example_query.getD j 0 : Nat) : Int)) ^ 2) ∧
    0 ≤ dist_sq example_state example_query 2 ∧
    (dist_sq example_state example_query 2 = 0 ↔
      example_state.samples.getD 2 [] = example_query)) :=
  ⟨example_reachable, by decide, by decide,
    dist_sq_is_squared_distance example_state example_query 2 example_reachable (by decide)
      (by decide)⟩

/-- C3: when `classify` tallies the votes of the queue left by its scan, the prediction `p` it
returns is a class in `0..9` with `votes[c] ≤ votes[p]` for every class `c` in `0..9` and
`votes[c] < votes[p]` for every `c < p`: a class with the highest vote count, the lowest one
among those tied for it. -/
theorem prediction_is_lowest_argmax (t : KNNTrainer) (query : List Nat) (pq : List DistIndex)
    (ht : t.trained = true) (hne : t.samples ≠ []) (hs : scan t query = some pq) :
    ∃ (p : Nat) (conf : ℚ), p < 10 ∧ classify t query = some ((p : Int), conf) ∧
      (∀ c : Nat, c < 10 → (tally t.labels pq).getD c 0 ≤ (tally t.labels pq).getD p 0) ∧
      (∀ c : Nat, c < p → (tally t.labels pq).getD c 0 < (tally t.labels pq).getD p 0) := by
  obtain ⟨_, tl⟩ := tally_spec t.labels pq
  obtain ⟨p, hp, hf, h1, h2⟩ := find_max_spec (tally t.labels pq)
    (by intro c hc; rw [tl c hc]; exact Int.natCast_nonneg _)
  refine ⟨p, confidence ((tally t.labels pq).getD p 0) pq.length, hp, ?_, h1, h2⟩
  rw [classify_of_scan t query pq ht hne hs, hf]

theorem prediction_is_lowest_argmax_witness :
    example_state.trained = true ∧ example_state.samples ≠ [] ∧
    scan example_state example_query = some [(135268352, 1), (0, 0), (53858984, 2)] ∧
    ∃ (p : Nat) (conf : ℚ), p < 10 ∧
      classify example_state example_query = some ((p : Int), conf) ∧
      (∀ c : Nat, c < 10 →
        (tally example_state.labels [(135268352, 1), (0, 0), (53858984, 2)]).getD c 0
          ≤ (tally example_state.labels [(135268352, 1), (0, 0), (53858984, 2)]).getD p 0) ∧
      (∀ c : Nat, c < p →
        (tally example_state.labels [(135268352, 1), (0, 0), (53858984, 2)]).getD c 0
          < (tally example_state.labels [(135268352, 1), (0, 0), (53858984, 2)]).getD p 0) :=
  ⟨by decide, by decide, by decide,
    prediction_is_lowest_argmax example_state example_query _ (by decide) (by decide)
      (by decide)⟩

/-- C4, as stated, fails: in `tie_state` (three classes of two samples, `k = 3`) the zero
query keeps the neighbours 1, 2 and 4, one of each class, so `max_votes = 1` and
`min(k, n) = 3`; the confidence returned is the `float` quotient `11184811 / 33554432`, which
is not the rational `1/3`. -/
theorem confidence_quotient_counterexample :
    Reachable tie_state ∧ 1 ≤ tie_state.k ∧ zero_query.length = 8 ∧
    1 ≤ tie_state.samples.length ∧
    scan tie_state zero_query = some [(1, 1), (1, 2), (0, 4)] ∧
    (tally tie_state.labels [(1, 1), (1, 2), (0, 4)]).getD 0 0 = 1 ∧
    min tie_state.k (tie_state.samples.length : Int) = 3 ∧
    classify tie_state zero_query = some (0, 11184811 / 33554432) ∧
    ¬ ∃ (p : Nat) (conf : ℚ), classify tie_state zero_query = some ((p : Int), conf) ∧
      0 ≤ conf ∧ conf ≤ 1 ∧
      (1 ≤ tie_state.samples.length → ∃ pq, scan tie_state zero_query = some pq ∧
        conf = (((tally tie_state.labels pq).getD p 0 : Int) : ℚ)
          / ((min tie_state.k (tie_state.samples.length : Int) : Int) : ℚ)) := by
  have hs : scan tie_state zero_query = some [(1, 1), (1, 2), (0, 4)] := by decide
  have hf : find_max (tally tie_state.labels [(1, 1), (1, 2), (0, 4)]) = (0, 1) := by decide
  have hv : (tally tie_state.labels [(1, 1), (1, 2), (0, 4)]).getD 0 0 = 1 := by decide
  have hm : min tie_state.k (tie_state.samples.length : Int) = 3 := by decide
  have hc : classify tie_state zero_query = some (0, 11184811 / 33554432) := by
    rw [classify_of_scan tie_state _ _ (by decide) (by decide) hs, hf]
    show some ((0 : Int), confidence 1 3) = _
    rw [confidence_of_small 1 3 (by norm_num) (by norm_num) (by norm_num) (by norm_num)]
    norm_num [to_float_third]
  refine ⟨Reachable.load _ _ _ (Reachable.create 3 1500 (by decide) (by decide)),
    by decide, by decide, by decide, hs, hv, hm, hc, ?_⟩
  rintro ⟨p, conf, hcl, _, _, h⟩
  obtain ⟨pq, hpq, hconf⟩ := h (by decide)
  rw [hs] at hpq
  rw [hc] at hcl
  injection hpq with hpq
  injection hcl with hcl
  injection hcl with hp0 hc0
  have hp : p = 0 := by exact_mod_cast hp0.symm
  subst hp
  subst hpq
  rw [hv, hm, ← hc0] at hconf
  norm_num at hconf

/-- C4, amended: in a state reachable from `knn_create` by loads with `k ≥ 1`, for every
8-component query, `classify` returns a confidence in `[0, 1]`; with `n ≥ 1` stored samples it
is the `float` quotient of `max_votes`, the vote count of the predicted class, by `min(k, n)`,
both converted to `float`; for `min(k, n) < 2^24` that is the `float` nearest to
`max_votes / min(k, n)`, which differs from the quotient by at most its fraction `2^-24`. -/
theorem confidence_float_quotient (t : KNNTrainer) (query : List Nat)
    (hr : Reachable t) (hk : 1 ≤ t.k) (_hq : query.length = 8) :
    ∃ (p : Nat) (conf : ℚ), classify t query = some ((p : Int), conf) ∧
      0 ≤ conf ∧ conf ≤ 1 ∧
      (1 ≤ t.samples.length → ∃ pq, scan t query = some pq ∧
        conf = to_float (to_float (((tally t.labels pq).getD p 0 : Int) : ℚ)
          / to_float ((min t.k (t.samples.length : Int) : Int) : ℚ)) ∧
        (min t.k (t.samples.length : Int) < 2 ^ 24 →
          conf = to_float ((((tally t.labels pq).getD p 0 : Int) : ℚ)
            / ((min t.k (t.samples.length : Int) : Int) : ℚ)) ∧
          |conf - (((tally t.labels pq).getD p 0 : Int) : ℚ)
              / ((min t.k (t.samples.length : Int) : Int) : ℚ)|
            ≤ (((tally t.labels pq).getD p 0 : Int) : ℚ)
              / ((min t.k (t.samples.length : Int) : Int) : ℚ) / 2 ^ 24)) := by
  have hw := reachable_wf t hr
  by_cases hne : t.samples = []
  · refine ⟨0, 0, ?_, le_refl _, zero_le_one, ?_⟩
    · unfold classify
      simp [hne]
    · intro h; rw [hne] at h; simp at h
  · have ht := hw.trained hne
    obtain ⟨pq, hs, inv⟩ := scan_spec t query hw hk
    obtain ⟨_, tl⟩ := tally_spec t.labels pq
    obtain ⟨p, hp, hf, _, _⟩ := find_max_spec (tally t.labels pq)
      (by intro d hd; rw [tl d hd]; exact Int.natCast_nonneg _)
    have hn : 0 < t.samples.length := List.length_pos.mpr hne
    have hlen : (pq.length : Int) = min t.k (t.samples.length : Int) := by
      rw [inv.len]; omega
    have hpos : 0 < pq.length := by omega
    have hle : (tally t.labels pq).getD p 0 ≤ (pq.length : Int) := by
      rw [tl p hp]
      exact_mod_cast List.countP_le_length _
    have hge : 0 ≤ (tally t.labels pq).getD p 0 := by
      rw [tl p hp]; exact Int.natCast_nonneg _
    obtain ⟨hb0, hb1⟩ := confidence_bounds _ pq.length hge hle
    refine ⟨p, _, by rw [classify_of_scan t query pq ht hne hs, hf], hb0, hb1, ?_⟩
    intro _
    refine ⟨pq, hs, ?_, ?_⟩
    · rw [← hlen]
      unfold confidence
      rw [if_pos hpos]
      norm_cast
    · intro hsmall
      rw [← hlen] at hsmall ⊢
      have hs24 : pq.length < 2 ^ 24 := by exact_mod_cast hsmall
      have hc := confidence_of_small _ pq.length hge hle hpos hs24
      have hcast : (((pq.length : Nat) : Int) : ℚ) = (pq.length : ℚ) := Int.cast_natCast _
      rw [hcast]
      refine ⟨hc, ?_⟩
      rw [hc]
      have hq0 : (0 : ℚ) < (pq.length : ℚ) := by exact_mod_cast hpos
      rcases eq_or_lt_of_le hge with h0 | h0
      · rw [← h0]; simp [to_float_zero]
      · exact to_float_error (div_pos (by exact_mod_cast h0) hq0)

theorem confidence_float_quotient_witness :
    Reachable example_state ∧ 1 ≤ example_state.k ∧ example_query.length = 8 ∧
    ∃ (p : Nat) (conf : ℚ), classify example_state example_query = some ((p : Int), conf) ∧
      0 ≤ conf ∧ conf ≤ 1 ∧
      (1 ≤ example_state.samples.length → ∃ pq, scan example_state example_query = some pq ∧
        conf = to_float (to_float (((tally example_state.labels pq).getD p 0 : Int) : ℚ)
          / to_float ((min example_state.k (example_state.samples.length : Int) : Int) : ℚ)) ∧
        (min example_state.k (example_state.samples.length : Int) < 2 ^ 24 →
          conf = to_float ((((tally example_state.labels pq).getD p 0 : Int) : ℚ)
            / ((min example_state.k (example_state.samples.length : Int) : Int) : ℚ)) ∧
          |conf - (((tally example_state.labels pq).getD p 0 : Int) : ℚ)
              / ((min example_state.k (example_state.samples.length : Int) : Int) : ℚ)|
            ≤ (((tally example_state.labels pq).getD p 0 : Int) : ℚ)
              / ((min example_state.k (example_state.samples.length : Int) : Int) : ℚ)
                / 2 ^ 24)) :=
  ⟨example_reachable, by decide, by decide,
    confidence_float_quotient example_state example_query example_reachable (by decide)
      (by decide)⟩

/-- C5: a classifier whose trained flag is false or whose training set is empty returns
`(0, 0.0)` for every `k`, every `max_samples` and every query; so does a freshly created one,
and so does any classifier after a load that found all 10 files missing. -/
theorem classify_untrained (t t2 : KNNTrainer) (query : List Nat) (k max_samples : Int)
    (rnd : Nat → Nat → Nat) (h : t.trained = false ∨ t.samples = []) :
    classify t query = some (0, 0) ∧
    classify (knn_create k max_samples) query = some (0, 0) ∧
    classify (load_data t2 (fun _ => none) rnd) query = some (0, 0) := by
  refine ⟨?_, rfl, ?_⟩
  · unfold classify
    rcases h with h | h
    · simp [h]
    · simp [h]
  · have : (load_data t2 (fun _ => none) rnd).samples = [] := by
      simp [load_data, load_class, List.range_succ]
    unfold classify
    simp [this]

theorem classify_untrained_witness :
    ((knn_create (-1) 0).trained = false ∨ (knn_create (-1) 0).samples = []) ∧
    (classify (knn_create (-1) 0) example_query = some (0, 0) ∧
     classify (knn_create 0 1500) example_query = some (0, 0) ∧
     classify (load_data example_state (fun _ => none) example_rnd) example_query
       = some (0, 0)) :=
  ⟨Or.inl rfl,
    classify_untrained (knn_create (-1) 0) example_state example_query 0 1500 example_rnd
      (Or.inl rfl)⟩

/-- C6: in a state reachable from `knn_create` by loads with `k = 1`, for every stored index
`i` whose sample differs from every other stored sample, `classify(samples[i])` returns
`(labels[i], 1.0)`. -/
theorem classify_stored_sample (t : KNNTrainer) (i : Nat)
    (hr : Reachable t) (hk : t.k = 1) (hi : i < t.samples.length)
    (huniq : ∀ j, j < t.samples.length → j ≠ i → t.samples.getD j [] ≠ t.samples.getD i []) :
    classify t (t.samples.getD i []) = some (t.labels.getD i 0, 1) := by
  have hw := reachable_wf t hr
  have hne : t.samples ≠ [] := by
    intro h; rw [h] at hi; simp at hi
  have hq : (t.samples.getD i []).length = 8 := hw.sample_len _ (mem_getD _ _ hi)
  obtain ⟨pq, hs, inv⟩ := scan_spec t (t.samples.getD i []) hw (by omega)
  have hlen : pq.length = 1 := by
    rw [inv.len, hk]
    simp
    omega
  have hpq : pq ≠ [] := by
    intro h; rw [h] at hlen; simp at hlen
  have hd : ∀ j, j < t.samples.length →
      (dist_sq t (t.samples.getD i []) j = 0 ↔ t.samples.getD j [] = t.samples.getD i []) :=
    fun j hj => (dist_sq_zero_iff_of_wf t _ j hw hj hq)
  have hidx : ∀ e ∈ pq, e.2 = i := by
    intro e he
    by_contra hei
    have hin : i ∉ pq.map Prod.snd := by
      intro hmem
      obtain ⟨e2, he2, he2i⟩ := List.mem_map.mp hmem
      obtain ⟨a, ha⟩ := List.length_eq_one.mp hlen
      rw [ha] at he he2
      simp only [List.mem_singleton] at he he2
      rw [he2, ← he] at he2i
      exact hei he2i
    have h1 := inv.small e he i hi hin
    have h2 := (inv.mem e he)
    have h3 : dist_sq t (t.samples.getD i []) i = 0 := (hd i hi).mpr rfl
    have h4 : 0 ≤ dist_sq t (t.samples.getD i []) e.2 := by
      rw [wf_dist_sq t _ _ hw h2.1 hq]; exact sq_dist_nonneg _ _
    have h5 : dist_sq t (t.samples.getD i []) e.2 = 0 := by
      rw [← h2.2]; rw [h3] at h1; rw [← h2.2] at h4; omega
    exact huniq e.2 h2.1 hei ((hd e.2 h2.1).mp h5)
  have hil : i < t.labels.length := by rw [hw.labels_len]; exact hi
  have hlab : t.labels.getD i 0 ∈ t.labels := by
    rw [List.getD_eq_getElem?_getD, List.getElem?_eq_getElem hil]
    exact List.getElem_mem hil
  obtain ⟨hl0, hl10⟩ := hw.label_range _ hlab
  obtain ⟨c, hc⟩ := Int.eq_ofNat_of_zero_le hl0
  rw [hc]
  apply classify_unanimous t _ pq c (hw.trained hne) hne hs hpq (by omega)
  intro e he
  rw [hidx e he]
  exact ⟨hil, hc⟩

/-- C7: in a state reachable from `knn_create` by loads with `k ≥ 1` whose non-empty training
set has all labels equal to one class `c` in `0..9`, `classify` returns `(c, 1.0)` for every
8-component query. -/
theorem classify_single_class (t : KNNTrainer) (query : List Nat) (c : Nat)
    (hr : Reachable t) (hk : 1 ≤ t.k) (hne : t.samples ≠ []) (hc : c < 10)
    (hall : ∀ l ∈ t.labels, l = (c : Int)) (_hq : query.length = 8) :
    classify t query = some ((c : Int), 1) := by
  have hw := reachable_wf t hr
  obtain ⟨pq, hs, inv⟩ := scan_spec t query hw hk
  have hn : 0 < t.samples.length := List.length_pos.mpr hne
  have hpq : pq ≠ [] := by
    intro h
    have := inv.len
    rw [h] at this
    simp at this
    omega
  apply classify_unanimous t query pq c (hw.trained hne) hne hs hpq hc
  intro e he
  have hil : e.2 < t.labels.length := by rw [hw.labels_len]; exact (inv.mem e he).1
  refine ⟨hil, hall _ ?_⟩
  rw [List.getD_eq_getElem?_getD, List.getElem?_eq_getElem hil]
  exact List.getElem_mem hil

theorem classify_stored_sample_witness :
    Reachable example_state_k1 ∧ example_state_k1.k = 1 ∧ 2 < example_state_k1.samples.length ∧
    (∀ j, j < example_state_k1.samples.length → j ≠ 2 →
      example_state_k1.samples.getD j [] ≠ example_state_k1.samples.getD 2 []) ∧
    classify example_state_k1 (example_state_k1.samples.getD 2 [])
      = some (example_state_k1.labels.getD 2 0, 1) :=
  ⟨Reachable.load _ _ _ (Reachable.create 1 2 (by decide) (by decide)), by decide, by decide,
    by decide,
    classify_stored_sample example_state_k1 2
      (Reachable.load _ _ _ (Reachable.create 1 2 (by decide) (by decide)))
      (by decide) (by decide) (by decide)⟩

theorem classify_single_class_witness :
    Reachable single_state ∧ 1 ≤ single_state.k ∧ single_state.samples ≠ [] ∧ 4 < 10 ∧
    (∀ l ∈ single_state.labels, l = ((4 : Nat) : Int)) ∧ example_query.length = 8 ∧
    classify single_state example_query = some (((4 : Nat) : Int), 1) :=
  ⟨Reachable.load _ _ _ (Reachable.create 2 2 (by decide) (by decide)), by decide, by decide,
    by decide, by decide, by decide,
    classify_single_class single_state example_query 4
      (Reachable.load _ _ _ (Reachable.create 2 2 (by decide) (by decide)))
      (by decide) (by decide) (by decide) (by decide) (by decide)⟩

/-! ## The claims on `load_data` -/

/-- C9: after every load, for every stored index `i`, `squared_norms[i]` is the sum over the 8
components `j` of `samples[i][j]^2`, computed over the integers. -/
theorem load_squared_norms (t : KNNTrainer) (fs : Nat → Option (List Nat))
    (rnd : Nat → Nat → Nat) (i : Nat) (hi : i < (load_data t fs rnd).samples.length) :
    (load_data t fs rnd).squared_norms.getD i 0
      = Finset.sum (Finset.range 8)
          (fun j => (((((load_data t fs rnd).samples.getD i []).getD j 0 : Nat) : Int)) ^ 2) := by
  obtain ⟨_, _, _, _, _, _, h7, _, _, _⟩ := load_data_spec t fs rnd
  rw [h7 i hi, norm_sq_eq_sum]

theorem load_squared_norms_witness :
    3 < (load_data (knn_create 3 2) example_dir example_rnd).samples.length ∧
    (load_data (knn_create 3 2) example_dir example_rnd).squared_norms.getD 3 0
      = Finset.sum (Finset.range 8)
          (fun j => (((((load_data (knn_create 3 2) example_dir example_rnd).samples.getD 3
            []).getD j 0 : Nat) : Int)) ^ 2) :=
  ⟨by decide, load_squared_norms (knn_create 3 2) example_dir example_rnd 3 (by decide)⟩

/-- C10: in every state reachable from `knn_create` by any sequence of loads, the samples, the
labels and the squared norms have the same length, and every sample has exactly 8
components. -/
theorem parallel_collections (t : KNNTrainer) (hr : Reachable t) :
    t.labels.length = t.samples.length ∧ t.squared_norms.length = t.samples.length ∧
    ∀ s ∈ t.samples, s.length = 8 := by
  have hw := reachable_wf t hr
  exact ⟨hw.labels_len, hw.norms_len, hw.sample_len⟩

theorem parallel_collections_witness :
    Reachable (load_data example_state (fun _ => none) example_rnd) ∧
    Reachable single_state ∧
    (single_state.labels.length = single_state.samples.length ∧
     single_state.squared_norms.length = single_state.samples.length ∧
     ∀ s ∈ single_state.samples, s.length = 8) :=
  ⟨Reachable.load _ _ _ example_reachable,
    Reachable.load _ _ _ (Reachable.create 2 2 (by decide) (by decide)),
    parallel_collections single_state
      (Reachable.load _ _ _ (Reachable.create 2 2 (by decide) (by decide)))⟩

/-! ## The trained flag -/

/-- A load sets the flag when it stores a sample and leaves it as it was otherwise. -/
theorem load_data_trained (t : KNNTrainer) (fs : Nat → Option (List Nat))
    (rnd : Nat → Nat → Nat) :
    (load_data t fs rnd).trained = (t.trained || !(load_data t fs rnd).samples.isEmpty) := by
  unfold load_data
  simp only []
  generalize (List.range 10).foldl _ (([], []) : List (List Nat) × List Int) = st
  cases hst : st.1 with
  | nil => simp
  | cons a l => simp [train]

/-- A load in which no class contributes a sample stores nothing. -/
theorem load_data_empty (t : KNNTrainer) (fs : Nat → Option (List Nat))
    (rnd : Nat → Nat → Nat) (h : ∀ g, g < 10 → class_count t.max_samples (fs g) = 0) :
    (load_data t fs rnd).samples = [] := by
  obtain ⟨_, _, h3, _, _, h6, _, _, h9, _⟩ := load_data_spec t fs rnd
  have hl : (load_data t fs rnd).labels = [] := by
    cases hlab : (load_data t fs rnd).labels with
    | nil => rfl
    | cons c rest =>
      exfalso
      have hc := h6 c (by rw [hlab]; exact List.mem_cons_self _ _)
      obtain ⟨n, hn⟩ := Int.eq_ofNat_of_zero_le hc.1
      have hn10 : n < 10 := by omega
      have hcount := h9 n hn10
      rw [h n hn10, hlab, ← hn] at hcount
      simp at hcount
  rw [hl] at h3
  exact List.length_eq_zero.mp h3.symm

/-- C11, as stated, fails: `reloaded_state` is reachable (a load that stores six samples, then a
load in which all 10 files are missing); its trained flag is true and its training set is
empty, although no class contributed a sample to the last load. -/
theorem trained_iff_nonempty_counterexample :
    Reachable reloaded_state ∧
    (∀ g, g < 10 → class_count example_state.max_samples ((fun _ => none) g) = 0) ∧
    reloaded_state.trained = true ∧ reloaded_state.samples = [] ∧
    ¬ (reloaded_state.trained = true ↔ reloaded_state.samples ≠ []) :=
  ⟨Reachable.load _ _ _ (Reachable.load _ _ _ (Reachable.create 3 2 (by decide) (by decide))),
    by decide, by decide, by decide, by decide⟩

/-- C11, amended: in every state reachable from `knn_create` by loads, a non-empty training set
implies the trained flag; a load sets the flag when it stores at least one sample and leaves
it as it was otherwise; so after a load in which all 10 classes contribute zero samples the
training set is empty and the flag has the value it had before, and after a load of an
untrained classifier the flag is true if and only if the training set is non-empty. -/
theorem trained_flag_after_load (t : KNNTrainer) (fs : Nat → Option (List Nat))
    (rnd : Nat → Nat → Nat) (hr : Reachable t) :
    (t.samples ≠ [] → t.trained = true) ∧
    (load_data t fs rnd).trained = (t.trained || !(load_data t fs rnd).samples.isEmpty) ∧
    ((∀ g, g < 10 → class_count t.max_samples (fs g) = 0) →
      (load_data t fs rnd).samples = [] ∧ (load_data t fs rnd).trained = t.trained) ∧
    (t.trained = false →
      ((load_data t fs rnd).trained = true ↔ (load_data t fs rnd).samples ≠ [])) := by
  have ht := load_data_trained t fs rnd
  refine ⟨(reachable_wf t hr).trained, ht, ?_, ?_⟩
  · intro h
    have he := load_data_empty t fs rnd h
    refine ⟨he, ?_⟩
    rw [ht, he]
    simp
  · intro hf
    rw [ht, hf]
    cases (load_data t fs rnd).samples with
    | nil => simp
    | cons a l => simp

theorem trained_flag_after_load_witness :
    Reachable example_state ∧
    ((example_state.samples ≠ [] → example_state.trained = true) ∧
    (load_data example_state (fun _ => none) example_rnd).trained
      = (example_state.trained
          || !(load_data example_state (fun _ => none) example_rnd).samples.isEmpty) ∧
    ((∀ g, g < 10 → class_count example_state.max_samples ((fun _ => none) g) = 0) →
      (load_data example_state (fun _ => none) example_rnd).samples = [] ∧
      (load_data example_state (fun _ => none) example_rnd).trained = example_state.trained) ∧
    (example_state.trained = false →
      ((load_data example_state (fun _ => none) example_rnd).trained = true ↔
        (load_data example_state (fun _ => none) example_rnd).samples ≠ []))) :=
  ⟨example_reachable,
    trained_flag_after_load example_state (fun _ => none) example_rnd example_reachable⟩

/-- C12: the trained flag is false at construction, and a classifier whose flag is true keeps
it true after any load and after any sequence of loads, also loads that find no data;
`classify` is a function of the state and changes none of it. -/
theorem trained_is_terminal (t : KNNTrainer) (k max_samples : Int)
    (ops : List ((Nat → Option (List Nat)) × (Nat → Nat → Nat)))
    (fs : Nat → Option (List Nat)) (rnd : Nat → Nat → Nat) (h : t.trained = true) :
    (knn_create k max_samples).trained = false ∧
    (load_data t fs rnd).trained = true ∧
    (loads t ops).trained = true := by
  refine ⟨rfl, ?_, ?_⟩
  · rw [load_data_trained, h]; rfl
  · unfold loads
    induction ops generalizing t with
    | nil => exact h
    | cons o rest ih =>
      rw [List.foldl_cons]
      apply ih
      rw [load_data_trained, h]; rfl

theorem trained_is_terminal_witness :
    example_state.trained = true ∧
    ((knn_create 5 1500).trained = false ∧
     (load_data example_state (fun _ => none) example_rnd).trained = true ∧
     (loads example_state [(fun _ => none, example_rnd), (tie_dir, example_rnd),
        (fun _ => none, example_rnd)]).trained = true) :=
  ⟨by decide,
    trained_is_terminal example_state 5 1500 _ (fun _ => none) example_rnd (by decide)⟩

/-- C18: for two classifier states with the same `max_samples`, whatever samples, labels and
squared norms they hold, a load of the same directory with the same draws gives the same
samples, the same labels and the same squared norms; in particular the same as a load into a
freshly created classifier. -/
theorem load_rebuilds_wholesale (t1 t2 : KNNTrainer) (fs : Nat → Option (List Nat))
    (rnd : Nat → Nat → Nat) (h : t1.max_samples = t2.max_samples) :
    (load_data t1 fs rnd).samples = (load_data t2 fs rnd).samples ∧
    (load_data t1 fs rnd).labels = (load_data t2 fs rnd).labels ∧
    (load_data t1 fs rnd).squared_norms = (load_data t2 fs rnd).squared_norms ∧
    (load_data t1 fs rnd).samples
      = (load_data (knn_create t1.k t1.max_samples) fs rnd).samples ∧
    (load_data t1 fs rnd).labels
      = (load_data (knn_create t1.k t1.max_samples) fs rnd).labels ∧
    (load_data t1 fs rnd).squared_norms
      = (load_data (knn_create t1.k t1.max_samples) fs rnd).squared_norms := by
  have key : ∀ a b : KNNTrainer, a.max_samples = b.max_samples →
      (load_data a fs rnd).samples = (load_data b fs rnd).samples ∧
      (load_data a fs rnd).labels = (load_data b fs rnd).labels ∧
      (load_data a fs rnd).squared_norms = (load_data b fs rnd).squared_norms := by
    intro a b hab
    unfold load_data
    simp only []
    rw [hab]
    generalize (List.range 10).foldl _ (([], []) : List (List Nat) × List Int) = st
    cases hst : st.1 with
    | nil => simp
    | cons x l => simp [train, resize]
  obtain ⟨a1, a2, a3⟩ := key t1 t2 h
  obtain ⟨b1, b2, b3⟩ := key t1 (knn_create t1.k t1.max_samples) rfl
  exact ⟨a1, a2, a3, b1, b2, b3⟩

theorem load_rebuilds_wholesale_witness :
    example_state.max_samples = (knn_create 7 2).max_samples ∧
    ((load_data example_state tie_dir example_rnd).samples
      = (load_data (knn_create 7 2) tie_dir example_rnd).samples ∧
    (load_data example_state tie_dir example_rnd).labels
      = (load_data (knn_create 7 2) tie_dir example_rnd).labels ∧
    (load_data example_state tie_dir example_rnd).squared_norms
      = (load_data (knn_create 7 2) tie_dir example_rnd).squared_norms ∧
    (load_data example_state tie_dir example_rnd).samples
      = (load_data (knn_create example_state.k example_state.max_samples) tie_dir
          example_rnd).samples ∧
    (load_data example_state tie_dir example_rnd).labels
      = (load_data (knn_create example_state.k example_state.max_samples) tie_dir
          example_rnd).labels ∧
    (load_data example_state tie_dir example_rnd).squared_norms
      = (load_data (knn_create example_state.k example_state.max_samples) tie_dir
          example_rnd).squared_norms) :=
  ⟨by decide, load_rebuilds_wholesale example_state (knn_create 7 2) tie_dir example_rnd
    (by decide)⟩

/-! ## The contents of a load -/

theorem slice_eq_map (data : List Nat) (i : Nat) (h : i * 8 + 8 ≤ data.length) :
    (data.drop (i * 8)).take 8 = (List.range 8).map (fun j => data.getD (i * 8 + j) 0) := by
  apply List.ext_getElem
  · simp; omega
  · intro j h1 h2
    have hj : j < 8 := by simpa using h2
    simp only [List.getElem_take, List.getElem_drop, List.getElem_map, List.getElem_range,
      List.getD_eq_getElem?_getD]
    rw [List.getElem?_eq_getElem (by omega)]
    rfl

theorem read_data_getD (bytes : List Nat) (n p : Nat) (h : p < 8 * n) :
    (read_data bytes n).getD p 0 = u16_at bytes p := by
  simp [read_data, List.getD_eq_getElem?_getD, List.getElem?_map, List.getElem?_range, h]

theorem select_succ (data : List Nat) (num m : Nat) (rnd : Nat → Nat) :
    select data num (m + 1) rnd = select data num m rnd ++
      (List.range 8).map (fun j => data.getD ((rnd m % num) * 8 + j) 0) := by
  unfold select
  rw [List.range_succ m, List.foldl_append]
  simp only [List.foldl_cons, List.foldl_nil]
  generalize (List.range m).foldl _ ([] : List Nat) = sel
  simp [List.range_succ]

theorem select_getD (data : List Nat) (num : Nat) (rnd : Nat → Nat) :
    ∀ m i j : Nat, i < m → j < 8 →
      (select data num m rnd).getD (i * 8 + j) 0 = data.getD ((rnd i % num) * 8 + j) 0 := by
  intro m
  induction m with
  | zero => intro i j hi _; omega
  | succ m ih =>
    intro i j hi hj
    rw [select_succ]
    have hlen := select_length data num rnd m
    simp only [List.getD_eq_getElem?_getD] at ih ⊢
    by_cases him : i < m
    · rw [List.getElem?_append_left (by omega)]
      exact ih i j him hj
    · have hi2 : i = m := by omega
      subst hi2
      rw [List.getElem?_append_right (by omega), hlen]
      have hidx : i * 8 + j - 8 * i = j := by omega
      rw [hidx]
      simp [List.getElem?_map, List.getElem?_range, hj]

/-- One class appends its records, each with the label of the class. -/
theorem load_class_eq (m : Int) (file : Option (List Nat)) (rnd : Nat → Nat) (g : Nat)
    (st : List (List Nat) × List Int) :
    load_class m file rnd g st =
      (st.1 ++ class_records m file rnd,
       st.2 ++ List.replicate (class_records m file rnd).length (g : Int)) := by
  unfold load_class class_records
  cases file with
  | none => simp
  | some bytes =>
    simp only []
    have e16 : 8 * 2 = 16 := rfl
    rw [e16]
    by_cases h0 : bytes.length = 0
    · rw [if_pos h0]
      have h1 : bytes.length / 16 = 0 := by omega
      simp [h1]
    · rw [if_neg h0]
      by_cases h1 : bytes.length / 16 = 0
      · rw [if_pos h1]
        simp [h1]
      · rw [if_neg h1]
        by_cases h2 : bytes.length / 16 > toSizeT m
        · rw [if_pos h2, if_pos h2, add_samples_eq]
          have : (List.range (toSizeT m)).map
              (fun i => ((select (read_data bytes (bytes.length / 16)) (bytes.length / 16)
                (toSizeT m) rnd).drop (i * 8)).take 8)
              = (List.range (toSizeT m)).map
                (fun i => record bytes (rnd i % (bytes.length / 16))) := by
            apply List.map_congr_left
            intro i hi
            have hi2 := List.mem_range.mp hi
            rw [slice_eq_map _ _ (by rw [select_length]; omega)]
            unfold record
            apply List.map_congr_left
            intro j hj
            have hj2 := List.mem_range.mp hj
            rw [select_getD _ _ _ _ i j hi2 hj2]
            have hlt : rnd i % (bytes.length / 16) < bytes.length / 16 :=
              Nat.mod_lt _ (by omega)
            exact read_data_getD _ _ _ (by omega)
          rw [this]
          simp
        · rw [if_neg h2, if_neg h2, add_samples_eq]
          have : (List.range (bytes.length / 16)).map
              (fun i => ((read_data bytes (bytes.length / 16)).drop (i * 8)).take 8)
              = (List.range (bytes.length / 16)).map (record bytes) := by
            apply List.map_congr_left
            intro i hi
            have hi2 := List.mem_range.mp hi
            rw [slice_eq_map _ _ (by simp [read_data]; omega)]
            unfold record
            apply List.map_congr_left
            intro j hj
            have hj2 := List.mem_range.mp hj
            exact read_data_getD _ _ _ (by omega)
          rw [this]
          simp

theorem class_records_mem (m : Int) (file : Option (List Nat)) (rnd : Nat → Nat) (s : List Nat)
    (hs : s ∈ class_records m file rnd) :
    ∃ (bytes : List Nat) (r : Nat), file = some bytes ∧ r < bytes.length / 16 ∧
      s = record bytes r ∧
      (bytes.length / 16 > toSizeT m → ∃ j, j < toSizeT m ∧ r = rnd j % (bytes.length / 16)) := by
  unfold class_records at hs
  cases file with
  | none => simp at hs
  | some bytes =>
    simp only [] at hs
    by_cases h2 : bytes.length / 16 > toSizeT m
    · rw [if_pos h2] at hs
      obtain ⟨i, hi, rfl⟩ := List.mem_map.mp hs
      have hi2 := List.mem_range.mp hi
      exact ⟨bytes, _, rfl, Nat.mod_lt _ (by omega), rfl, fun _ => ⟨i, hi2, rfl⟩⟩
    · rw [if_neg h2] at hs
      obtain ⟨i, hi, rfl⟩ := List.mem_map.mp hs
      have hi2 := List.mem_range.mp hi
      exact ⟨bytes, i, rfl, hi2, rfl, fun h => absurd h h2⟩

/-- The state of the loop of `load_data` after the classes `0 .. n-1`: every stored pair comes
from the file of its class. -/
theorem load_loop_records (m : Int) (fs : Nat → Option (List Nat)) (rnd : Nat → Nat → Nat) :
    ∀ n : Nat,
      ((List.range n).foldl (fun st g => load_class m (fs g) (rnd g) g st)
        (([], []) : List (List Nat) × List Int)).1.length
      = ((List.range n).foldl (fun st g => load_class m (fs g) (rnd g) g st)
        (([], []) : List (List Nat) × List Int)).2.length ∧
      ∀ p ∈ (((List.range n).foldl (fun st g => load_class m (fs g) (rnd g) g st)
          (([], []) : List (List Nat) × List Int)).1.zip
        ((List.range n).foldl (fun st g => load_class m (fs g) (rnd g) g st)
          (([], []) : List (List Nat) × List Int)).2),
        FromFile m fs rnd n p.1 p.2 := by
  intro n
  induction n with
  | zero => simp
  | succ n ih =>
    rw [List.range_succ, List.foldl_append]
    simp only [List.foldl_cons, List.foldl_nil]
    generalize (List.range n).foldl _ (([], []) : List (List Nat) × List Int) = st at ih ⊢
    obtain ⟨i1, i2⟩ := ih
    rw [load_class_eq]
    simp only []
    refine ⟨by simp [i1], ?_⟩
    intro p hp
    rw [List.zip_append i1] at hp
    rcases List.mem_append.mp hp with h | h
    · obtain ⟨c, hc, rest⟩ := i2 p h
      exact ⟨c, by omega, rest⟩
    · have hm := List.of_mem_zip h
      obtain ⟨bytes, r, hf, hr, hs, hd⟩ := class_records_mem m (fs n) (rnd n) p.1 hm.1
      exact ⟨n, by omega, (List.mem_replicate.mp hm.2).2, bytes, r, hf, hr, hs, hd⟩

theorem load_data_samples (t : KNNTrainer) (fs : Nat → Option (List Nat))
    (rnd : Nat → Nat → Nat) :
    (load_data t fs rnd).samples = ((List.range 10).foldl
      (fun st g => load_class t.max_samples (fs g) (rnd g) g st)
      (([], []) : List (List Nat) × List Int)).1 ∧
    (load_data t fs rnd).labels = ((List.range 10).foldl
      (fun st g => load_class t.max_samples (fs g) (rnd g) g st)
      (([], []) : List (List Nat) × List Int)).2 := by
  unfold load_data
  simp only []
  split <;> exact ⟨rfl, rfl⟩

/-- C13: after every load, for every stored index `i`, the label `labels[i]` is a class `c` in
`0..9` and `samples[i]` is one of the complete 8-value records of the file of class `c`, for
every outcome of the draws; when the file has more records than the cap, the record is the
one at a drawn index in `[0, record_count)`. A class whose file is missing, empty or shorter
than one record contributes no sample. -/
theorem load_stores_file_records (t : KNNTrainer) (fs : Nat → Option (List Nat))
    (rnd : Nat → Nat → Nat) (i : Nat) (hi : i < (load_data t fs rnd).samples.length) :
    (∃ c : Nat, c < 10 ∧ (load_data t fs rnd).labels.getD i 0 = (c : Int) ∧
      ∃ (bytes : List Nat) (r : Nat), fs c = some bytes ∧ r < bytes.length / 16 ∧
        (load_data t fs rnd).samples.getD i [] = record bytes r ∧
        (bytes.length / 16 > toSizeT t.max_samples →
          ∃ j, j < toSizeT t.max_samples ∧ r = rnd c j % (bytes.length / 16))) ∧
    (∀ c : Nat, c < 10 → (fs c = none ∨ ∃ bytes, fs c = some bytes ∧ bytes.length < 16) →
      (load_data t fs rnd).labels.count (c : Int) = 0) := by
  obtain ⟨hs, hl⟩ := load_data_samples t fs rnd
  obtain ⟨l1, l2⟩ := load_loop_records t.max_samples fs rnd 10
  rw [← hs, ← hl] at l1 l2
  constructor
  · have hil : i < (load_data t fs rnd).labels.length := by omega
    have hmem : ((load_data t fs rnd).samples.getD i [], (load_data t fs rnd).labels.getD i 0)
        ∈ (load_data t fs rnd).samples.zip (load_data t fs rnd).labels := by
      have hz : i < ((load_data t fs rnd).samples.zip (load_data t fs rnd).labels).length := by
        simp; omega
      have := List.getElem_mem hz
      rw [List.getElem_zip] at this
      simpa [List.getD_eq_getElem?_getD, List.getElem?_eq_getElem hi,
        List.getElem?_eq_getElem hil] using this
    exact l2 _ hmem
  · intro c hc hfile
    obtain ⟨_, _, _, _, _, _, _, _, h9, _⟩ := load_data_spec t fs rnd
    rw [h9 c hc]
    unfold class_count record_count
    rcases hfile with h | ⟨bytes, h, hlen⟩
    · rw [h]; simp
    · rw [h]
      have : bytes.length / 16 = 0 := by omega
      simp [this]

theorem load_stores_file_records_witness :
    1 < (load_data (knn_create 3 1) example_dir example_rnd).samples.length ∧
    ((∃ c : Nat, c < 10 ∧
      (load_data (knn_create 3 1) example_dir example_rnd).labels.getD 1 0 = (c : Int) ∧
      ∃ (bytes : List Nat) (r : Nat), example_dir c = some bytes ∧ r < bytes.length / 16 ∧
        (load_data (knn_create 3 1) example_dir example_rnd).samples.getD 1 []
          = record bytes r ∧
        (bytes.length / 16 > toSizeT (knn_create 3 1).max_samples →
          ∃ j, j < toSizeT (knn_create 3 1).max_samples ∧
            r = example_rnd c j % (bytes.length / 16))) ∧
    (∀ c : Nat, c < 10 →
      (example_dir c = none ∨ ∃ bytes, example_dir c = some bytes ∧ bytes.length < 16) →
      (load_data (knn_create 3 1) example_dir example_rnd).labels.count (c : Int) = 0)) :=
  ⟨by decide, load_stores_file_records (knn_create 3 1) example_dir example_rnd 1 (by decide)⟩

/-! ## The read of a file with trailing bytes -/

theorem read_overrun_eq_mod (bytes : List Nat) : read_overrun bytes = bytes.length % 16 := by
  unfold read_overrun
  omega

/-- Below the cap, a class contributes its complete records in file order. -/
theorem class_records_below_cap (m : Int) (bytes : List Nat)
    (h : ¬ bytes.length / 16 > toSizeT m) (rnd : Nat → Nat) :
    class_records m (some bytes) rnd = (List.range (bytes.length / 16)).map (record bytes) := by
  unfold class_records
  simp only []
  rw [if_neg h]

/-- C14, at the failing input: for the class file `trailing_file` of 31 bytes, with one
complete record, below the default cap of 1500, `data` is a vector of 8 values (16 bytes) and
`file.read(data.data(), size)` stores all 31 bytes of the file: 15 bytes past the end of the
vector. -/
theorem read_overruns_data_vector :
    trailing_dir 0 = some trailing_file ∧
    trailing_file.length = 31 ∧ trailing_file.length / 16 = 1 ∧
    ¬ trailing_file.length / 16 > toSizeT (knn_create 5 1500).max_samples ∧
    (read_data trailing_file (trailing_file.length / 16)).length * 2 = 16 ∧
    read_overrun trailing_file = 15 ∧
    load_data_checked (knn_create 5 1500) trailing_dir example_rnd = none := by
  decide

/-- The example directories hold whole records only, below the cap or with a small cap:
their loads are defined. -/
theorem examples_in_bounds :
    load_data_checked (knn_create 3 2) example_dir example_rnd = some example_state ∧
    load_data_checked (knn_create 2 2) single_dir example_rnd = some single_state ∧
    load_data_checked (knn_create 3 1500) tie_dir example_rnd = some tie_state ∧
    load_data_checked (knn_create 2 1500) heap_tie_dir example_rnd = some heap_tie_state ∧
    load_data_checked (knn_create 3 1500) far_dir example_rnd = some far_state ∧
    load_data_checked (knn_create 2 1500) repeat_dir example_rnd = some repeat_state := by
  decide

/-- An iteration of the checked loop that is defined is the iteration of the loop. -/
theorem load_class_checked_eq (m : Int) (file : Option (List Nat)) (rnd : Nat → Nat) (g : Nat)
    (st st2 : List (List Nat) × List Int)
    (h : load_class_checked m file rnd g st = some st2) : st2 = load_class m file rnd g st := by
  unfold load_class_checked at h
  unfold load_class
  cases file with
  | none => simp only [] at h ⊢; exact (Option.some.inj h).symm
  | some bytes =>
    simp only [] at h ⊢
    split_ifs at h ⊢ <;> exact (Option.some.inj h).symm

/-- An iteration is defined when the file holds whole records only and, above the cap, the
argument of `reserve` is defined. -/
theorem load_class_checked_of_defined (m : Int) (file : Option (List Nat)) (rnd : Nat → Nat)
    (g : Nat) (st : List (List Nat) × List Int)
    (h1 : ∀ bytes, file = some bytes → bytes.length % 16 = 0)
    (h2 : ∀ bytes, file = some bytes → bytes.length / 16 > toSizeT m →
      reserve_defined m = true) :
    load_class_checked m file rnd g st = some (load_class m file rnd g st) := by
  unfold load_class_checked load_class
  cases file with
  | none => rfl
  | some bytes =>
    have hov : read_overrun bytes = 0 := by rw [read_overrun_eq_mod]; exact h1 bytes rfl
    have hres := h2 bytes rfl
    have e16 : 8 * 2 = 16 := rfl
    simp only [e16] at hres ⊢
    split_ifs <;> first | rfl | exact absurd hov ‹_› | exact absurd (hres ‹_›) ‹_›

theorem load_loop_checked_eq (m : Int) (fs : Nat → Option (List Nat)) (rnd : Nat → Nat → Nat) :
    ∀ (n : Nat) (st : List (List Nat) × List Int),
      (List.range n).foldlM (fun st g => load_class_checked m (fs g) (rnd g) g st)
        (([], []) : List (List Nat) × List Int) = some st →
      st = (List.range n).foldl (fun st g => load_class m (fs g) (rnd g) g st)
        (([], []) : List (List Nat) × List Int) := by
  intro n
  induction n with
  | zero =>
    intro st h
    simp at h
    exact h.symm
  | succ n ih =>
    intro st h
    rw [List.range_succ, List.foldlM_append] at h
    rw [List.range_succ, List.foldl_append]
    cases hp : (List.range n).foldlM (fun st g => load_class_checked m (fs g) (rnd g) g st)
        (([], []) : List (List Nat) × List Int) with
    | none => rw [hp] at h; simp at h
    | some s =>
      rw [hp] at h
      rw [← ih s hp]
      simp only [Option.some_bind, List.foldlM_cons, List.foldlM_nil, Option.bind_eq_bind,
        List.foldl_cons, List.foldl_nil] at h ⊢
      cases hq : load_class_checked m (fs n) (rnd n) n s with
      | none => rw [hq] at h; simp at h
      | some s2 =>
        rw [hq] at h
        simp at h
        rw [← h]
        exact load_class_checked_eq m (fs n) (rnd n) n s s2 hq

/-- A checked load that is defined gives the state of `load_data`. -/
theorem load_data_checked_eq (t t2 : KNNTrainer) (fs : Nat → Option (List Nat))
    (rnd : Nat → Nat → Nat) (h : load_data_checked t fs rnd = some t2) :
    t2 = load_data t fs rnd := by
  unfold load_data_checked at h
  unfold load_data
  cases hp : (List.range 10).foldlM
      (fun st g => load_class_checked t.max_samples (fs g) (rnd g) g st)
      (([], []) : List (List Nat) × List Int) with
  | none => rw [hp] at h; simp at h
  | some st =>
    rw [hp] at h
    rw [← load_loop_checked_eq t.max_samples fs rnd 10 st hp]
    simp only [] at h ⊢
    split_ifs at h ⊢ <;> exact (Option.some.inj h).symm

theorem load_loop_checked_of_defined (m : Int) (fs : Nat → Option (List Nat))
    (rnd : Nat → Nat → Nat)
    (h1 : ∀ g bytes, g < 10 → fs g = some bytes → bytes.length % 16 = 0)
    (h2 : ∀ g bytes, g < 10 → fs g = some bytes → bytes.length / 16 > toSizeT m →
      reserve_defined m = true) :
    ∀ n, n ≤ 10 →
      (List.range n).foldlM (fun st g => load_class_checked m (fs g) (rnd g) g st)
        (([], []) : List (List Nat) × List Int)
      = some ((List.range n).foldl (fun st g => load_class m (fs g) (rnd g) g st)
        (([], []) : List (List Nat) × List Int)) := by
  intro n
  induction n with
  | zero => intro _; rfl
  | succ n ih =>
    intro hn
    rw [List.range_succ, List.foldlM_append, List.foldl_append, ih (by omega)]
    simp only [Option.some_bind, List.foldlM_cons, List.foldlM_nil, Option.bind_eq_bind,
      List.foldl_cons, List.foldl_nil]
    rw [load_class_checked_of_defined m (fs n) (rnd n) n _
      (fun bytes hb => h1 n bytes (by omega) hb) (fun bytes hb => h2 n bytes (by omega) hb)]
    rfl

/-- When no file has a byte after its last complete record and the argument of `reserve` is
defined for every file above the cap, the checked load is defined, and it is the load. -/
theorem load_data_checked_of_defined (t : KNNTrainer) (fs : Nat → Option (List Nat))
    (rnd : Nat → Nat → Nat)
    (h1 : ∀ g bytes, g < 10 → fs g = some bytes → bytes.length % 16 = 0)
    (h2 : ∀ g bytes, g < 10 → fs g = some bytes → bytes.length / 16 > toSizeT t.max_samples →
      reserve_defined t.max_samples = true) :
    load_data_checked t fs rnd = some (load_data t fs rnd) := by
  unfold load_data_checked load_data
  rw [load_loop_checked_of_defined t.max_samples fs rnd h1 h2 10 (le_refl _)]
  simp only []
  split_ifs <;> rfl

/-- The argument of `reserve` is defined for every cap from 0 to `2^28 - 1`. -/
theorem reserve_defined_iff (m : Int) : reserve_defined m = true ↔ 0 ≤ m ∧ m < 2 ^ 28 := by
  unfold reserve_defined
  rw [decide_eq_true_iff]
  constructor <;> intro h <;> constructor <;> omega

/-- When no file has a byte after its last complete record and the cap is below `2^28`, the
checked load is defined, and it is the load. -/
theorem load_data_checked_of_multiples (t : KNNTrainer) (fs : Nat → Option (List Nat))
    (rnd : Nat → Nat → Nat)
    (h : ∀ g bytes, g < 10 → fs g = some bytes → bytes.length % 16 = 0)
    (hm : 0 ≤ t.max_samples ∧ t.max_samples < 2 ^ 28) :
    load_data_checked t fs rnd = some (load_data t fs rnd) :=
  load_data_checked_of_defined t fs rnd h
    (fun _ _ _ _ _ => (reserve_defined_iff t.max_samples).mpr hm)

theorem foldlM_none_of_step {α β : Type} (f : β → α → Option β) (a : α)
    (h : ∀ s, f s a = none) : ∀ (l : List α), a ∈ l → ∀ s, l.foldlM f s = none := by
  intro l
  induction l with
  | nil => intro ha; simp at ha
  | cons b l ih =>
    intro ha s
    rw [List.foldlM_cons]
    rcases List.mem_cons.mp ha with hab | hal
    · rw [← hab, h s]; rfl
    · cases hb : f s b with
      | none => rfl
      | some s2 => exact ih hal s2

/-- A class file with at least one complete record and a byte after the last complete
record makes the load undefined, whatever the cap and the other files. -/
theorem load_checked_none_of_overrun (t : KNNTrainer) (fs : Nat → Option (List Nat))
    (rnd : Nat → Nat → Nat) (g : Nat) (bytes : List Nat) (hg : g < 10)
    (hf : fs g = some bytes) (h16 : 16 ≤ bytes.length) (hmod : bytes.length % 16 ≠ 0) :
    load_data_checked t fs rnd = none := by
  unfold load_data_checked
  rw [foldlM_none_of_step
    (fun st g => load_class_checked t.max_samples (fs g) (rnd g) g st) g ?_
    (List.range 10) (List.mem_range.mpr hg)]
  intro s
  show load_class_checked t.max_samples (fs g) (rnd g) g s = none
  rw [hf]
  unfold load_class_checked
  have e16 : 8 * 2 = 16 := rfl
  simp only [e16]
  rw [if_neg (by omega), if_neg (by omega), if_pos (by rw [read_overrun_eq_mod]; exact hmod)]

/-- A class file with more records than the cap makes the load undefined when the cap is
`2^28` or more: the product `max_samples * 8` is not a value of `int`. -/
theorem load_checked_none_of_reserve (t : KNNTrainer) (fs : Nat → Option (List Nat))
    (rnd : Nat → Nat → Nat) (g : Nat) (bytes : List Nat) (hg : g < 10)
    (hf : fs g = some bytes) (habove : bytes.length / 16 > toSizeT t.max_samples)
    (hm : 2 ^ 28 ≤ t.max_samples) :
    load_data_checked t fs rnd = none := by
  unfold load_data_checked
  rw [foldlM_none_of_step
    (fun st g => load_class_checked t.max_samples (fs g) (rnd g) g st) g ?_
    (List.range 10) (List.mem_range.mpr hg)]
  intro s
  show load_class_checked t.max_samples (fs g) (rnd g) g s = none
  rw [hf]
  unfold load_class_checked
  have e16 : 8 * 2 = 16 := rfl
  have hres : reserve_defined t.max_samples = false := by
    rw [← Bool.not_eq_true, reserve_defined_iff]; omega
  simp only [e16, hres, Bool.false_eq_true, if_false]
  split_ifs <;> first | rfl | omega

/-! ## The count of the samples of a class -/

theorem zip_replicate_filter (recs : List (List Nat)) (g c : Int) :
    ((recs.zip (List.replicate recs.length g)).filter (fun p => decide (p.2 = c))).map Prod.fst
      = if g = c then recs else [] := by
  induction recs with
  | nil => simp
  | cons r recs ih =>
    rw [List.length_cons, List.replicate_succ, List.zip_cons_cons, List.filter_cons]
    by_cases hgc : g = c
    · rw [if_pos hgc] at ih
      rw [if_pos (by simpa using hgc), List.map_cons, ih, if_pos hgc]
    · rw [if_neg hgc] at ih
      rw [if_neg (by simpa using hgc), ih, if_neg hgc]

/-- The state of the loop of `load_data` after the classes `0 .. n-1`: the samples stored
with the label `c` are the records that the file of the class `c` contributes. -/
theorem load_loop_class_samples (m : Int) (fs : Nat → Option (List Nat))
    (rnd : Nat → Nat → Nat) (c : Nat) :
    ∀ n : Nat,
      (((((List.range n).foldl (fun st g => load_class m (fs g) (rnd g) g st)
          (([], []) : List (List Nat) × List Int)).1.zip
        ((List.range n).foldl (fun st g => load_class m (fs g) (rnd g) g st)
          (([], []) : List (List Nat) × List Int)).2).filter
        (fun p => decide (p.2 = (c : Int)))).map Prod.fst)
      = if c < n then class_records m (fs c) (rnd c) else [] := by
  intro n
  induction n with
  | zero => simp
  | succ n ih =>
    have hlen := (load_loop_records m fs rnd n).1
    rw [List.range_succ, List.foldl_append]
    simp only [List.foldl_cons, List.foldl_nil]
    generalize (List.range n).foldl _ (([], []) : List (List Nat) × List Int) = st at ih hlen ⊢
    rw [load_class_eq]
    simp only []
    rw [List.zip_append hlen, List.filter_append, List.map_append, ih, zip_replicate_filter]
    by_cases h1 : c < n
    · have h3 : ¬ ((n : Int) = (c : Int)) := by omega
      have h4 : c < n + 1 := by omega
      rw [if_pos h1, if_neg h3, if_pos h4, List.append_nil]
    · by_cases h2 : c = n
      · have h3 : (n : Int) = (c : Int) := by omega
        have h4 : c < n + 1 := by omega
        rw [if_neg h1, if_pos h3, if_pos h4, List.nil_append, h2]
      · have h3 : ¬ ((n : Int) = (c : Int)) := by omega
        have h4 : ¬ c < n + 1 := by omega
        rw [if_neg h1, if_neg h3, if_neg h4]
        rfl

/-- After a load, the samples stored with the label `c` are the records that the file of the
class `c` contributes, in the order of `class_records`. -/
theorem load_data_class_samples (t : KNNTrainer) (fs : Nat → Option (List Nat))
    (rnd : Nat → Nat → Nat) (c : Nat) (hc : c < 10) :
    class_samples (load_data t fs rnd) (c : Int) = class_records t.max_samples (fs c) (rnd c) := by
  obtain ⟨hs, hl⟩ := load_data_samples t fs rnd
  unfold class_samples
  rw [hs, hl, load_loop_class_samples t.max_samples fs rnd c 10, if_pos hc]

/-- A load that is defined stores, for every `max_samples ≥ 1` and every class `c` in `0..9`
whose file holds `r` complete records, exactly `min(r, max_samples)` samples with the label
`c`, for every outcome of the draws: for `r ≤ max_samples` the `r` records of the file in file
order, and for `r > max_samples` the `max_samples` records at the drawn indices. -/
theorem load_checked_count_per_class (t t2 : KNNTrainer) (fs : Nat → Option (List Nat))
    (rnd : Nat → Nat → Nat) (c : Nat) (bytes : List Nat)
    (h : load_data_checked t fs rnd = some t2)
    (hint : IsCInt t.max_samples) (hm : 1 ≤ t.max_samples) (hc : c < 10)
    (hf : fs c = some bytes) :
    ((t2.labels.count (c : Int) : Nat) : Int)
      = min ((bytes.length / 16 : Nat) : Int) t.max_samples ∧
    ((class_samples t2 (c : Int)).length : Int)
      = min ((bytes.length / 16 : Nat) : Int) t.max_samples ∧
    (((bytes.length / 16 : Nat) : Int) ≤ t.max_samples →
      class_samples t2 (c : Int) = (List.range (bytes.length / 16)).map (record bytes)) ∧
    (t.max_samples < ((bytes.length / 16 : Nat) : Int) →
      class_samples t2 (c : Int) = (List.range t.max_samples.toNat).map
        (fun i => record bytes (rnd c i % (bytes.length / 16)))) := by
  rw [load_data_checked_eq t t2 fs rnd h]
  obtain ⟨_, _, _, _, _, _, _, _, h9, _⟩ := load_data_spec t fs rnd
  have hT : toSizeT t.max_samples = t.max_samples.toNat :=
    toSizeT_of_nonneg t.max_samples (by omega) hint.2
  have hcs := load_data_class_samples t fs rnd c hc
  rw [hf] at hcs
  have hcount : (((load_data t fs rnd).labels.count (c : Int) : Nat) : Int)
      = min ((bytes.length / 16 : Nat) : Int) t.max_samples := by
    rw [h9 c hc, hf]
    unfold class_count record_count
    rw [hT]
    simp only []
    split <;> omega
  have hbelow : ((bytes.length / 16 : Nat) : Int) ≤ t.max_samples →
      class_samples (load_data t fs rnd) (c : Int)
        = (List.range (bytes.length / 16)).map (record bytes) := by
    intro hle
    rw [hcs]
    unfold class_records
    simp only []
    rw [if_neg (by rw [hT]; omega)]
  have habove : t.max_samples < ((bytes.length / 16 : Nat) : Int) →
      class_samples (load_data t fs rnd) (c : Int) = (List.range t.max_samples.toNat).map
        (fun i => record bytes (rnd c i % (bytes.length / 16))) := by
    intro hlt
    rw [hcs]
    unfold class_records
    simp only []
    rw [if_pos (by rw [hT]; omega), hT]
  refine ⟨hcount, ?_, hbelow, habove⟩
  rcases le_or_lt (((bytes.length / 16 : Nat) : Int)) t.max_samples with hle | hlt
  · rw [hbelow hle]; simp; omega
  · rw [habove hlt]; simp; omega

theorem load_checked_count_per_class_example :
    load_data_checked (knn_create 2 2) single_dir example_rnd = some single_state ∧
    IsCInt (knn_create 2 2).max_samples ∧ 1 ≤ (knn_create 2 2).max_samples ∧ 4 < 10 ∧
    single_dir 4 = some ((List.range 48).map (fun x => 3 * x + 1)) ∧
    single_state.labels.count ((4 : Nat) : Int) = 2 ∧
    (class_samples single_state ((4 : Nat) : Int)).length = 2 := by
  decide

/-- C8, at the failing inputs: with `max_samples = 1`, the file `trailing_file` of class 0
holds one complete record and the file `capped_trailing_file` of class 3 holds two, each
with 15 trailing bytes. The vector `data` has room for the complete records only, and
`file.read(data.data(), size)` stores the 15 trailing bytes past its end: the load is not
defined, where the specification has it store one sample of the class. -/
theorem capped_load_overruns_data_vector :
    (knn_create 5 1).max_samples = 1 ∧
    trailing_dir 0 = some trailing_file ∧ trailing_file.length / 16 = 1 ∧
    (read_data trailing_file (trailing_file.length / 16)).length * 2 = 16 ∧
    trailing_file.length = 16 + 15 ∧
    load_data_checked (knn_create 5 1) trailing_dir example_rnd = none ∧
    capped_trailing_dir 3 = some capped_trailing_file ∧
    capped_trailing_file.length / 16 = 2 ∧
    (read_data capped_trailing_file (capped_trailing_file.length / 16)).length * 2 = 32 ∧
    capped_trailing_file.length = 32 + 15 ∧
    load_data_checked (knn_create 5 1) capped_trailing_dir example_rnd = none := by
  decide

/-! ## The scenario of three classes -/

theorem countP_disjoint_le (p q : DistIndex → Bool) (h : ∀ e, ¬ (p e = true ∧ q e = true)) :
    ∀ l : List DistIndex, l.countP p + l.countP q ≤ l.length := by
  intro l
  induction l with
  | nil => simp
  | cons e l ih =>
    rw [List.countP_cons, List.countP_cons, List.length_cons]
    have := h e
    by_cases hp : p e = true <;> by_cases hq : q e = true <;> simp [hp, hq] at this ⊢ <;> omega

/-- A retained neighbour gives its class at least one vote. -/
theorem vote_of_retained (labels : List Int) (pq : List DistIndex) (e : DistIndex) (c : Nat)
    (he : e ∈ pq) (hc : c < 10) (hidx : e.2 < labels.length)
    (hlab : labels.getD e.2 0 = (c : Int)) : 1 ≤ (tally labels pq).getD c 0 := by
  rw [(tally_spec labels pq).2 c hc]
  have : 0 < pq.countP (fun e => decide (e.2 < labels.length ∧ labels.getD e.2 0 = (c : Int))) :=
    List.countP_pos_iff.mpr ⟨e, he, decide_eq_true ⟨hidx, hlab⟩⟩
  exact_mod_cast this

/-- C15, as stated, fails: `tie_state` holds the classes 0, 1, 2 with two samples each, `k = 3`,
the query is the stored vector 4, of class 2, and no sample of another class is strictly
closer to it than a sample of class 2; `classify` returns the class 0. The five other
samples are all at squared distance 1; the neighbours kept are 1, 2 and 4, one of each class. -/
theorem three_classes_tie_counterexample :
    Reachable tie_state ∧ tie_state.k = 3 ∧ tie_state.labels = [0, 0, 1, 1, 2, 2] ∧
    tie_state.labels.getD 4 0 = 2 ∧
    (∀ j, j < 6 → ∀ i2, i2 < 6 → tie_state.labels.getD j 0 ≠ 2 →
      tie_state.labels.getD i2 0 = 2 →
      ¬ dist_sq tie_state (tie_state.samples.getD 4 []) j
          < dist_sq tie_state (tie_state.samples.getD 4 []) i2) ∧
    scan tie_state (tie_state.samples.getD 4 []) = some [(1, 1), (1, 2), (0, 4)] ∧
    classify tie_state (tie_state.samples.getD 4 []) = some (0, 11184811 / 33554432) := by
  have hs : scan tie_state (tie_state.samples.getD 4 []) = some [(1, 1), (1, 2), (0, 4)] := by
    decide
  have hf : find_max (tally tie_state.labels [(1, 1), (1, 2), (0, 4)]) = (0, 1) := by decide
  refine ⟨Reachable.load _ _ _ (Reachable.create 3 1500 (by decide) (by decide)),
    by decide, by decide, by decide, by decide, hs, ?_⟩
  rw [classify_of_scan tie_state _ _ (by decide) (by decide) hs, hf]
  show some ((0 : Int), confidence 1 3) = _
  rw [confidence_of_small 1 3 (by norm_num) (by norm_num) (by norm_num) (by norm_num)]
  norm_num [to_float_third]

/-- C15, amended: in a state reachable from `knn_create` by loads that holds exactly three
classes `a < b < c` with two samples each, with `k = 3` and a query equal to the stored vector
`i`, of class `A = labels[i]`, `classify` returns a confidence of at least `1/3`, and it
returns the class `A` whenever every sample of another class is strictly farther from the
query than every sample of class `A`. -/
theorem three_classes_scenario (t : KNNTrainer) (a b c : Int) (i : Nat)
    (hr : Reachable t) (hk : t.k = 3) (hl : t.labels = [a, a, b, b, c, c])
    (hab : a < b) (hbc : b < c) (hi : i < 6) :
    ∃ (p : Int) (conf : ℚ), classify t (t.samples.getD i []) = some (p, conf) ∧
      1 / 3 ≤ conf ∧
      ((∀ j i2, j < 6 → i2 < 6 → t.labels.getD j 0 ≠ t.labels.getD i 0 →
          t.labels.getD i2 0 = t.labels.getD i 0 →
          dist_sq t (t.samples.getD i []) i2 < dist_sq t (t.samples.getD i []) j) →
        p = t.labels.getD i 0) := by
  have hw := reachable_wf t hr
  have hll : t.labels.length = 6 := by rw [hl]; rfl
  have hn : t.samples.length = 6 := by rw [← hw.labels_len]; exact hll
  have hne : t.samples ≠ [] := by
    intro h; rw [h] at hn; simp at hn
  obtain ⟨pq, hs, inv⟩ := scan_spec t (t.samples.getD i []) hw (by omega)
  have hlen : pq.length = 3 := by
    rw [inv.len, hk, hn]; rfl
  obtain ⟨_, tl⟩ := tally_spec t.labels pq
  obtain ⟨p, hp, hf, h1, _⟩ := find_max_spec (tally t.labels pq)
    (by intro d hd; rw [tl d hd]; exact Int.natCast_nonneg _)
  have hcl := classify_of_scan t (t.samples.getD i []) pq (hw.trained hne) hne hs
  rw [hf, hlen] at hcl
  have hlabel : ∀ j, j < 6 → ∃ cj : Nat, cj < 10 ∧ t.labels.getD j 0 = (cj : Int) := by
    intro j hj
    have hjl : j < t.labels.length := by omega
    have hmem : t.labels.getD j 0 ∈ t.labels := by
      rw [List.getD_eq_getElem?_getD, List.getElem?_eq_getElem hjl]
      exact List.getElem_mem hjl
    obtain ⟨h0, h10⟩ := hw.label_range _ hmem
    obtain ⟨cj, hcj⟩ := Int.eq_ofNat_of_zero_le h0
    exact ⟨cj, by omega, hcj⟩
  obtain ⟨x, y, z, hxyz⟩ := List.length_eq_three.mp hlen
  have hx : x ∈ pq := by rw [hxyz]; simp
  have hy : y ∈ pq := by rw [hxyz]; simp
  have hnd := inv.nodup
  rw [hxyz] at hnd
  simp only [List.map_cons, List.map_nil, List.nodup_cons, List.mem_cons, List.mem_singleton,
    List.not_mem_nil, not_or, not_false_eq_true, List.nodup_nil, and_true] at hnd
  obtain ⟨⟨hxy, hxz⟩, hyz⟩ := hnd
  refine ⟨(p : Int), confidence ((tally t.labels pq).getD p 0) 3, hcl, ?_, ?_⟩
  · obtain ⟨cx, hcx, hlx⟩ := hlabel x.2 (by have := (inv.mem x hx).1; omega)
    have hv := vote_of_retained t.labels pq x cx hx hcx
      (by have := (inv.mem x hx).1; omega) hlx
    have hvp := h1 cx hcx
    have hle3 : (tally t.labels pq).getD p 0 ≤ ((3 : Nat) : Int) := by
      rw [tl p hp, ← hlen]
      exact_mod_cast List.countP_le_length _
    exact confidence_ge_third _ (le_trans hv hvp) hle3
  · intro hstrict
    obtain ⟨cA, hcA, hlA⟩ := hlabel i hi
    have hpart : ∃ i2, i2 < 6 ∧ i2 ≠ i ∧
        ∀ j, j < 6 → (t.labels.getD j 0 = t.labels.getD i 0 ↔ (j = i ∨ j = i2)) := by
      rw [hl]
      interval_cases i
      · refine ⟨1, by omega, by omega, ?_⟩
        intro j hj; interval_cases j <;> simp <;> omega
      · refine ⟨0, by omega, by omega, ?_⟩
        intro j hj; interval_cases j <;> simp <;> omega
      · refine ⟨3, by omega, by omega, ?_⟩
        intro j hj; interval_cases j <;> simp <;> omega
      · refine ⟨2, by omega, by omega, ?_⟩
        intro j hj; interval_cases j <;> simp <;> omega
      · refine ⟨5, by omega, by omega, ?_⟩
        intro j hj; interval_cases j <;> simp <;> omega
      · refine ⟨4, by omega, by omega, ?_⟩
        intro j hj; interval_cases j <;> simp <;> omega
    obtain ⟨i2, hi2, hi2ne, hF⟩ := hpart
    have hretained : ∀ u v, u < 6 → (u = i ∨ u = i2) → (v = i ∨ v = i2) → u ≠ v →
        u ∈ pq.map Prod.snd := by
      intro u v hu huA hvA huv
      by_contra hnot
      have hex : ∃ e ∈ pq, e.2 ≠ v := by
        by_cases hxv : x.2 = v
        · exact ⟨y, hy, by intro h; rw [← hxv] at h; exact hxy h.symm⟩
        · exact ⟨x, hx, hxv⟩
      obtain ⟨e, he, hev⟩ := hex
      have heu : e.2 ≠ u := by
        intro h
        exact hnot (List.mem_map.mpr ⟨e, he, h⟩)
      have he6 : e.2 < 6 := by have := (inv.mem e he).1; omega
      have hnotA : t.labels.getD e.2 0 ≠ t.labels.getD i 0 := by
        intro h
        have := (hF e.2 he6).mp h
        rcases huA with rfl | rfl <;> rcases hvA with rfl | rfl <;> rcases this with h2 | h2 <;>
          first | exact heu h2 | exact hev h2 | exact huv rfl
      have hsmall := inv.small e he u (by omega) hnot
      have hlt := hstrict e.2 u he6 hu hnotA ((hF u hu).mpr huA)
      rw [← (inv.mem e he).2] at hlt
      omega
    have hiin := hretained i i2 hi (Or.inl rfl) (Or.inr rfl) (Ne.symm hi2ne)
    have hi2in := hretained i2 i hi2 (Or.inr rfl) (Or.inl rfl) hi2ne
    have hP : ∀ e : DistIndex, (e.2 = i ∨ e.2 = i2) →
        decide (e.2 < t.labels.length ∧ t.labels.getD e.2 0 = (cA : Int)) = true := by
      intro e he
      apply decide_eq_true
      have he6 : e.2 < 6 := by rcases he with h | h <;> omega
      exact ⟨by omega, by rw [← hlA]; exact (hF e.2 he6).mpr he⟩
    have hcount : 2 ≤ pq.countP
        (fun e => decide (e.2 < t.labels.length ∧ t.labels.getD e.2 0 = (cA : Int))) := by
      rw [hxyz] at hiin hi2in ⊢
      simp only [List.map_cons, List.map_nil, List.mem_cons, List.mem_singleton,
        List.not_mem_nil, or_false] at hiin hi2in
      simp only [List.countP_cons, List.countP_nil]
      rcases hiin with h | h | h <;> rcases hi2in with h2 | h2 | h2
      all_goals first
        | (exfalso; exact hi2ne (h2.trans h.symm))
        | skip
      all_goals
        have e1 := hP _ (Or.inl h.symm)
        have e2 := hP _ (Or.inr h2.symm)
        simp only [e1, e2, if_true]
        split <;> omega
    have hvA : (2 : Int) ≤ (tally t.labels pq).getD cA 0 := by
      rw [tl cA hcA]; exact_mod_cast hcount
    have hpc : p = cA := by
      by_contra hne2
      have hdis := countP_disjoint_le
        (fun e => decide (e.2 < t.labels.length ∧ t.labels.getD e.2 0 = (cA : Int)))
        (fun e => decide (e.2 < t.labels.length ∧ t.labels.getD e.2 0 = (p : Int)))
        (by
          intro e hboth
          simp only [decide_eq_true_eq] at hboth
          have := hboth.1.2.symm.trans hboth.2.2
          exact hne2 (by exact_mod_cast this.symm)) pq
      have hvp := h1 cA hcA
      rw [tl p hp] at hvp
      have hvp2 : (2 : Int) ≤ (pq.countP
          (fun e => decide (e.2 < t.labels.length ∧ t.labels.getD e.2 0 = (p : Int))) : Nat) :=
        le_trans hvA hvp
      have hvp3 : 2 ≤ pq.countP
          (fun e => decide (e.2 < t.labels.length ∧ t.labels.getD e.2 0 = (p : Int))) := by
        exact_mod_cast hvp2
      omega
    rw [hpc, hlA]

theorem three_classes_scenario_witness :
    Reachable far_state ∧ far_state.k = 3 ∧
    far_state.labels = [(1 : Int), 1, 4, 4, 7, 7] ∧ (1 : Int) < 4 ∧ (4 : Int) < 7 ∧ 2 < 6 ∧
    (∀ j i2, j < 6 → i2 < 6 →
      far_state.labels.getD j 0 ≠ far_state.labels.getD 2 0 →
      far_state.labels.getD i2 0 = far_state.labels.getD 2 0 →
      dist_sq far_state (far_state.samples.getD 2 []) i2
        < dist_sq far_state (far_state.samples.getD 2 []) j) ∧
    (∃ (p : Int) (conf : ℚ),
      classify far_state (far_state.samples.getD 2 []) = some (p, conf) ∧
      1 / 3 ≤ conf ∧
      ((∀ j i2, j < 6 → i2 < 6 →
          far_state.labels.getD j 0 ≠ far_state.labels.getD 2 0 →
          far_state.labels.getD i2 0 = far_state.labels.getD 2 0 →
          dist_sq far_state (far_state.samples.getD 2 []) i2
            < dist_sq far_state (far_state.samples.getD 2 []) j) →
        p = far_state.labels.getD 2 0)) ∧
    far_state.labels.getD 2 0 = 4 ∧
    ∃ conf : ℚ, classify far_state (far_state.samples.getD 2 []) = some (4, conf) ∧
      1 / 3 ≤ conf := by
  have hreach : Reachable far_state :=
    Reachable.load _ _ _ (Reachable.create 3 1500 (by decide) (by decide))
  have hprem : ∀ j i2, j < 6 → i2 < 6 →
      far_state.labels.getD j 0 ≠ far_state.labels.getD 2 0 →
      far_state.labels.getD i2 0 = far_state.labels.getD 2 0 →
      dist_sq far_state (far_state.samples.getD 2 []) i2
        < dist_sq far_state (far_state.samples.getD 2 []) j := by
    have h : ∀ j, j < 6 → ∀ i2, i2 < 6 →
        far_state.labels.getD j 0 ≠ far_state.labels.getD 2 0 →
        far_state.labels.getD i2 0 = far_state.labels.getD 2 0 →
        dist_sq far_state (far_state.samples.getD 2 []) i2
          < dist_sq far_state (far_state.samples.getD 2 []) j := by decide
    intro j i2 hj hi2
    exact h j hj i2 hi2
  have hthm := three_classes_scenario far_state 1 4 7 2 hreach (by decide) (by decide)
    (by decide) (by decide) (by decide)
  refine ⟨hreach, by decide, by decide, by decide, by decide, by decide, hprem, hthm,
    by decide, ?_⟩
  obtain ⟨p, conf, hc, h3, himp⟩ := hthm
  have hp : p = 4 := by rw [himp hprem]; decide
  exact ⟨conf, by rw [hc, hp], h3⟩

/-! ## The guards of the vote tally -/

theorem sum_ten (l : List Int) (h : l.length = 10) :
    l.sum = Finset.sum (Finset.range 10) (fun c => l.getD c 0) := by
  match l, h with
  | [v0, v1, v2, v3, v4, v5, v6, v7, v8, v9], _ =>
    simp [Finset.sum_range_succ]
    ring

theorem votes_total (labels : List Int) : ∀ pq : List DistIndex,
    (∀ e ∈ pq, e.2 < labels.length ∧ 0 ≤ labels.getD e.2 0 ∧ labels.getD e.2 0 < 10) →
    Finset.sum (Finset.range 10)
      (fun c => pq.countP (fun e => decide (e.2 < labels.length ∧ labels.getD e.2 0 = (c : Int))))
      = pq.length := by
  intro pq
  induction pq with
  | nil => intro _; simp
  | cons e pq ih =>
    intro hall
    have hrest := ih (fun x hx => hall x (List.mem_cons_of_mem _ hx))
    obtain ⟨h1, h2, h3⟩ := hall e (List.mem_cons_self _ _)
    obtain ⟨n, hn⟩ := Int.eq_ofNat_of_zero_le h2
    have hn10 : n < 10 := by omega
    simp only [List.countP_cons, Finset.sum_add_distrib, hrest, List.length_cons]
    congr 1
    have : ∀ c : Nat, (if decide (e.2 < labels.length ∧ labels.getD e.2 0 = (c : Int)) = true
        then 1 else 0) = if n = c then 1 else 0 := by
      intro c
      by_cases hc : n = c
      · subst hc
        rw [if_pos (decide_eq_true ⟨h1, hn⟩), if_pos rfl]
      · have hne : ¬ (e.2 < labels.length ∧ labels.getD e.2 0 = (c : Int)) := by
          intro h
          have := h.2
          rw [hn] at this
          omega
        rw [if_neg (by rw [decide_eq_true_eq]; exact hne), if_neg hc]
    simp only [this]
    rw [Finset.sum_ite_eq]
    simp [hn10]

/-- C17: in a state reachable from `knn_create` by loads with `k ≥ 1`, for every 8-component
query, every neighbour retained by the scan has an index below the number of labels and a
label in `0..9`, so neither guard of the vote loop is taken, and the 10 vote buckets sum to
the number of retained neighbours. -/
theorem vote_guards_never_taken (t : KNNTrainer) (query : List Nat)
    (hr : Reachable t) (hk : 1 ≤ t.k) (_hq : query.length = 8) :
    ∃ pq, scan t query = some pq ∧
      (∀ e ∈ pq, e.2 < t.labels.length ∧
        0 ≤ t.labels.getD e.2 0 ∧ t.labels.getD e.2 0 < 10) ∧
      (tally t.labels pq).sum = (pq.length : Int) := by
  have hw := reachable_wf t hr
  obtain ⟨pq, hs, inv⟩ := scan_spec t query hw hk
  have hall : ∀ e ∈ pq, e.2 < t.labels.length ∧
      0 ≤ t.labels.getD e.2 0 ∧ t.labels.getD e.2 0 < 10 := by
    intro e he
    have hil : e.2 < t.labels.length := by rw [hw.labels_len]; exact (inv.mem e he).1
    have hmem : t.labels.getD e.2 0 ∈ t.labels := by
      rw [List.getD_eq_getElem?_getD, List.getElem?_eq_getElem hil]
      exact List.getElem_mem hil
    exact ⟨hil, hw.label_range _ hmem⟩
  refine ⟨pq, hs, hall, ?_⟩
  obtain ⟨tlen, tl⟩ := tally_spec t.labels pq
  rw [sum_ten _ tlen]
  have hsum : Finset.sum (Finset.range 10) (fun c => (tally t.labels pq).getD c 0)
      = Finset.sum (Finset.range 10) (fun c => ((pq.countP
          (fun e => decide (e.2 < t.labels.length ∧ t.labels.getD e.2 0 = (c : Int))) : Nat)
            : Int)) := by
    apply Finset.sum_congr rfl
    intro c hc
    exact tl c (Finset.mem_range.mp hc)
  rw [hsum, ← Nat.cast_sum, votes_total t.labels pq hall]

theorem vote_guards_never_taken_witness :
    Reachable example_state ∧ 1 ≤ example_state.k ∧ example_query.length = 8 ∧
    ∃ pq, scan example_state example_query = some pq ∧
      (∀ e ∈ pq, e.2 < example_state.labels.length ∧
        0 ≤ example_state.labels.getD e.2 0 ∧ example_state.labels.getD e.2 0 < 10) ∧
      (tally example_state.labels pq).sum = (pq.length : Int) :=
  ⟨example_reachable, by decide, by decide,
    vote_guards_never_taken example_state example_query example_reachable (by decide)
      (by decide)⟩

/-! ## The range of the values held in `double` -/

theorem norm_acc_bound (s : List Nat) (hsu : ∀ x ∈ s, x < 65536) :
    ∀ m : Nat, 0 ≤ norm_acc s m ∧ norm_acc s m ≤ (m : Int) * (65535 * 65535) := by
  intro m
  unfold norm_acc
  induction m with
  | zero => simp
  | succ m ih =>
    rw [List.range_succ m, List.foldl_append]
    simp only [List.foldl_cons, List.foldl_nil]
    have hb := u16_mul_bound _ _ (getD_u16 s hsu m) (getD_u16 s hsu m)
    push_cast
    constructor <;> linarith [ih.1, ih.2, hb.1, hb.2]

theorem dot_acc_bound (s q : List Nat) (hsu : ∀ x ∈ s, x < 65536)
    (hqu : ∀ x ∈ q, x < 65536) :
    ∀ m : Nat, 0 ≤ dot_acc s q m ∧ dot_acc s q m ≤ (m : Int) * (65535 * 65535) := by
  intro m
  unfold dot_acc
  induction m with
  | zero => simp
  | succ m ih =>
    rw [List.range_succ m, List.foldl_append]
    simp only [List.foldl_cons, List.foldl_nil]
    have hb := u16_mul_bound _ _ (getD_u16 s hsu m) (getD_u16 q hqu m)
    push_cast
    constructor <;> linarith [ih.1, ih.2, hb.1, hb.2]

theorem query_acc_bound (q : List Nat) (hqu : ∀ x ∈ q, x < 65536) :
    ∀ m : Nat, 0 ≤ query_acc q m ∧ query_acc q m ≤ (m : Int) * (65535 * 65535) := by
  intro m
  unfold query_acc
  induction m with
  | zero => simp
  | succ m ih =>
    rw [List.take_succ, List.foldl_append]
    by_cases hm : m < q.length
    · rw [List.getElem?_eq_getElem hm]
      simp only [Option.toList_some, List.foldl_cons, List.foldl_nil]
      have hb := u16_mul_bound _ _ (hqu _ (List.getElem_mem hm)) (hqu _ (List.getElem_mem hm))
      push_cast
      constructor <;> linarith [ih.1, ih.2, hb.1, hb.2]
    · rw [List.getElem?_eq_none (by omega)]
      simp only [Option.toList_none, List.foldl_nil]
      push_cast
      constructor <;> linarith [ih.1, ih.2]

/-- C19: for every sample and every query of 8 components below `65536`, every value of the
accumulators of the squared norms and of the dot product, and every value in the computation
of `dist_sq` (the sum of the two norms, twice the dot product, their difference), is an
integer of absolute value at most `2 * 8 * 65535^2 = 68717379600 < 2^53`; and the squared
norm of the sample with all components `65535` exceeds `2^32 - 1`. -/
theorem double_accumulation_exact (s q : List Nat) (_hs : s.length = 8) (hq : q.length = 8)
    (hsu : ∀ x ∈ s, x < 65536) (hqu : ∀ x ∈ q, x < 65536) :
    (∀ m, m ≤ 8 → |norm_acc s m| ≤ 2 * 8 * 65535 ^ 2) ∧ norm_acc s 8 = norm_sq s ∧
    (∀ m, m ≤ 8 → |query_acc q m| ≤ 2 * 8 * 65535 ^ 2) ∧ query_acc q 8 = query_norm_sq q ∧
    (∀ m, m ≤ 8 → |dot_acc s q m| ≤ 2 * 8 * 65535 ^ 2) ∧ dot_acc s q 8 = dot_product s q ∧
    |norm_sq s + query_norm_sq q| ≤ 2 * 8 * 65535 ^ 2 ∧
    |2 * dot_product s q| ≤ 2 * 8 * 65535 ^ 2 ∧
    |norm_sq s + query_norm_sq q - 2 * dot_product s q| ≤ 2 * 8 * 65535 ^ 2 ∧
    (2 * 8 * 65535 ^ 2 : Int) = 68717379600 ∧ (68717379600 : Int) < 2 ^ 53 ∧
    (max_sample.length = 8 ∧ (∀ x ∈ max_sample, x < 65536) ∧
      (2 ^ 32 - 1 : Int) < norm_sq max_sample) := by
  have hqa : query_acc q 8 = query_norm_sq q := by
    unfold query_acc query_norm_sq
    rw [List.take_of_length_le (by omega)]
  have hn8 := norm_acc_bound s hsu 8
  have hq8 := query_acc_bound q hqu 8
  have hd8 := dot_acc_bound s q hsu hqu 8
  have en : norm_acc s 8 = norm_sq s := rfl
  have ed : dot_acc s q 8 = dot_product s q := rfl
  rw [en] at hn8
  rw [hqa] at hq8
  rw [ed] at hd8
  have hcast : ∀ m : Nat, m ≤ 8 → (m : Int) * (65535 * 65535) ≤ 2 * 8 * 65535 ^ 2 := by
    intro m hm
    have : (m : Int) ≤ 8 := by exact_mod_cast hm
    nlinarith
  refine ⟨?_, en, ?_, hqa, ?_, ed, ?_, ?_, ?_, by norm_num, by norm_num, by decide, by decide,
    by decide⟩
  · intro m hm
    have := norm_acc_bound s hsu m
    rw [abs_le]
    constructor <;> linarith [this.1, this.2, hcast m hm]
  · intro m hm
    have := query_acc_bound q hqu m
    rw [abs_le]
    constructor <;> linarith [this.1, this.2, hcast m hm]
  · intro m hm
    have := dot_acc_bound s q hsu hqu m
    rw [abs_le]
    constructor <;> linarith [this.1, this.2, hcast m hm]
  · rw [abs_le]
    constructor <;> push_cast at hn8 hq8 ⊢ <;> linarith [hn8.1, hn8.2, hq8.1, hq8.2]
  · rw [abs_le]
    constructor <;> push_cast at hd8 ⊢ <;> linarith [hd8.1, hd8.2]
  · rw [abs_le]
    constructor <;> push_cast at hn8 hq8 hd8 ⊢ <;>
      linarith [hn8.1, hn8.2, hq8.1, hq8.2, hd8.1, hd8.2]

theorem double_accumulation_exact_witness :
    max_sample.length = 8 ∧ example_query.length = 8 ∧ (∀ x ∈ max_sample, x < 65536) ∧
    (∀ x ∈ example_query, x < 65536) ∧
    ((∀ m, m ≤ 8 → |norm_acc max_sample m| ≤ 2 * 8 * 65535 ^ 2) ∧
    norm_acc max_sample 8 = norm_sq max_sample ∧
    (∀ m, m ≤ 8 → |query_acc example_query m| ≤ 2 * 8 * 65535 ^ 2) ∧
    query_acc example_query 8 = query_norm_sq example_query ∧
    (∀ m, m ≤ 8 → |dot_acc max_sample example_query m| ≤ 2 * 8 * 65535 ^ 2) ∧
    dot_acc max_sample example_query 8 = dot_product max_sample example_query ∧
    |norm_sq max_sample + query_norm_sq example_query| ≤ 2 * 8 * 65535 ^ 2 ∧
    |2 * dot_product max_sample example_query| ≤ 2 * 8 * 65535 ^ 2 ∧
    |norm_sq max_sample + query_norm_sq example_query
      - 2 * dot_product max_sample example_query| ≤ 2 * 8 * 65535 ^ 2 ∧
    (2 * 8 * 65535 ^ 2 : Int) = 68717379600 ∧ (68717379600 : Int) < 2 ^ 53 ∧
    (max_sample.length = 8 ∧ (∀ x ∈ max_sample, x < 65536) ∧
      (2 ^ 32 - 1 : Int) < norm_sq max_sample)) :=
  ⟨by decide, by decide, by decide, by decide,
    double_accumulation_exact max_sample example_query (by decide) (by decide) (by decide)
      (by decide)⟩

/-! ## The top of an empty queue -/

theorem toSizeT_of_neg (k : Int) (h0 : k < 0) (h1 : -2 ^ 31 ≤ k) :
    (toSizeT k : Int) = 2 ^ 64 + k := by
  unfold toSizeT
  have h2 : k % 2 ^ 64 = k + 2 ^ 64 := by
    rw [← Int.add_mul_emod_self_left k (2 ^ 64) 1]
    simp only [mul_one]
    exact Int.emod_eq_of_lt (by omega) (by omega)
  rw [h2, Int.toNat_of_nonneg (by omega)]
  ring

theorem toSizeT_pos_of_ne_zero (k : Int) (hk : IsCInt k) (h0 : k ≠ 0) : 1 ≤ toSizeT k := by
  by_cases hpos : 0 < k
  · rw [toSizeT_of_nonneg k (by omega) hk.2]
    omega
  · have := toSizeT_of_neg k (by omega) hk.1
    have h31 : (-2 : Int) ^ 31 ≤ k := by
      have := hk.1
      norm_num at this ⊢
      exact this
    omega

theorem scan_none_of_k_zero (t : KNNTrainer) (query : List Nat) (hk : t.k = 0)
    (hne : t.samples ≠ []) : scan t query = none := by
  unfold scan
  obtain ⟨n, hn⟩ := Nat.exists_eq_succ_of_ne_zero
    (fun h => hne (List.length_eq_zero.mp h))
  rw [hn, List.range_succ_eq_map, List.foldlM_cons]
  have : admit_step t.k [] (dist_sq t query 0) 0 = none := by
    rw [hk]; rfl
  rw [this]
  rfl

/-- C20: in a state reachable from `knn_create` by loads, trained and with a non-empty
training set, for every 8-component query, `classify` reads the top of an empty queue (the
result `none`) if and only if `k = 0`. For `k ≥ 1`, whenever the scan does not admit
directly, the queue holds exactly `k ≥ 1` entries and has a top. For `k < 0` (and fewer than
`2^63` samples), the converted `k` exceeds the size of the queue before every iteration, so
every sample is admitted directly. For `k = 0` the first iteration reads the top of the empty
queue. -/
theorem top_of_empty_iff_k_zero (t : KNNTrainer) (query : List Nat)
    (hr : Reachable t) (ht : t.trained = true) (hne : t.samples ≠ [])
    (_hq : query.length = 8) :
    (classify t query = none ↔ t.k = 0) ∧
    (1 ≤ t.k → ∀ i, i ≤ t.samples.length → ∃ pq, scan_upto t query i = some pq ∧
      (¬ pq.length < toSizeT t.k →
        1 ≤ pq.length ∧ (pq.length : Int) = t.k ∧ pq_top pq ≠ none)) ∧
    (t.k < 0 → t.samples.length < 2 ^ 63 → ∀ i, i ≤ t.samples.length →
      ∃ pq, scan_upto t query i = some pq ∧ pq.length = i ∧ pq.length < toSizeT t.k) ∧
    (t.k = 0 → scan_upto t query 0 = some [] ∧
      admit_step t.k [] (dist_sq t query 0) 0 = none) := by
  have hw := reachable_wf t hr
  have hguard : (!t.trained || t.samples.isEmpty) = false := by
    cases hsm : t.samples with
    | nil => exact absurd hsm hne
    | cons a l => simp [ht]
  refine ⟨⟨?_, ?_⟩, ?_, ?_, ?_⟩
  · intro hnone
    by_contra hk0
    have hK := toSizeT_pos_of_ne_zero t.k hw.k_int hk0
    obtain ⟨pq, hs, _⟩ := scan_loop_inv t.k (dist_sq t query) hK t.samples.length
    have hs2 : scan t query = some pq := hs
    rw [classify_of_scan t query pq ht hne hs2] at hnone
    exact absurd hnone (by simp)
  · intro hk0
    unfold classify
    rw [hguard, scan_none_of_k_zero t query hk0 hne]
    rfl
  · intro hk i _
    have hKeq : toSizeT t.k = t.k.toNat := toSizeT_of_nonneg t.k (by omega) hw.k_int.2
    obtain ⟨pq, hs, inv⟩ := scan_loop_inv t.k (dist_sq t query) (by rw [hKeq]; omega) i
    refine ⟨pq, hs, ?_⟩
    intro hfull
    have hlen := inv.len
    rw [hKeq] at hfull hlen
    have h1 : 1 ≤ pq.length := by omega
    refine ⟨h1, by omega, ?_⟩
    cases pq with
    | nil => simp at h1
    | cons a l => simp [pq_top]
  · intro hk hn i hi
    have hKint := toSizeT_of_neg t.k hk hw.k_int.1
    have hKbig : 2 ^ 63 ≤ toSizeT t.k := by
      have := hw.k_int.1
      have h31 : -(2147483648 : Int) ≤ t.k := by norm_num at this; exact this
      have h64 : (toSizeT t.k : Int) = 18446744073709551616 + t.k := by
        rw [hKint]; norm_num
      have : (9223372036854775808 : Int) ≤ (toSizeT t.k : Int) := by omega
      have h2 : ((9223372036854775808 : Nat) : Int) ≤ (toSizeT t.k : Int) := by
        exact_mod_cast this
      have h3 : (9223372036854775808 : Nat) ≤ toSizeT t.k := by exact_mod_cast h2
      norm_num
      exact h3
    obtain ⟨pq, hs, inv⟩ := scan_loop_inv t.k (dist_sq t query) (by omega) i
    have hlen := inv.len
    refine ⟨pq, hs, ?_, ?_⟩ <;> omega
  · intro hk0
    refine ⟨rfl, ?_⟩
    rw [hk0]; rfl

theorem top_of_empty_iff_k_zero_witness :
    Reachable zero_k_state ∧ zero_k_state.trained = true ∧ zero_k_state.samples ≠ [] ∧
    example_query.length = 8 ∧
    ((classify zero_k_state example_query = none ↔ zero_k_state.k = 0) ∧
    (1 ≤ zero_k_state.k → ∀ i, i ≤ zero_k_state.samples.length →
      ∃ pq, scan_upto zero_k_state example_query i = some pq ∧
      (¬ pq.length < toSizeT zero_k_state.k →
        1 ≤ pq.length ∧ (pq.length : Int) = zero_k_state.k ∧ pq_top pq ≠ none)) ∧
    (zero_k_state.k < 0 → zero_k_state.samples.length < 2 ^ 63 →
      ∀ i, i ≤ zero_k_state.samples.length →
      ∃ pq, scan_upto zero_k_state example_query i = some pq ∧ pq.length = i ∧
        pq.length < toSizeT zero_k_state.k) ∧
    (zero_k_state.k = 0 → scan_upto zero_k_state example_query 0 = some [] ∧
      admit_step zero_k_state.k [] (dist_sq zero_k_state example_query 0) 0 = none)) :=
  ⟨Reachable.load _ _ _ (Reachable.create 0 2 (by decide) (by decide)), by decide, by decide,
    by decide,
    top_of_empty_iff_k_zero zero_k_state example_query
      (Reachable.load _ _ _ (Reachable.create 0 2 (by decide) (by decide))) (by decide)
      (by decide) (by decide)⟩

/-- The three cases of `k` on the example data: `none` for `k = 0`, a result for `k = 3`, and
for `k = -1` all six samples in the queue. -/
theorem top_of_empty_examples :
    classify zero_k_state example_query = none ∧
    (classify example_state example_query).isSome = true ∧
    (classify negative_k_state example_query).isSome = true ∧
    (scan negative_k_state example_query).map List.length = some 6 ∧
    toSizeT (-1) = 2 ^ 64 - 1 := by
  decide

/-! ## The refinement of the sort-and-truncate reference -/

theorem tally_list_spec (labels : List Int) : ∀ (kept : List DistIndex) (votes : List Int),
    votes.length = 10 →
    (kept.foldl (fun votes e => vote labels votes e.2) votes).length = 10 ∧
    ∀ c : Nat, c < 10 →
      (kept.foldl (fun votes e => vote labels votes e.2) votes).getD c 0 = votes.getD c 0 +
        (kept.countP (fun e => decide (e.2 < labels.length ∧ labels.getD e.2 0 = (c : Int)))
          : Nat) := by
  intro kept
  induction kept with
  | nil => intro votes hv; exact ⟨hv, by intro c _; simp⟩
  | cons e kept ih =>
    intro votes hv
    obtain ⟨v1, v2⟩ := vote_spec labels votes e.2 hv
    obtain ⟨i1, i2⟩ := ih (vote labels votes e.2) v1
    rw [List.foldl_cons]
    refine ⟨i1, ?_⟩
    intro c hc
    rw [i2 c hc, v2 c hc, List.countP_cons]
    by_cases hp : e.2 < labels.length ∧ labels.getD e.2 0 = (c : Int)
    · rw [if_pos hp, if_pos (decide_eq_true hp)]
      push_cast; ring
    · rw [if_neg hp, if_neg (by rw [decide_eq_true_eq]; exact hp)]
      push_cast; ring

theorem eq_of_getD_ten (l1 l2 : List Int) (h1 : l1.length = 10) (h2 : l2.length = 10)
    (h : ∀ c : Nat, c < 10 → l1.getD c 0 = l2.getD c 0) : l1 = l2 := by
  apply List.ext_getElem (by rw [h1, h2])
  intro c hc1 hc2
  have := h c (by omega)
  simpa [List.getD_eq_getElem?_getD, List.getElem?_eq_getElem hc1,
    List.getElem?_eq_getElem hc2] using this

/-- The tally depends on the neighbours kept, not on their order. -/
theorem tally_eq_of_perm (labels : List Int) (pq kept : List DistIndex) (h : pq.Perm kept) :
    tally labels pq = tally_list labels kept := by
  obtain ⟨a1, a2⟩ := tally_spec labels pq
  obtain ⟨b1, b2⟩ := tally_list_spec labels kept (List.replicate 10 0) (by simp)
  apply eq_of_getD_ten _ _ a1 b1
  intro c hc
  rw [a2 c hc]
  show _ = (kept.foldl (fun votes e => vote labels votes e.2) (List.replicate 10 0)).getD c 0
  rw [b2 c hc, h.countP_eq]
  have : (List.replicate 10 (0 : Int)).getD c 0 = 0 := by
    interval_cases c <;> rfl
  rw [this]; simp

/-- C16, as stated, fails: `heap_tie_state` is trained, with `k = 2`, and holds one sample of
each of the classes 0, 1, 2 at the squared distances 1, 1, 0 from the zero query. The queue
of `classify` evicts the sample 0 and keeps the samples 1 and 2, so `classify` returns the
class 1; the reference keeps the samples 2 and 0 and returns the class 0. -/
theorem sort_truncate_counterexample :
    Reachable heap_tie_state ∧ heap_tie_state.trained = true ∧ 1 ≤ heap_tie_state.k ∧
    zero_query.length = 8 ∧
    scan heap_tie_state zero_query = some [(1, 1), (0, 2)] ∧
    sort_truncate heap_tie_state zero_query = [(0, 2), (1, 0)] ∧
    classify heap_tie_state zero_query = some (1, 1 / 2) ∧
    classify_ref heap_tie_state zero_query = (0, 1 / 2) ∧
    classify heap_tie_state zero_query ≠ some (classify_ref heap_tie_state zero_query) := by
  have hs : scan heap_tie_state zero_query = some [(1, 1), (0, 2)] := by decide
  have hr : sort_truncate heap_tie_state zero_query = [(0, 2), (1, 0)] := by decide
  have hf : find_max (tally heap_tie_state.labels [(1, 1), (0, 2)]) = (1, 1) := by decide
  have hg : find_max (tally_list heap_tie_state.labels [(0, 2), (1, 0)]) = (0, 1) := by decide
  have hc : classify heap_tie_state zero_query = some (1, 1 / 2) := by
    rw [classify_of_scan heap_tie_state _ _ (by decide) (by decide) hs, hf]
    show some ((1 : Int), confidence 1 2) = _
    rw [confidence_one_two]
  have hguard : (!heap_tie_state.trained || heap_tie_state.samples.isEmpty) = false := by
    decide
  have hd : classify_ref heap_tie_state zero_query = (0, 1 / 2) := by
    unfold classify_ref
    rw [hguard]
    simp only [Bool.false_eq_true, if_false]
    rw [hr, hg]
    show ((0 : Int), confidence 1 2) = _
    rw [confidence_one_two]
  refine ⟨Reachable.load _ _ _ (Reachable.create 2 1500 (by decide) (by decide)),
    by decide, by decide, by decide, hs, hr, hc, hd, ?_⟩
  rw [hc, hd]
  intro h
  have := congrArg (fun r => r.map Prod.fst) h
  simp at this

theorem mem_dist_pairs (t : KNNTrainer) (query : List Nat) (e : DistIndex) :
    e ∈ dist_pairs t query ↔ e.2 < t.samples.length ∧ e.1 = dist_sq t query e.2 := by
  unfold dist_pairs
  constructor
  · intro h
    obtain ⟨i, hi, rfl⟩ := List.mem_map.mp h
    exact ⟨List.mem_range.mp hi, rfl⟩
  · intro h
    exact List.mem_map.mpr ⟨e.2, List.mem_range.mpr h.1, by rw [← h.2]⟩

theorem nodup_dist_pairs (t : KNNTrainer) (query : List Nat) : (dist_pairs t query).Nodup := by
  unfold dist_pairs
  apply List.Nodup.map _ (List.nodup_range _)
  intro i j h
  exact congrArg Prod.snd h

/-- When no pair that the reference drops is at the distance of a pair that it keeps, the
queue of the scan and the reference selection hold the same neighbours. -/
theorem scan_perm_sort_truncate (t : KNNTrainer) (query : List Nat) (pq : List DistIndex)
    (inv : ScanInv t.k.toNat (dist_sq t query) t.samples.length pq)
    (hcutne : ∀ x ∈ sort_truncate t query, ∀ y ∈ sort_dropped t query, x.1 ≠ y.1) :
    pq.Perm (sort_truncate t query) := by
  have hperm := List.perm_insertionSort dist_le (dist_pairs t query)
  have hsorted := List.sorted_insertionSort dist_le (dist_pairs t query)
  have hnd := hperm.nodup_iff.mpr (nodup_dist_pairs t query)
  have hSlen : ((dist_pairs t query).insertionSort dist_le).length = t.samples.length := by
    rw [hperm.length_eq]; simp [dist_pairs]
  unfold sort_truncate sort_dropped at hcutne
  unfold sort_truncate
  generalize hS : (dist_pairs t query).insertionSort dist_le = S
    at hperm hsorted hnd hSlen hcutne
  generalize hm : min t.k.toNat t.samples.length = m at hcutne
  have hmle : m ≤ S.length := by rw [hSlen, ← hm]; exact Nat.min_le_right _ _
  have hklen : (S.take m).length = m := by rw [List.length_take]; omega
  have hpqlen : pq.length = m := by rw [inv.len, hm]
  have hsplit : S.take m ++ S.drop m = S := List.take_append_drop m S
  have hmemS : ∀ e, e ∈ S ↔ e.2 < t.samples.length ∧ e.1 = dist_sq t query e.2 := by
    intro e; rw [hperm.mem_iff]; exact mem_dist_pairs t query e
  have hcut : ∀ x ∈ S.take m, ∀ y ∈ S.drop m, dist_le x y := by
    have h := hsorted
    rw [← hsplit] at h
    exact (List.pairwise_append.mp h).2.2
  have hdisj : ∀ x ∈ S.take m, x ∉ S.drop m := by
    have h := hnd
    rw [← hsplit] at h
    intro x hx hx2
    exact (List.nodup_append.mp h).2.2 hx hx2
  have hpqnd : pq.Nodup := List.Nodup.of_map Prod.snd inv.nodup
  have hkeptnd : (S.take m).Nodup := List.Nodup.sublist (List.take_sublist m S) hnd
  have hsub : pq ⊆ S.take m := by
    intro e he
    by_contra hnk
    have heS : e ∈ S := (hmemS e).mpr (inv.mem e he)
    have hedrop : e ∈ S.drop m := by
      rw [← hsplit] at heS
      rcases List.mem_append.mp heS with h | h
      · exact absurd h hnk
      · exact h
    have hex : ∃ f ∈ S.take m, f ∉ pq := by
      by_contra hall
      push_neg at hall
      have hsp : (S.take m).Subperm pq := List.subperm_of_subset hkeptnd hall
      have hp := hsp.perm_of_length_le (by rw [hpqlen, hklen])
      exact hnk (hp.mem_iff.mpr he)
    obtain ⟨f, hf, hfpq⟩ := hex
    have hfS : f ∈ S := List.mem_of_mem_take hf
    obtain ⟨hf1, hf2⟩ := (hmemS f).mp hfS
    obtain ⟨he1, he2⟩ := inv.mem e he
    have hfidx : f.2 ∉ pq.map Prod.snd := by
      intro hmem
      obtain ⟨g, hg, hgf⟩ := List.mem_map.mp hmem
      have hg2 := (inv.mem g hg).2
      have : g = f := by
        apply Prod.ext
        · rw [hg2, hf2, hgf]
        · exact hgf
      rw [this] at hg
      exact hfpq hg
    have hle1 := inv.small e he f.2 hf1 hfidx
    have hle2 : f.1 ≤ e.1 := hcut f hf e hedrop
    have heq : f.1 = e.1 := by
      rw [hf2]; omega
    exact hcutne f hf e hedrop heq
  exact (List.subperm_of_subset hpqnd hsub).perm_of_length_le (by rw [hpqlen, hklen])

/-- C16, amended: in a state reachable from `knn_create` by loads, trained, with a non-empty
training set and `k ≥ 1`, for every 8-component query such that no sample the reference
drops is at the squared distance of a sample it keeps (no tie across the cut after the
first `min(k, n)` sorted pairs), `classify` returns the prediction and the confidence of the
sort-and-truncate reference. -/
theorem classify_refines_sort_truncate (t : KNNTrainer) (query : List Nat)
    (hr : Reachable t) (ht : t.trained = true) (hne : t.samples ≠ []) (hk : 1 ≤ t.k)
    (_hq : query.length = 8)
    (hcutne : ∀ x ∈ sort_truncate t query, ∀ y ∈ sort_dropped t query, x.1 ≠ y.1) :
    classify t query = some (classify_ref t query) := by
  have hw := reachable_wf t hr
  obtain ⟨pq, hs, inv⟩ := scan_spec t query hw hk
  have hperm := scan_perm_sort_truncate t query pq inv hcutne
  have hguard : (!t.trained || t.samples.isEmpty) = false := by
    cases hsm : t.samples with
    | nil => exact absurd hsm hne
    | cons a l => simp [ht]
  rw [classify_of_scan t query pq ht hne hs]
  unfold classify_ref
  rw [hguard]
  simp only [Bool.false_eq_true, if_false]
  rw [tally_eq_of_perm t.labels pq _ hperm, hperm.length_eq]

theorem classify_refines_sort_truncate_witness :
    Reachable repeat_state ∧ repeat_state.trained = true ∧ repeat_state.samples ≠ [] ∧
    1 ≤ repeat_state.k ∧ zero_query.length = 8 ∧
    (∀ x ∈ sort_truncate repeat_state zero_query, ∀ y ∈ sort_dropped repeat_state zero_query,
      x.1 ≠ y.1) ∧
    dist_sq repeat_state zero_query 0 = dist_sq repeat_state zero_query 1 ∧
    sort_truncate repeat_state zero_query = [(0, 0), (0, 1)] ∧
    sort_dropped repeat_state zero_query = [(1, 2)] ∧
    classify repeat_state zero_query = some (classify_ref repeat_state zero_query) :=
  ⟨Reachable.load _ _ _ (Reachable.create 2 1500 (by decide) (by decide)),
    by decide, by decide, by decide, by decide, by decide, by decide, by decide, by decide,
    classify_refines_sort_truncate repeat_state zero_query
      (Reachable.load _ _ _ (Reachable.create 2 1500 (by decide) (by decide)))
      (by decide) (by decide) (by decide) (by decide) (by decide)⟩

end KNN
